import Mathlib

/-!
Verification development for the pinkmask database-anonymization tool.

This file gives a shallow embedding, in Lean 4, of the parts of the Go source
that the specification talks about:

* the dynamically-typed SQLite cell values and their Go `fmt.Sprint` rendering;
* SHA-256, HMAC-SHA-256, hex and unpadded base32 (the Go standard-library
  primitives the transformers are built on), implemented concretely on byte
  lists (`Nat` values below 256);
* the transformer engine (`internal/transform`): the built-in transformers,
  the row-seed function and the `Build` factory;
* the schema model and `TableOrder` (`internal/schema`);
* the subset solver (`internal/subset`): `PKSet`, `BuildSelection` and the
  fixed-point expansion, with SQL queries modelled by their semantics over an
  in-memory database (a finite list of rows per table);
* the copy pipeline (`internal/copy`): per-table SELECT order, chunked
  WHERE-IN subset selection, sequential row processing and the
  order-preserving parallel writer.

Machine integers are modelled as `Nat` bit patterns with explicit reduction
modulo `2 ^ w` where the Go code can wrap (the Go `int64` seed is carried as
its 64-bit two's-complement bit pattern; `xor` and the zero test agree between
the signed value and the pattern).  External Go standard-library functions
with no algorithmic role in the claims (regexp matching, `path.Match`
globbing, `math/rand`, time parsing) are abstracted as parameters collected
in the `Ext` structure; SHA-256 and its derivatives are implemented in full
so that theorems can be evaluated on concrete inputs.
-/

namespace Pinkmask

/-- Dynamically-typed SQLite cell values as scanned by the Go `database/sql`
layer: `nil`, `int64`, `string` and `[]byte`.  SQLite `REAL` values are left
out of the model: no claim exercises them and floating point is outside the
shallow embedding; every transformer treats them through `fmt.Sprint` exactly
like the other variants. -/
inductive Value where
  | vnull : Value
  | vint : Int → Value
  | vtext : String → Value
  | vblob : List Nat → Value
deriving DecidableEq, Repr

/-- Go `fmt.Sprint` on the cell values the SQLite driver produces: `nil`
prints as `<nil>`, an `int64` in decimal, a `string` verbatim, and a byte
slice as the space-separated decimal list in brackets. -/
def goSprint : Value → String
  | .vnull => "<nil>"
  | .vint i => toString i
  | .vtext s => s
  | .vblob bs => "[" ++ String.intercalate " " (bs.map (fun b => toString b)) ++ "]"

/-- Textual dedup key of a PK tuple (`keyFor` in both `subset.go` and
`copy.go`): the `|`-joined `fmt.Sprint` forms of the values. -/
def keyFor (values : List Value) : String :=
  String.intercalate "|" (values.map goSprint)

/-- UTF-8 bytes of a Go string (Go strings are byte sequences; all literals in
the repository are UTF-8). -/
def strBytes (s : String) : List Nat :=
  (s.data.map (fun c => (String.utf8EncodeChar c).map UInt8.toNat)).flatten

/-- Truncation to a 32-bit word. -/
def w32 (n : Nat) : Nat := n % 4294967296

/-- Right rotation of a 32-bit word by `n` places. -/
def rotr32 (n x : Nat) : Nat := w32 (x >>> n ||| x <<< (32 - n))

/-- Big-endian integer value of a byte list (used both for the SHA-256
message schedule and as the specification-side reading of digest prefixes). -/
def beNat (bs : List Nat) : Nat := bs.foldl (fun a b => a * 256 + b) 0

/-- Big-endian 8-byte encoding of a natural number (SHA-256 length field). -/
def beBytes8 (n : Nat) : List Nat :=
  (List.range 8).map (fun i => (n >>> (8 * (7 - i))) % 256)

/-- Big-endian 4-byte encoding of a 32-bit word. -/
def be4Bytes (x : Nat) : List Nat :=
  [(x >>> 24) % 256, (x >>> 16) % 256, (x >>> 8) % 256, x % 256]

/-- Splitting a list into consecutive chunks of `n` elements, the last chunk
possibly shorter (the Go pattern `for i := 0; i < len(values); i += size`):
chunk `i` is the slice starting at offset `i * n`. -/
def chunksOf (sz : Nat) (xs : List α) : List (List α) :=
  (List.range ((xs.length + sz - 1) / sz)).map (fun i => (xs.drop (i * sz)).take sz)

/-- SHA-256 round constants. -/
def shaK : List Nat :=
  [1116352408, 1899447441, 3049323471, 3921009573, 961987163, 1508970993,
   2453635748, 2870763221, 3624381080, 310598401, 607225278, 1426881987,
   1925078388, 2162078206, 2614888103, 3248222580, 3835390401, 4022224774,
   264347078, 604807628, 770255983, 1249150122, 1555081692, 1996064986,
   2554220882, 2821834349, 2952996808, 3210313671, 3336571891, 3584528711,
   113926993, 338241895, 666307205, 773529912, 1294757372, 1396182291,
   1695183700, 1986661051, 2177026350, 2456956037, 2730485921, 2820302411,
   3259730800, 3345764771, 3516065817, 3600352804, 4094571909, 275423344,
   430227734, 506948616, 659060556, 883997877, 958139571, 1322822218,
   1537002063, 1747873779, 1955562222, 2024104815, 2227730452, 2361852424,
   2428436474, 2756734187, 3204031479, 3329325298]

/-- SHA-256 initial hash state (decimal words). -/
def shaH0 : List Nat :=
  [1779033703, 3144134277, 1013904242, 2773480762,
   1359893119, 2600822924, 528734635, 1541459225]

/-- SHA-256 big sigma 0. -/
def bigSigma0 (x : Nat) : Nat := rotr32 2 x ^^^ rotr32 13 x ^^^ rotr32 22 x

/-- SHA-256 big sigma 1. -/
def bigSigma1 (x : Nat) : Nat := rotr32 6 x ^^^ rotr32 11 x ^^^ rotr32 25 x

/-- SHA-256 small sigma 0. -/
def smallSigma0 (x : Nat) : Nat := rotr32 7 x ^^^ rotr32 18 x ^^^ (x >>> 3)

/-- SHA-256 small sigma 1. -/
def smallSigma1 (x : Nat) : Nat := rotr32 17 x ^^^ rotr32 19 x ^^^ (x >>> 10)

/-- SHA-256 choice function (the complement is taken within 32 bits). -/
def shaCh (x y z : Nat) : Nat := (x &&& y) ^^^ ((x ^^^ 0xffffffff) &&& z)

/-- SHA-256 majority function. -/
def shaMaj (x y z : Nat) : Nat := x &&& y ^^^ (y &&& z) ^^^ (x &&& z)

/-- SHA-256 padding: append `0x80`, zeros to 56 mod 64, then the bit length
as a big-endian 64-bit integer. -/
def shaPad (msg : List Nat) : List Nat :=
  let padZeros := (119 - msg.length % 64) % 64
  msg ++ [0x80] ++ List.replicate padZeros 0 ++ beBytes8 (8 * msg.length)

/-- One extension step of the SHA-256 message schedule. -/
def shaExtendStep (ws : List Nat) : List Nat :=
  let n := ws.length
  ws ++ [w32 (smallSigma1 (ws.getD (n - 2) 0) + ws.getD (n - 7) 0 +
              smallSigma0 (ws.getD (n - 15) 0) + ws.getD (n - 16) 0)]

/-- The 64-word SHA-256 message schedule of one 64-byte block. -/
def shaSchedule (block : List Nat) : List Nat :=
  let first16 := (List.range 16).map (fun i => beNat ((block.drop (4 * i)).take 4))
  (List.range 48).foldl (fun ws _ => shaExtendStep ws) first16

/-- One SHA-256 compression round on the 8-word working state. -/
def shaCompressStep (st : List Nat) (kw : Nat × Nat) : List Nat :=
  match st with
  | [wa, wb, wc, wd, we, wf, wg, wh] =>
      let t1 := w32 (wh + bigSigma1 we + shaCh we wf wg + kw.1 + kw.2)
      let t2 := w32 (bigSigma0 wa + shaMaj wa wb wc)
      [w32 (t1 + t2), wa, wb, wc, w32 (wd + t1), we, wf, wg]
  | other => other

/-- SHA-256 compression of one 64-byte block into the 8-word hash state. -/
def shaCompress (h : List Nat) (block : List Nat) : List Nat :=
  let st := ((shaK.zip (shaSchedule block)).foldl shaCompressStep h)
  (h.zip st).map (fun p => w32 (p.1 + p.2))

/-- SHA-256 of a byte list, as its 32 digest bytes (Go `crypto/sha256`). -/
def sha256 (msg : List Nat) : List Nat :=
  let blocks := chunksOf 64 (shaPad msg)
  ((blocks.foldl shaCompress shaH0).map be4Bytes).flatten

/-- Lowercase hexadecimal digit characters. -/
def hexDigitChar (n : Nat) : Char := "0123456789abcdef".data.getD n '0'

/-- Lowercase hexadecimal encoding of a byte list (Go `hex.EncodeToString`). -/
def hexOfBytes (bs : List Nat) : String :=
  String.mk ((bs.map (fun b => [hexDigitChar (b / 16), hexDigitChar (b % 16)])).flatten)

/-- Bits of one byte, most significant first. -/
def byteBits (b : Nat) : List Bool :=
  (List.range 8).map (fun i => (b >>> (7 - i)) &&& 1 = 1)

/-- Value of a bit list read most-significant-first. -/
def bitsToNat (bits : List Bool) : Nat :=
  bits.foldl (fun a b => 2 * a + (if b then 1 else 0)) 0

/-- The RFC 4648 standard base32 alphabet used by Go `encoding/base32`. -/
def base32Alphabet : List Char := "ABCDEFGHIJKLMNOPQRSTUVWXYZ234567".data

/-- Unpadded standard base32 of a byte list
(Go `base32.StdEncoding.WithPadding(base32.NoPadding)`): the byte bits are
split into 5-bit groups, the last group zero-padded to 5 bits, each group
mapped through the alphabet. -/
def base32NoPad (bs : List Nat) : String :=
  let bits := (bs.map byteBits).flatten
  let groups := chunksOf 5 bits
  String.mk (groups.map (fun g =>
    base32Alphabet.getD (bitsToNat (g ++ List.replicate (5 - g.length) false)) 'A'))

/-- HMAC-SHA-256 of a message under a key (Go `crypto/hmac` with
`sha256.New`): keys longer than the 64-byte block are hashed first, the key
is zero-padded to 64 bytes, and the digest is
`SHA-256(opad ∥ SHA-256(ipad ∥ msg))`. -/
def hmacSha256 (key msg : List Nat) : List Nat :=
  let k0 := if 64 < key.length then sha256 key else key
  let k1 := k0 ++ List.replicate (64 - k0.length) 0
  let ipad := k1.map (fun b => b ^^^ 0x36)
  let opad := k1.map (fun b => b ^^^ 0x5c)
  sha256 (opad ++ sha256 (ipad ++ msg))

/-- External Go standard-library functionality used by the transformers and
the pipeline but carrying no algorithmic content for the claims: regexp
replacement and pattern compilation (`regexp`), the deterministic PRNG draws
(`math/rand`: `intn seed k n` is the value of the `k`-th `Intn(n)` call of a
generator freshly seeded with the row seed bit pattern `seed`), RFC 3339 and
`YYYY-MM-DD` time parsing and formatting over Unix seconds (`time`), and
shell-style glob matching (`path.Match`). -/
structure Ext where
  regexReplaceAll : String → String → String → String
  regexCompileOk : String → Bool
  intn : Nat → Nat → Nat → Nat
  parseRFC3339 : String → Option Int
  parseDate : String → Option Int
  formatRFC3339 : Int → String
  formatDate : Int → String
  pathMatch : String → String → Bool

/-- Per-row transformer context (`transform.RowContext`): table name, primary
key tuple, run seed and salt.  The Go `int64` seed is carried as its 64-bit
bit pattern. -/
structure RowContext where
  table : String
  pk : List Value
  seed : Nat
  salt : String
deriving DecidableEq, Repr

/-- The modulus of 64-bit machine words. -/
def u64 : Nat := 18446744073709551616

/-- The bytes hashed by `RowSeed`: salt, table name and the `fmt.Sprint`
forms of the primary-key values, concatenated. -/
def rowSeedMsg (row : RowContext) : List Nat :=
  strBytes row.salt ++ strBytes row.table ++
    (row.pk.map (fun v => strBytes (goSprint v))).flatten

/-- The row-seed function (`RowSeed` in transformers.go): fold the first 8
bytes of the SHA-256 digest through `seed = (seed << 8) | b` on the int64 bit
pattern, substitute the run seed when the fold yields zero, then xor the run
seed. -/
def RowSeed (row : RowContext) : Nat :=
  let seed0 := ((sha256 (rowSeedMsg row)).take 8).foldl
      (fun s b => (((s <<< 8) % u64) ||| b)) 0
  let seed1 := if seed0 = 0 then row.seed else seed0
  seed1 ^^^ row.seed

/-- The built-in transformers of transformers.go, with their construction
parameters.  `hashSha256` and `hmacSha256` store the salt they were built
with (`NewHashSha256` / `NewHmacSha256`), `mapReplace` its replacement map,
and `dateShift` its (already clamped) maximum day shift. -/
inductive Builtin where
  | hashSha256 (salt : String) (maxLen : Int)
  | hmacSha256 (salt : String) (maxLen : Int)
  | stableTokenize (maxLen : Int)
  | regexReplace (pattern repl : String)
  | setNull
  | setValue (value : Value)
  | mapReplace (m : List (String × String))
  | fakerName
  | fakerEmail
  | fakerAddress
  | fakerPhone
  | dateShift (maxDays : Int)
deriving DecidableEq, Repr

/-- Go `strings.ToLower` on the ASCII strings of this code base (transformer
type names, hex and base32 alphabets), modelled character by character. -/
def goToLower (s : String) : String := String.mk (s.data.map Char.toLower)

/-- Go slice truncation `out = out[:maxLen]` guarded by
`maxLen > 0 && maxLen < len(out)` (all truncated strings here are ASCII, so
byte indices and character indices agree). -/
def truncMax (maxLen : Int) (out : String) : String :=
  if 0 < maxLen ∧ maxLen < (out.length : Int) then out.take maxLen.toNat else out

/-- First-match lookup in a Go `map[string]string`, modelled as an
association list. -/
def lookupStr (m : List (String × String)) (k : String) : Option String :=
  (m.find? (fun p => p.1 == k)).map (·.2)

/-- Fixed faker first names. -/
def firstNames : List String :=
  ["Alex", "Jamie", "Taylor", "Jordan", "Morgan", "Casey", "Riley", "Avery",
   "Parker", "Reese"]

/-- Fixed faker last names. -/
def lastNames : List String :=
  ["Smith", "Johnson", "Lee", "Brown", "Davis", "Miller", "Wilson", "Moore",
   "Clark", "Hall"]

/-- Fixed faker email domains. -/
def emailDomains : List String :=
  ["example.com", "mail.local", "demo.test", "sample.org"]

/-- Fixed faker street names. -/
def streetNames : List String :=
  ["Oak", "Maple", "Cedar", "Pine", "Elm", "Birch", "Willow", "Lake", "Hill",
   "Sunset"]

/-- Fixed faker city names. -/
def cityNames : List String :=
  ["Springfield", "Riverton", "Fairview", "Franklin", "Greenville", "Bristol",
   "Clinton", "Georgetown"]

/-- Fixed faker state codes. -/
def stateCodes : List String := ["CA", "NY", "TX", "FL", "WA", "IL", "PA", "AZ"]

/-- The `Transform` method of each built-in transformer (transformers.go).
Every built-in returns a nil error in the source, so the result is a plain
`Value`. -/
def transform (ext : Ext) : Builtin → Value → RowContext → Value
  | .hashSha256 salt maxLen, v, _ =>
    match v with
    | .vnull => .vnull
    | v => .vtext (truncMax maxLen (hexOfBytes (sha256 (strBytes (salt ++ goSprint v)))))
  | .hmacSha256 salt maxLen, v, _ =>
    match v with
    | .vnull => .vnull
    | v => .vtext (truncMax maxLen (hexOfBytes (hmacSha256 (strBytes salt) (strBytes (goSprint v)))))
  | .stableTokenize maxLen, v, row =>
    match v with
    | .vnull => .vnull
    | v =>
      let out := goToLower (base32NoPad (sha256 (strBytes (row.salt ++ goSprint v))))
      if 0 < maxLen ∧ maxLen < (out.length : Int) then .vtext (out.take maxLen.toNat)
      else if maxLen = 0 ∧ 16 < out.length then .vtext (out.take 16)
      else .vtext out
  | .regexReplace pattern repl, v, _ =>
    match v with
    | .vnull => .vnull
    | v => .vtext (ext.regexReplaceAll pattern repl (goSprint v))
  | .setNull, _, _ => .vnull
  | .setValue value, _, _ => value
  | .mapReplace m, v, _ =>
    match v with
    | .vnull => .vnull
    | v =>
      let s := goSprint v
      match lookupStr m s with
      | some r => .vtext r
      | none => .vtext s
  | .fakerName, _, row =>
    let rs := RowSeed row
    let first := firstNames.getD (ext.intn rs 0 firstNames.length) ""
    let last := lastNames.getD (ext.intn rs 1 lastNames.length) ""
    .vtext (first ++ " " ++ last)
  | .fakerEmail, _, row =>
    let rs := RowSeed row
    let first := goToLower (firstNames.getD (ext.intn rs 0 firstNames.length) "")
    let last := goToLower (lastNames.getD (ext.intn rs 1 lastNames.length) "")
    let domain := emailDomains.getD (ext.intn rs 2 emailDomains.length) ""
    .vtext (first ++ "." ++ last ++ "@" ++ domain)
  | .fakerAddress, _, row =>
    let rs := RowSeed row
    let num := ext.intn rs 0 8999 + 100
    let street := streetNames.getD (ext.intn rs 1 streetNames.length) ""
    let city := cityNames.getD (ext.intn rs 2 cityNames.length) ""
    let state := stateCodes.getD (ext.intn rs 3 stateCodes.length) ""
    let zip := ext.intn rs 4 89999 + 10000
    .vtext (toString num ++ " " ++ street ++ " St, " ++ city ++ ", " ++ state ++ " " ++ toString zip)
  | .fakerPhone, _, row =>
    let rs := RowSeed row
    let area := ext.intn rs 0 800 + 200
    let pre := ext.intn rs 1 800 + 200
    let line := ext.intn rs 2 9000 + 1000
    .vtext (toString area ++ "-" ++ toString pre ++ "-" ++ toString line)
  | .dateShift maxDays, v, row =>
    match v with
    | .vnull => .vnull
    | .vint n =>
      let shiftDays := (ext.intn (RowSeed row) 0 (2 * maxDays + 1).toNat : Int) - maxDays
      .vint (n + shiftDays * 86400)
    | .vtext s =>
      let shiftDays := (ext.intn (RowSeed row) 0 (2 * maxDays + 1).toNat : Int) - maxDays
      match ext.parseRFC3339 s with
      | some t => .vtext (ext.formatRFC3339 (t + shiftDays * 86400))
      | none =>
        match ext.parseDate s with
        | some t => .vtext (ext.formatDate (t + shiftDays * 86400))
        | none => .vtext s
    | .vblob bs => .vblob bs

/-- Transformer configuration record (`config.TransformConfig`).  The
`params` map values are cell values (the only key the core reads is
`max_days`, through `asInt`). -/
structure TransformConfig where
  type : String := ""
  params : List (String × Value) := []
  value : Value := .vnull
  pattern : String := ""
  replace : String := ""
  locale : String := ""
  maxLen : Int := 0
  map : List (String × String) := []
  lookupTable : String := ""
  lookupKey : String := ""
  lookupValue : String := ""
deriving DecidableEq, Repr

/-- Go `asInt` on modelled cell values: only integers convert (the float
cases of the source concern YAML-decoded numbers, which the model carries as
integers). -/
def asInt : Value → Option Int
  | .vint i => some i
  | _ => none

/-- The transformer factory (`transform.Build`): lower-case the `type` field
and dispatch.  The plugin registry is empty unless dynamic plugins were
loaded, which is outside the core (plugin_stub.go / the `plugin` loader), so
the switch below is the whole factory.  Note the map transformer is reached
by the case string `map`. -/
def Build (ext : Ext) (cfg : TransformConfig) (salt : String) : Except String Builtin :=
  let key := goToLower cfg.type
  if key = "hashsha256" then .ok (.hashSha256 salt cfg.maxLen)
  else if key = "hmacsha256" then .ok (.hmacSha256 salt cfg.maxLen)
  else if key = "stabletokenize" then .ok (.stableTokenize cfg.maxLen)
  else if key = "regexreplace" then
    if ext.regexCompileOk cfg.pattern then .ok (.regexReplace cfg.pattern cfg.replace)
    else .error ("invalid regex pattern: " ++ cfg.pattern)
  else if key = "setnull" then .ok .setNull
  else if key = "setvalue" then .ok (.setValue cfg.value)
  else if key = "fakername" then .ok .fakerName
  else if key = "fakeremail" then .ok .fakerEmail
  else if key = "fakeraddress" then .ok .fakerAddress
  else if key = "fakerphone" then .ok .fakerPhone
  else if key = "dateshift" then
    let raw : Option Value := (cfg.params.find? (fun p => p.1 == "max_days")).map (fun p => p.2)
    let maxDays : Int :=
      match raw with
      | some v => (asInt v).getD 30
      | none => 30
    .ok (.dateShift (if maxDays ≤ 0 then 30 else maxDays))
  else if key = "map" then .ok (.mapReplace cfg.map)
  else .error ("unknown transformer type: " ++ cfg.type)


/-- Order key of a Go string: its code points.  Go compares strings by byte
(`memcmp`); on UTF-8 data the byte order and the code-point order agree, so
the lexicographic order on code-point lists models Go string comparison. -/
def strKey (s : String) : List Nat := s.data.map Char.toNat

/-- Go string less-or-equal (`sort.Strings` order). -/
def strLe (a b : String) : Prop := strKey a ≤ strKey b

instance : DecidableRel strLe :=
  fun a b => inferInstanceAs (Decidable (strKey a ≤ strKey b))

instance : IsTotal String strLe := ⟨fun _ _ => le_total _ _⟩

instance : IsTrans String strLe := ⟨fun _ _ _ h1 h2 => le_trans h1 h2⟩

/-- Go string strict less (for `sort.Slice` comparators). -/
def strLt (a b : String) : Prop := strKey a < strKey b

instance : DecidableRel strLt :=
  fun a b => inferInstanceAs (Decidable (strKey a < strKey b))

/-- Ascending sort of strings (`sort.Strings`). -/
def sortStrings (l : List String) : List String := l.insertionSort strLe

/-- Order key of a cell value under SQLite value comparison: the type rank
(null < integer < text < blob) followed by the in-type key.  Text compares by
code point (binary collation), blobs bytewise. -/
def valueKey : Value → List Int
  | .vnull => [0]
  | .vint i => [1, i]
  | .vtext s => 2 :: (s.data.map (fun c => (c.toNat : Int)))
  | .vblob bs => 3 :: bs.map (fun b => (b : Int))

/-- Order key of a value tuple: columns compare left to right (multi-column
`ORDER BY`). -/
def tupleKey (t : List Value) : List (List Int) := t.map valueKey

/-- SQLite `ORDER BY` less-or-equal on value tuples. -/
def tupleLe (a b : List Value) : Prop := tupleKey a ≤ tupleKey b

instance : DecidableRel tupleLe :=
  fun a b => inferInstanceAs (Decidable (tupleKey a ≤ tupleKey b))

instance : IsTotal (List Value) tupleLe := ⟨fun _ _ => le_total _ _⟩

instance : IsTrans (List Value) tupleLe := ⟨fun _ _ _ h1 h2 => le_trans h1 h2⟩

/-- Sorting rows by a key tuple (the semantics of `ORDER BY` on the rows a
query returns; ties keep the underlying order, which SQL leaves open). -/
def sortTuplesBy (key : α → List Value) (l : List α) : List α :=
  l.insertionSort (fun a b => tupleLe (key a) (key b))

/-- Ascending adjacent-pair ordering of the key tuples of a row sequence
(what `ORDER BY` guarantees). -/
def ascendingBy (key : α → List Value) (l : List α) : Prop :=
  List.Chain' (fun a b => tupleLe (key a) (key b)) l

instance (key : α → List Value) (l : List α) : Decidable (ascendingBy key l) :=
  inferInstanceAs (Decidable (List.Chain' _ l))

/-- Foreign-key row as returned by `PRAGMA foreign_key_list` (schema.go
`ForeignKey`): constraint id, column seq, referenced table, the `from` column
of this table and the `to` column of the referenced table. -/
structure ForeignKey where
  id : Int
  seq : Int := 0
  table : String
  fromCol : String := ""
  toCol : String := ""
  onUpdate : String := ""
  onDelete : String := ""
deriving DecidableEq, Repr

/-- Column metadata (schema.go `Column`). -/
structure Column where
  name : String
  type : String := ""
  notNull : Bool := false
  defaultSQL : Option String := none
  pk : Bool := false
deriving DecidableEq, Repr

/-- Table metadata (schema.go `Table`): primary keys are already in
key-ordinal order, as `loadTableInfo` sorts them. -/
structure Table where
  name : String
  sql : String := ""
  columns : List Column := []
  primaryKeys : List String := []
  foreignKeys : List ForeignKey := []
  withoutRowID : Bool := false
deriving DecidableEq, Repr

/-- Catalogued view/index/trigger (schema.go `SQLItem`). -/
structure SQLItem where
  name : String
  sql : String := ""
  type : String := ""
deriving DecidableEq, Repr

/-- The introspected schema (schema.go `Schema`).  The Go `map[string]*Table`
is carried as an association list in some iteration order; Go map iteration
order is arbitrary, so theorems that depend on it quantify over permutations
of this list.  Views, indexes and triggers are catalogued in `sqlite_master`
name order. -/
structure Schema where
  tables : List (String × Table)
  views : List SQLItem := []
  indexes : List SQLItem := []
  triggers : List SQLItem := []
deriving DecidableEq, Repr

/-- Table names in iteration order. -/
def Schema.names (s : Schema) : List String := s.tables.map (fun p => p.1)

/-- Map lookup `s.Tables[name]`. -/
def Schema.find (s : Schema) (name : String) : Option Table :=
  (s.tables.find? (fun p => p.1 == name)).map (fun p => p.2)

/-- Whether the schema has a table of the given name. -/
def Schema.hasTable (s : Schema) (n : String) : Bool := s.names.contains n

/-- The FK-graph edges parent → child in iteration order (`TableOrder`'s
graph-building loop): one edge per foreign-key row whose referenced table
exists, so a multi-column FK contributes one edge per column, exactly as the
Go loop increments `indeg` once per row. -/
def schemaEdges (s : Schema) : List (String × String) :=
  (s.tables.map (fun p =>
    (p.2.foreignKeys.filter (fun fk => s.hasTable fk.table)).map
      (fun fk => (fk.table, p.1)))).flatten

/-- Adjacency list of a parent (`graph[n]` in `TableOrder`): its children in
edge order, with multiplicity. -/
def graphChildren (edges : List (String × String)) (p : String) : List String :=
  (edges.filter (fun e => e.1 == p)).map (fun e => e.2)

/-- Initial indegrees (`indeg` after the graph-building loop): a Go map read
with default 0, modelled extensionally as a function.  Every table name
starts at 0 and gains one per incoming edge, so the final map sends `n` to
the number of edges into `n` (0 for non-tables, which also matches the map
default). -/
def initIndeg (s : Schema) : String → Int :=
  fun n => (((schemaEdges s).filter (fun e => e.2 == n)).length : Int)

/-- Go `indeg[dep]--`: pointwise decrement (reads of absent keys default to
0, and writing materialises the key, which the function model captures). -/
def indegDec (ind : String → Int) (n : String) : String → Int :=
  fun x => if x = n then ind n - 1 else ind x

/-- The inner dependency loop of one Kahn iteration: decrement each child of
the popped node and enqueue it when its indegree reaches exactly zero. -/
def processDeps : List String → (String → Int) → List String →
    ((String → Int) × List String)
  | [], ind, queue => (ind, queue)
  | dep :: deps, ind, queue =>
    let ind2 := indegDec ind dep
    if ind2 dep = 0 then processDeps deps ind2 (queue ++ [dep])
    else processDeps deps ind2 queue

/-- The Kahn loop of `TableOrder`: pop the queue head, process its outgoing
edges, re-sort the queue, repeat.  The fuel bound `s.tables.length + 1` is
enough for any schema with distinct table names because every name enters
the queue at most once (established in the theorems below), so the loop body
runs at most once per table. -/
def kahnLoop (graph : String → List String) : Nat → List String →
    (String → Int) → List String
  | 0, _, _ => []
  | _ + 1, [], _ => []
  | fuel + 1, n :: rest, ind =>
    let st := processDeps (graph n) ind rest
    n :: kahnLoop graph fuel (sortStrings st.2) st.1

/-- The portion of `TableOrder` produced by Kahn's algorithm (before any
unreached tables are appended). -/
def kahnPart (s : Schema) : List String :=
  let edges := schemaEdges s
  let ind := initIndeg s
  let queue := sortStrings ((Schema.names s).filter (fun n => ind n == 0))
  kahnLoop (graphChildren edges) (s.tables.length + 1) queue ind

/-- `TableOrder` (schema.go): Kahn's algorithm with the queue kept sorted,
then any names missing from the result (cycles or unreached tables) appended
in lexicographic order. -/
def TableOrder (s : Schema) : List String :=
  let order := kahnPart s
  if order.length ≠ s.tables.length then
    order ++ sortStrings ((Schema.names s).filter (fun n => !(order.contains n)))
  else order

/-- Set-level FK edge relation: `edgeIn s p c` holds when child table `c`
has a foreign-key row referencing the existing table `p`. -/
def edgeIn (s : Schema) (p c : String) : Prop := (p, c) ∈ schemaEdges s

instance (s : Schema) (p c : String) : Decidable (edgeIn s p c) :=
  inferInstanceAs (Decidable (_ ∈ _))

/-- A table is ready with respect to an emitted prefix when it is in the
schema, not yet emitted, and all its parents are emitted. -/
def readyAfter (s : Schema) (done : List String) (y : String) : Prop :=
  y ∈ Schema.names s ∧ y ∉ done ∧ ∀ e ∈ schemaEdges s, e.2 = y → e.1 ∈ done

instance (s : Schema) (done : List String) (y : String) :
    Decidable (readyAfter s done y) := by
  unfold readyAfter
  infer_instance

/-- Specification of the lexicographic Kahn sequence starting from an emitted
prefix: at each step the emitted table is ready and lexicographically least
among the ready tables, and the sequence stops only when no table is ready. -/
inductive GreedySeq (s : Schema) : List String → List String → Prop
  | nil (done : List String) (h : ∀ z, ¬ readyAfter s done z) : GreedySeq s done []
  | cons (done : List String) (y : String) (rest : List String)
      (hy : readyAfter s done y)
      (hmin : ∀ z, readyAfter s done z → strLe y z)
      (hrest : GreedySeq s (done ++ [y]) rest) : GreedySeq s done (y :: rest)

/-- The S5 example schema: tables `A`, `B(a → A)`, `C(b → B)`. -/
def exampleSchemaABC : Schema where
  tables :=
    [("C", { name := "C", primaryKeys := ["id"],
             foreignKeys := [{ id := 0, table := "B", fromCol := "b", toCol := "id" }] }),
     ("A", { name := "A", primaryKeys := ["id"] }),
     ("B", { name := "B", primaryKeys := ["id"],
             foreignKeys := [{ id := 0, table := "A", fromCol := "a", toCol := "id" }] })]



/-- A database row: an assignment of cell values to column names. -/
abbrev Row := List (String × Value)

/-- Reading a column of a row (SQL column reference; absent columns read as
NULL, which never arises for well-formed queries against stored tables). -/
def rowGet (r : Row) (c : String) : Value :=
  ((r.find? (fun p => p.1 == c)).map (fun p => p.2)).getD .vnull

/-- Projection of a row onto a column list, in order. -/
def rowTuple (r : Row) (cols : List String) : List Value := cols.map (rowGet r)

/-- The in-memory database the SQL queries of the subset solver and the copy
pipeline are interpreted against: table name to stored row list (in stored
order). -/
abbrev DB := List (String × List Row)

/-- Rows of a table (empty for unknown tables). -/
def dbRows (db : DB) (name : String) : List Row :=
  ((db.find? (fun p => p.1 == name)).map (fun p => p.2)).getD []

/-- Per-table set of admitted primary-key tuples (subset.go `PKSet`): the PK
column list, the dedup keys (the Go `Keys` map domain) and the value tuples
in insertion order. -/
structure PKSet where
  cols : List String
  keys : List String
  values : List (List Value)
deriving DecidableEq, Repr

/-- NewPKSet (subset.go). -/
def NewPKSet (cols : List String) : PKSet :=
  { cols := cols, keys := [], values := [] }

/-- PKSet.Add (subset.go): no-op returning false when the dedup key is
already present, otherwise record the key and append the tuple, returning
true. -/
def PKSet.add (s : PKSet) (vals : List Value) : PKSet × Bool :=
  if s.keys.contains (keyFor vals) then (s, false)
  else ({ s with keys := keyFor vals :: s.keys, values := s.values ++ [vals] }, true)

/-- The `for … { if set.Add(row) { added = true } }` loops of subset.go. -/
def addAll (ps : PKSet) (ts : List (List Value)) : PKSet × Bool :=
  ts.foldl (fun acc t =>
    let r := acc.1.add t
    (r.1, acc.2 || r.2)) (ps, false)

/-- PKSet.ValuesByColumns (subset.go): the stored tuples when the requested
columns are exactly the set columns, otherwise the projection through column
positions (error on an absent column; empty requests are an error). -/
def PKSet.valuesByColumns (s : PKSet) (cols : List String) :
    Except String (List (List Value)) :=
  if cols = [] then .error "no columns requested"
  else if cols = s.cols then .ok s.values
  else do
    let idx ← cols.mapM (fun c =>
      match s.cols.indexOf? c with
      | some i => Except.ok i
      | none => Except.error ("missing column " ++ c))
    .ok (s.values.map (fun row => idx.map (fun i => row.getD i .vnull)))

/-- The selection (subset.go `Selection`): the Go `map[string]*PKSet` as an
association list in insertion order. -/
structure Selection where
  sets : List (String × PKSet)
deriving DecidableEq, Repr

/-- Map read `selection.Sets[name]`. -/
def Selection.get (sel : Selection) (name : String) : Option PKSet :=
  (sel.sets.find? (fun p => p.1 == name)).map (fun p => p.2)

/-- Map write `selection.Sets[name] = set` (replace in place, or append a new
entry). -/
def Selection.put (sel : Selection) (name : String) (ps : PKSet) : Selection :=
  if sel.sets.any (fun p => p.1 == name) then
    { sets := sel.sets.map (fun p => if p.1 == name then (name, ps) else p) }
  else { sets := sel.sets ++ [(name, ps)] }

/-- tablePKColumns (subset.go): the declared PK columns, else the synthetic
`rowid` column, and a hard error for a WITHOUT ROWID table with no PK. -/
def tablePKColumns (tbl : Table) : Except String (List String × Bool) :=
  if tbl.primaryKeys ≠ [] then .ok (tbl.primaryKeys, false)
  else if tbl.withoutRowID then
    .error ("table " ++ tbl.name ++ " has no primary key")
  else .ok (["rowid"], true)

/-- Multi-column FK group (subset.go `FKGroup`). -/
structure FKGroup where
  refTable : String
  fromCols : List String
  toCols : List String
deriving DecidableEq, Repr

/-- groupFKs (subset.go): group the FK rows by constraint id, emit groups in
ascending id order; the referenced table is taken from the first row of the
group and the column pairs keep row order. -/
def groupFKs (tbl : Table) : List FKGroup :=
  let ids := (tbl.foreignKeys.map (fun fk => fk.id)).eraseDups
  (ids.insertionSort (fun a b => a ≤ b)).map (fun i =>
    let fks := tbl.foreignKeys.filter (fun fk => fk.id == i)
    { refTable := ((fks.head?.map (fun fk => fk.table)).getD ""),
      fromCols := fks.map (fun fk => fk.fromCol),
      toCols := fks.map (fun fk => fk.toCol) })

/-- chunkValues (subset.go and copy.go): a single chunk when at most `size`
tuples (or a non-positive size), else consecutive chunks of `size`. -/
def chunkValues (values : List (List Value)) (size : Nat) :
    List (List (List Value)) :=
  if size = 0 ∨ values.length ≤ size then [values]
  else chunksOf size values

/-- selectFKValues (subset.go): for each 500-chunk of the child PK tuples,
the DISTINCT projections onto the FK source columns of the child rows whose
PK tuple is in the chunk and whose source columns are all non-null
(`SELECT DISTINCT from_cols FROM child WHERE pk IN (…) AND from_cols IS NOT
NULL`), concatenated over chunks. -/
def selectFKValues (db : DB) (childTbl : Table) (fk : FKGroup) (childSet : PKSet) :
    Except String (List (List Value)) := do
  let pc ← tablePKColumns childTbl
  let childPKVals ← childSet.valuesByColumns pc.1
  if childPKVals = [] then pure []
  else
    pure ((chunkValues childPKVals 500).map (fun chunk =>
      (((dbRows db childTbl.name).filter (fun r =>
          chunk.contains (rowTuple r pc.1) &&
          fk.fromCols.all (fun c => !(rowGet r c == Value.vnull)))).map
        (fun r => rowTuple r fk.fromCols)).eraseDups)).flatten

/-- selectParentPKs (subset.go): for each 500-chunk of the referenced-value
tuples, insert the PK tuples of the parent rows whose `to` columns form a
tuple in the chunk (`SELECT pk FROM parent WHERE to_cols IN (…)`), writing
the grown set back into the selection. -/
def selectParentPKs (db : DB) (parentTbl : Table) (fk : FKGroup)
    (refVals : List (List Value)) (parentSet : PKSet) (sel : Selection) :
    Except String (Selection × Bool) := do
  let pc ← tablePKColumns parentTbl
  let tuples := ((chunkValues refVals 500).map (fun chunk =>
    ((dbRows db parentTbl.name).filter
        (fun r => chunk.contains (rowTuple r fk.toCols))).map
      (fun r => rowTuple r pc.1))).flatten
  let res := addAll parentSet tuples
  pure (sel.put fk.refTable res.1, res.2)

/-- addParentKeys (subset.go): ensure the parent set exists; when its columns
are exactly the `to` columns insert the referenced-value tuples directly,
otherwise look the parent PKs up in the database. -/
def addParentKeys (db : DB) (parentTbl : Table) (fk : FKGroup)
    (refVals : List (List Value)) (sel : Selection) :
    Except String (Selection × Bool) := do
  if refVals = [] then pure (sel, false)
  else do
    let ps ← match sel.get fk.refTable with
      | some ps => Except.ok (ps, sel)
      | none => do
        let pc ← tablePKColumns parentTbl
        let ps := NewPKSet pc.1
        Except.ok (ps, sel.put fk.refTable ps)
    if ps.1.cols == fk.toCols then
      let res := addAll ps.1 refVals
      pure (ps.2.put fk.refTable res.1, res.2)
    else
      selectParentPKs db parentTbl fk refVals ps.1 ps.2

/-- addChildKeys (subset.go): ensure the child set exists, then for each
500-chunk of the parent `to` tuples insert the DISTINCT child PK tuples of
the child rows whose `from` columns form a tuple in the chunk
(`SELECT DISTINCT pk FROM child WHERE from_cols IN (…)`). -/
def addChildKeys (db : DB) (childTbl : Table) (fk : FKGroup) (parentSet : PKSet)
    (sel : Selection) : Except String (Selection × Bool) := do
  let pc ← tablePKColumns childTbl
  let cs :=
    match sel.get childTbl.name with
    | some cs => (cs, sel)
    | none => (NewPKSet pc.1, sel.put childTbl.name (NewPKSet pc.1))
  let parentVals ← parentSet.valuesByColumns fk.toCols
  if parentVals = [] then pure (cs.2, false)
  else
    let tuples := ((chunkValues parentVals 500).map (fun chunk =>
      (((dbRows db childTbl.name).filter
          (fun r => chunk.contains (rowTuple r fk.fromCols))).map
        (fun r => rowTuple r pc.1)).eraseDups)).flatten
    let res := addAll cs.1 tuples
    pure (cs.2.put childTbl.name res.1, res.2)

/-- One (table, FK group) step of an expansion round.  The Go loop fetches
the child set pointer once per table (`hadChild` records whether it existed
then) and the parent set pointer per group before the child-to-parent lift;
set contents are always read through the live map. -/
def runGroup (db : DB) (s : Schema) (childName : String) (hadChild : Bool)
    (fk : FKGroup) (sel : Selection) : Except String (Selection × Bool) := do
  match s.find fk.refTable, s.find childName with
  | some parentTbl, some childTbl => do
    let st1 ←
      (match sel.get childName with
       | some childSet =>
         if hadChild && decide (0 < childSet.values.length) then do
           let refVals ← selectFKValues db childTbl fk childSet
           if 0 < refVals.length then addParentKeys db parentTbl fk refVals sel
           else Except.ok (sel, false)
         else Except.ok (sel, false)
       | none => Except.ok (sel, false))
    match st1.1.get fk.refTable with
    | some parentSet =>
      if (sel.get fk.refTable).isSome && decide (0 < parentSet.values.length) then do
        let st2 ← addChildKeys db childTbl fk parentSet st1.1
        Except.ok (st2.1, st1.2 || st2.2)
      else Except.ok (st1.1, st1.2)
    | none => Except.ok (st1.1, st1.2)
  | _, _ => Except.ok (sel, false)

/-- The accumulation shape of the round loops: run the sub-step on the
current selection and or-accumulate its `changed` flag. -/
def orStep {β : Type} (f : Selection → β → Except String (Selection × Bool))
    (acc : Selection × Bool) (x : β) : Except String (Selection × Bool) := do
  let st ← f acc.1 x
  pure (st.1, acc.2 || st.2)

/-- Accumulation of one FK group into a table's round state. -/
def runTableStep (db : DB) (s : Schema) (childName : String) (hadChild : Bool) :
    Selection × Bool → FKGroup → Except String (Selection × Bool) :=
  orStep (fun sel fk => runGroup db s childName hadChild fk sel)

/-- The FK groups of a named table (empty for unknown names). -/
def tableGroups (s : Schema) (n : String) : List FKGroup :=
  match s.find n with | some t => groupFKs t | none => []

/-- One table of an expansion round: its FK groups in ascending id order;
`hadChild` is whether the table had a set when the table's turn began. -/
def runTable (db : DB) (s : Schema) (childName : String) (sel : Selection) :
    Except String (Selection × Bool) :=
  (tableGroups s childName).foldlM
    (runTableStep db s childName ((sel.get childName).isSome)) (sel, false)

/-- Accumulation of one table into the round state. -/
def runRoundStep (db : DB) (s : Schema) :
    Selection × Bool → String → Except String (Selection × Bool) :=
  orStep (fun sel n => runTable db s n sel)

/-- One full round of `expandSelection`: every table in lexicographic order;
`changed` records whether any insertion happened. -/
def runRound (db : DB) (s : Schema) (sel : Selection) :
    Except String (Selection × Bool) :=
  (sortStrings (Schema.names s)).foldlM (runRoundStep db s) (sel, false)

/-- The fixed-point loop of `expandSelection`: repeat rounds until one makes
no addition.  The Go loop is unbounded; the model carries fuel and returns
`none` when it runs out (termination is the subject of a theorem below). -/
def expandLoop (db : DB) (s : Schema) : Nat → Selection →
    Except String (Option Selection)
  | 0, _ => .ok none
  | fuel + 1, sel => do
    let st ← runRound db s sel
    if st.2 then expandLoop db s fuel st.1 else .ok (some st.1)

/-- Root configuration (config.go `RootConfig`): root table, the optional raw
SQL WHERE fragment modelled by the row predicate it denotes, and the optional
limit. -/
structure RootConfig where
  table : String
  whereClause : Option (Row → Bool) := none
  limit : Int := 0

/-- Subset configuration (config.go `SubsetConfig`). -/
structure SubsetConfig where
  roots : List RootConfig := []

/-- Per-table configuration (config.go `TableConfig`); a `none` column entry
models a YAML null entry, which the pipeline skips. -/
structure TableConfig where
  columns : List (String × Option TransformConfig) := []
  limit : Int := 0
  whereSql : String := ""

/-- The masking configuration (config.go `Config`); the Go maps are carried
as association lists. -/
structure Config where
  includeTables : List String := []
  excludeTables : List String := []
  tables : List (String × TableConfig) := []
  subset : Option SubsetConfig := none

/-- Population of one root (the body of BuildSelection's root loop): skip
empty names, fail on unknown tables, query
`SELECT pk FROM root [WHERE …] ORDER BY pk [LIMIT n]` and insert each
resulting tuple. -/
def loadRoot (db : DB) (s : Schema) (sel : Selection) (root : RootConfig) :
    Except String Selection :=
  if root.table = "" then .ok sel
  else match s.find root.table with
  | none => Except.error ("subset root table not found: " ++ root.table)
  | some tbl => do
    let pc ← tablePKColumns tbl
    let ps := match sel.get root.table with
      | some ps => ps
      | none => NewPKSet pc.1
    let rows0 := (dbRows db root.table).filter
      (fun r => match root.whereClause with | some p => p r | none => true)
    let rows1 := sortTuplesBy (fun r => rowTuple r pc.1) rows0
    let rows2 := if 0 < root.limit then rows1.take root.limit.toNat else rows1
    let newSet := rows2.foldl (fun acc r => (PKSet.add acc (rowTuple r pc.1)).1) ps
    pure (sel.put root.table newSet)

/-- BuildSelection (subset.go): empty selection when there is no subset
configuration or no roots; otherwise populate the roots and run the
fixed-point expansion (with the model fuel). -/
def BuildSelection (db : DB) (s : Schema) (cfg : Option Config) (fuel : Nat) :
    Except String (Option Selection) := do
  let selection : Selection := { sets := [] }
  match cfg with
  | none => return (some selection)
  | some cfg =>
    match cfg.subset with
    | none => return (some selection)
    | some sub =>
      if sub.roots.isEmpty then return (some selection)
      else do
        let selection ← sub.roots.foldlM (loadRoot db s) selection
        expandLoop db s fuel selection


/-- A transformer as the copy pipeline sees it: a pure function of the cell
value and the row context.  Every transformer `Build` can produce is of this
shape (their `Transform` methods never return a non-nil error), so the
pipeline theorems quantify over arbitrary such functions. -/
abbrev Transformer := Value → RowContext → Value

/-- rowFingerprint (copy.go): hex SHA-256 of the NUL-terminated `fmt.Sprint`
forms of the row values. -/
def rowFingerprint (values : List Value) : String :=
  hexOfBytes (sha256 ((values.map (fun v => strBytes (goSprint v) ++ [0])).flatten))

/-- The `colIndex` map of copyTable: position of a column name among the
table columns (Go map lookups of absent names produce the zero index). -/
def colIndexOf (colNames : List String) (c : String) : Nat :=
  (colNames.indexOf? c).getD 0

/-- buildRowContext (copy.go): strip the rowid prefix when present, then
derive the PK values for the row context from the declared PK columns, the
rowid, or the row fingerprint. -/
def buildRowContext (tblName : String) (colNames pkCols : List String)
    (useRowID : Bool) (seed : Nat) (salt : String) (rowValues : List Value) :
    List Value × RowContext :=
  let rowid := rowValues.getD 0 .vnull
  let values := if useRowID then rowValues.drop 1 else rowValues
  let pkValues :=
    if pkCols.isEmpty then
      if useRowID then [rowid] else [.vtext (rowFingerprint values)]
    else pkCols.map (fun pk => values.getD (colIndexOf colNames pk) .vnull)
  (values, { table := tblName, pk := pkValues, seed := seed, salt := salt })

/-- The per-row transformer loop of processRows (copy.go): each configured
column is overwritten with its transform; the transformers touch distinct
column indices, so the Go map iteration order is irrelevant and the model
fixes a list order. -/
def applyTransformers (colNames : List String) (trs : List (String × Transformer))
    (values : List Value) (rc : RowContext) : List Value :=
  trs.foldl (fun vs ct =>
    let idx := colIndexOf colNames ct.1
    vs.set idx (ct.2 (vs.getD idx .vnull) rc)) values

/-- processRowsSequential (copy.go): scan the rows in SELECT order, build the
row context, apply the transformers, insert. -/
def processRowsSequential (tblName : String) (colNames pkCols : List String)
    (useRowID : Bool) (trs : List (String × Transformer)) (seed : Nat)
    (salt : String) (rows : List (List Value)) : List (List Value) :=
  rows.map (fun rv =>
    let p := buildRowContext tblName colNames pkCols useRowID seed salt rv
    applyTransformers colNames trs p.1 p.2)

/-- The inner loop of the writer's `flush` (copy.go processRowsParallel):
drain the pending buffer into the output in strictly ascending index order
for as long as the next index is present.  The fuel is the pending size
(each drained step removes one entry). -/
def drainLoop : Nat → List (Nat × List Value) → Nat → List (List Value) →
    List (Nat × List Value) × Nat × List (List Value)
  | 0, p, k, out => (p, k, out)
  | fuel + 1, p, k, out =>
    match p.find? (fun e => e.1 == k) with
    | some e => drainLoop fuel (p.filter (fun q => !(q.1 == k))) (k + 1) (out ++ [e.2])
    | none => (p, k, out)

/-- The writer of processRowsParallel (copy.go): results are flushed in
arrival order; each flush buffers the result under its index and drains the
buffer in ascending index order.  The backpressure loop only changes when
the flushes run, not their order, so the concatenated inserts are the fold
over the arrival sequence. -/
def flushFold (arr : List (Nat × List Value)) :
    List (Nat × List Value) × Nat × List (List Value) :=
  arr.foldl (fun st res =>
    let p := st.1 ++ [res]
    drainLoop p.length p st.2.1 st.2.2) ([], 0, [])

/-- processRowsParallel (copy.go): the reader indexes the scanned rows, the
workers apply the same pure per-row transform the sequential path applies,
and the writer receives the indexed results in an arbitrary arrival order
`arrival` (the only scheduler freedom visible in the output) and drains them
in ascending index order. -/
def processRowsParallel (tblName : String) (colNames pkCols : List String)
    (useRowID : Bool) (trs : List (String × Transformer)) (seed : Nat)
    (salt : String) (rows : List (List Value)) (arrival : List Nat) :
    List (List Value) :=
  let seqOut := processRowsSequential tblName colNames pkCols useRowID trs seed salt rows
  (flushFold (arrival.map (fun i => (i, seqOut.getD i [])))).2.2

/-- buildOrderBy (copy.go) as the ordered column list: declared PK columns,
else rowid, else nothing. -/
def buildOrderBy (tbl : Table) (useRowID : Bool) : List String :=
  if tbl.primaryKeys.isEmpty then (if useRowID then ["rowid"] else [])
  else tbl.primaryKeys

/-- Semantics of the copy SELECT: filter the stored rows, apply ORDER BY on
the given columns (stable on ties, a closed choice the SQL engine leaves
open; no columns means no reordering), project onto the selected columns. -/
def tableSelect (db : DB) (tbl : Table) (selectCols orderCols : List String)
    (cond : Row → Bool) : List (List Value) :=
  (sortTuplesBy (fun r => rowTuple r orderCols)
    ((dbRows db tbl.name).filter cond)).map (fun r => rowTuple r selectCols)

/-- sortRows (copy.go): sort the PK tuples by their textual dedup key
(`sort.Slice` with `keyFor i < keyFor j`; on equal keys the unstable sort
leaves the order open and the model keeps the stable choice). -/
def sortRows (vals : List (List Value)) : List (List Value) :=
  vals.insertionSort (fun a b => strLe (keyFor a) (keyFor b))

/-- The source scan sequence of copyTable (copy.go): the concatenation of
the SELECT results it feeds to processRows — the single full-table ordered
SELECT without a subset, else the per-chunk WHERE-IN ordered SELECTs over
the key-sorted 500-chunks of the PKSet tuples. -/
def copyTableScan (db : DB) (tbl : Table) (selSet : Option PKSet) :
    Except String (List (List Value)) := do
  let colNames := tbl.columns.map (fun c => c.name)
  let useRowID := tbl.primaryKeys.isEmpty && !tbl.withoutRowID
  let selectCols := (if useRowID then ["rowid"] else []) ++ colNames
  let orderCols := buildOrderBy tbl useRowID
  match selSet with
  | none => return tableSelect db tbl selectCols orderCols (fun _ => true)
  | some ps => do
    let pkValues ← ps.valuesByColumns ps.cols
    let chunks := chunkValues (sortRows pkValues) 500
    return (chunks.map (fun chunk =>
      tableSelect db tbl selectCols orderCols
        (fun r => chunk.contains (rowTuple r ps.cols)))).flatten

/-- copyTable (copy.go): the rows inserted into the output table — each
scanned batch through processRows (the sequential path; the parallel path
is proved output-equivalent below). -/
def copyTable (db : DB) (tbl : Table) (trs : List (String × Transformer))
    (seed : Nat) (salt : String) (selSet : Option PKSet) :
    Except String (List (List Value)) := do
  let colNames := tbl.columns.map (fun c => c.name)
  let pkCols := tbl.primaryKeys
  let useRowID := pkCols.isEmpty && !tbl.withoutRowID
  let selectCols := (if useRowID then ["rowid"] else []) ++ colNames
  let orderCols := buildOrderBy tbl useRowID
  match selSet with
  | none =>
    return processRowsSequential tbl.name colNames pkCols useRowID trs seed salt
      (tableSelect db tbl selectCols orderCols (fun _ => true))
  | some ps => do
    let pkValues ← ps.valuesByColumns ps.cols
    let chunks := chunkValues (sortRows pkValues) 500
    return (chunks.map (fun chunk =>
      processRowsSequential tbl.name colNames pkCols useRowID trs seed salt
        (tableSelect db tbl selectCols orderCols
          (fun r => chunk.contains (rowTuple r ps.cols))))).flatten

/-- Reading the values of the ordering columns back out of a projected row
tuple by position. -/
def keyProj (selectCols orderCols : List String) (vals : List Value) : List Value :=
  orderCols.map (fun c => vals.getD (selectCols.indexOf c) .vnull)

/-- The PK (or rowid) sub-tuple of a scanned row tuple, read back out of the
selected columns by position. -/
def pkProj (tbl : Table) (vals : List Value) : List Value :=
  let useRowID := tbl.primaryKeys.isEmpty && !tbl.withoutRowID
  keyProj ((if useRowID then ["rowid"] else []) ++ tbl.columns.map (fun c => c.name))
    (buildOrderBy tbl useRowID) vals

/-- copyData (copy.go): walk the tables in dependency order, skipping
excluded tables, tables absent from the schema, and — when a selection is
present — tables without a PKSet; copy the rest.  The include/exclude glob
matching of `tableIncluded` is abstracted as the predicate `included`. -/
def copyDataStep (db : DB) (s : Schema) (included : String → Bool)
    (trsFor : String → List (String × Transformer)) (seed : Nat) (salt : String)
    (selection : Option Selection) (acc : List (String × List (List Value)))
    (name : String) : Except String (List (String × List (List Value))) :=
  if !(included name) then .ok acc
  else match s.find name with
  | none => .ok acc
  | some tbl =>
    match selection with
    | some sel =>
      match sel.get name with
      | none => .ok acc
      | some ps => do
        let rows ← copyTable db tbl (trsFor name) seed salt (some ps)
        .ok (acc ++ [(name, rows)])
    | none => do
      let rows ← copyTable db tbl (trsFor name) seed salt none
      .ok (acc ++ [(name, rows)])

/-- copyData (copy.go), the fold of the per-table step over the dependency
order. -/
def copyData (db : DB) (s : Schema) (order : List String)
    (included : String → Bool) (trsFor : String → List (String × Transformer))
    (seed : Nat) (salt : String) (selection : Option Selection) :
    Except String (List (String × List (List Value))) :=
  order.foldlM (copyDataStep db s included trsFor seed salt selection) []

/-- The data phase of Run (copy.go): table order, the selection when
subsetting is requested (by run flag or config section), then copyData.
Fuel exhaustion of the expansion model surfaces as an error (the
termination theorem below rules it out for sufficient fuel). -/
def subsetRequested (cfg : Option Config) (flag : Bool) : Bool :=
  flag || (match cfg with | some c => c.subset.isSome | none => false)

def runData (db : DB) (s : Schema) (cfg : Option Config) (subsetFlag : Bool)
    (included : String → Bool) (trsFor : String → List (String × Transformer))
    (seed : Nat) (salt : String) (fuel : Nat) :
    Except String (Option Selection × List (String × List (List Value))) := do
  let order := TableOrder s
  let selection ←
    if subsetRequested cfg subsetFlag then do
      match ← BuildSelection db s cfg fuel with
      | some sel => Except.ok (some sel)
      | none => Except.error "subset expansion did not converge"
    else Except.ok none
  let data ← copyData db s order included trsFor seed salt selection
  return (selection, data)


/-- A 501-tuple subset PKSet exercising the >500 chunking of copyTable: the
textual dedup keys "100" < "101" < … < "599" < "6" are already key-sorted,
so the first chunk holds ids 100–599 and the second chunk only id 6. -/
def chunkVals : List (List Value) :=
  (List.range 500).map (fun i => [Value.vint (100 + (i : Int))]) ++ [[Value.vint 6]]

/-- Table `t(id INTEGER PRIMARY KEY)` for the chunking counterexample. -/
def chunkTable : Table :=
  { name := "t", primaryKeys := ["id"], columns := [{ name := "id" }] }

/-- Stored rows of `t`: ids 599 and 6 only. -/
def chunkDB : DB :=
  [("t", [[("id", Value.vint 599)], [("id", Value.vint 6)]])]

/-- The 501-tuple selection set over `t`. -/
def chunkSet : PKSet :=
  { cols := ["id"], keys := chunkVals.map keyFor, values := chunkVals }


/-- Invariant of the writer's pending buffer: every buffered entry holds the
result for its index, indices are distinct, lie in the already-arrived set
and have not been drained yet, and every arrived undrained index is
buffered. -/
def PendingChar (f : Nat → List Value) (seen : List Nat) (k : Nat)
    (p : List (Nat × List Value)) : Prop :=
  (∀ e ∈ p, e.2 = f e.1 ∧ e.1 ∈ seen ∧ k ≤ e.1) ∧
  (∀ i ∈ seen, k ≤ i → ∃ e ∈ p, e.1 = i) ∧
  (p.map Prod.fst).Nodup

/-- The entry names of a selection (the Go map domain, in insertion order). -/
def selNames (sel : Selection) : List String := sel.sets.map (fun p => p.1)

/-- Total number of admitted dedup keys across all sets of a selection — the
measure the termination argument for the expansion uses. -/
def totalKeys (sel : Selection) : Nat :=
  (sel.sets.map (fun p => p.2.keys.length)).sum

/-- All dedup keys of a selection. -/
def allKeys (sel : Selection) : List String :=
  (sel.sets.map (fun p => p.2.keys)).flatten

/-- All admitted tuples of a selection. -/
def allValues (sel : Selection) : List (List Value) :=
  (sel.sets.map (fun p => p.2.values)).flatten

/-- The dedup keys of the set stored under a name (empty when absent). -/
def keysOf (sel : Selection) (n : String) : List String :=
  match sel.get n with | some ps => ps.keys | none => []

/-- The tuples of the set stored under a name (empty when absent). -/
def valuesOf (sel : Selection) (n : String) : List (List Value) :=
  match sel.get n with | some ps => ps.values | none => []

/-- Every tuple an expansion round can insert into some set: for each schema
table, the PK projections and the FK-source projections of its stored rows.
This is the finite universe bounding the fixed point. -/
def insertableTuples (db : DB) (s : Schema) : List (List Value) :=
  (s.tables.map (fun p =>
    let rows := dbRows db p.2.name
    let colsList :=
      (match tablePKColumns p.2 with | .ok pc => [pc.1] | .error _ => []) ++
      (groupFKs p.2).map (fun g => g.fromCols)
    (colsList.map (fun cols => rows.map (fun r => rowTuple r cols))).flatten)).flatten

/-- Proposition on the payload of an optional value (vacuous when absent). -/
def optionCase {α : Type} (o : Option α) (P : α → Prop) : Prop :=
  match o with | none => True | some a => P a

instance {α : Type} (o : Option α) (P : α → Prop) [∀ a, Decidable (P a)] :
    Decidable (optionCase o P) :=
  match o with
  | none => inferInstanceAs (Decidable True)
  | some a => inferInstanceAs (Decidable (P a))

/-- Proposition on the payload of a fallible value (vacuous on error). -/
def exceptCase {ε α : Type} (x : Except ε α) (P : α → Prop) : Prop :=
  match x with | .error _ => True | .ok a => P a

instance {ε α : Type} (x : Except ε α) (P : α → Prop) [∀ a, Decidable (P a)] :
    Decidable (exceptCase x P) :=
  match x with
  | .error _ => inferInstanceAs (Decidable True)
  | .ok a => inferInstanceAs (Decidable (P a))

/-- Well-formedness of a PKSet as `Add` maintains it: distinct dedup keys,
and keys and tuples in bijection through `keyFor`. -/
def PKSetWF (ps : PKSet) : Prop :=
  ps.keys.Nodup ∧
  (∀ k ∈ ps.keys, k ∈ ps.values.map keyFor) ∧
  (∀ v ∈ ps.values, keyFor v ∈ ps.keys)

/-- The columns of a set stored under a schema table's name are that table's
PK columns. -/
def colsOK (s : Schema) (n : String) (ps : PKSet) : Prop :=
  optionCase (s.find n) (fun tbl =>
    exceptCase (tablePKColumns tbl) (fun pc => ps.cols = pc.1))

/-- Well-formedness of a selection: distinct entry names, well-formed sets
with the right columns. -/
def SelWF (s : Schema) (sel : Selection) : Prop :=
  (selNames sel).Nodup ∧ ∀ p ∈ sel.sets, PKSetWF p.2 ∧ colsOK s p.1 p.2

/-- All dedup keys of the selection lie in `ks`. -/
def KeysIn (ks : List String) (sel : Selection) : Prop :=
  ∀ p ∈ sel.sets, ∀ k ∈ p.2.keys, k ∈ ks

/-- All entry names of the selection lie in `ns`. -/
def NamesIn (ns : List String) (sel : Selection) : Prop :=
  ∀ p ∈ sel.sets, p.1 ∈ ns

/-- The schema map is keyed by the table names (true of every schema
`Load` produces). -/
def SchemaNamed (s : Schema) : Prop := ∀ p ∈ s.tables, p.2.name = p.1

/-- Referential integrity of the database: every child row with fully
non-null FK source values has a parent row matching on the referenced
columns. -/
def RefIntegrity (db : DB) (s : Schema) : Prop :=
  ∀ p ∈ s.tables, ∀ g ∈ groupFKs p.2,
    optionCase (s.find g.refTable) (fun pt =>
      ∀ r ∈ dbRows db p.2.name,
        g.fromCols.all (fun c => !(rowGet r c == Value.vnull)) = true →
        ∃ pr ∈ dbRows db pt.name, rowTuple pr g.toCols = rowTuple r g.fromCols)

/-- `keyFor` separates the tuples of `ts` (no textual dedup-key collision
among them). -/
def KeyInjOn (ts : List (List Value)) : Prop :=
  ∀ a ∈ ts, ∀ b ∈ ts, keyFor a = keyFor b → a = b

/-- FK closure of a selection: for every FK group of a schema child table
whose parent is in the schema, every admitted child tuple that is the PK
tuple of a stored child row with fully non-null FK source values has a
parent row matching on the referenced columns whose PK tuple is admitted in
the parent's set. -/
def FKClosure (db : DB) (s : Schema) (sel : Selection) : Prop :=
  ∀ p ∈ s.tables, ∀ g ∈ groupFKs p.2,
    optionCase (s.find g.refTable) (fun pt =>
      exceptCase (tablePKColumns p.2) (fun cpc =>
        exceptCase (tablePKColumns pt) (fun ppc =>
          ∀ t ∈ valuesOf sel p.1, ∀ r ∈ dbRows db p.2.name,
            rowTuple r cpc.1 = t →
            g.fromCols.all (fun c => !(rowGet r c == Value.vnull)) = true →
            ∃ pr ∈ dbRows db pt.name,
              rowTuple pr ppc.1 ∈ valuesOf sel g.refTable ∧
              rowTuple pr g.toCols = rowTuple r g.fromCols)))


/-- The running invariant of the expansion: well-formed selection, all keys
inside the allowed key list, all entry names inside the allowed name list. -/
def ExpInv (s : Schema) (ks ns : List String) (sel : Selection) : Prop :=
  SelWF s sel ∧ KeysIn ks sel ∧ NamesIn ns sel


instance (ps : PKSet) : Decidable (PKSetWF ps) :=
  inferInstanceAs (Decidable (ps.keys.Nodup ∧
    (∀ k ∈ ps.keys, k ∈ ps.values.map keyFor) ∧
    (∀ v ∈ ps.values, keyFor v ∈ ps.keys)))

instance (s : Schema) (n : String) (ps : PKSet) : Decidable (colsOK s n ps) :=
  inferInstanceAs (Decidable (optionCase (s.find n) (fun tbl =>
    exceptCase (tablePKColumns tbl) (fun pc => ps.cols = pc.1))))

instance (s : Schema) (sel : Selection) : Decidable (SelWF s sel) :=
  inferInstanceAs (Decidable ((selNames sel).Nodup ∧
    ∀ p ∈ sel.sets, PKSetWF p.2 ∧ colsOK s p.1 p.2))

instance (s : Schema) : Decidable (SchemaNamed s) :=
  inferInstanceAs (Decidable (∀ p ∈ s.tables, p.2.name = p.1))


/-- Observational equality of two selections: same dedup keys and same
admitted tuples under every name (a no-change round preserves this; newly
created sets are empty and so observationally absent). -/
def ObsEq (a b : Selection) : Prop :=
  ∀ n, keysOf a n = keysOf b n ∧ valuesOf a n = valuesOf b n

instance (db : DB) (s : Schema) : Decidable (RefIntegrity db s) :=
  inferInstanceAs (Decidable (∀ p ∈ s.tables, ∀ g ∈ groupFKs p.2,
    optionCase (s.find g.refTable) (fun pt =>
      ∀ r ∈ dbRows db p.2.name,
        g.fromCols.all (fun c => !(rowGet r c == Value.vnull)) = true →
        ∃ pr ∈ dbRows db pt.name, rowTuple pr g.toCols = rowTuple r g.fromCols)))

instance (ts : List (List Value)) : Decidable (KeyInjOn ts) :=
  inferInstanceAs (Decidable (∀ a ∈ ts, ∀ b ∈ ts, keyFor a = keyFor b → a = b))


/-- All admitted tuples of a selection lie in `vs` — the expansion only ever
stores tuples read off database rows (PK or FK-source projections), so the
initial tuples plus the insertable universe is an invariant enclosure. -/
def ValuesIn (vs : List (List Value)) (sel : Selection) : Prop :=
  ∀ p ∈ sel.sets, ∀ v ∈ p.2.values, v ∈ vs

/-- A trivial instantiation of the abstracted Go standard-library surface,
used only to state concrete witnesses and counterexamples (none of them
exercise regexp, `math/rand`, time parsing or globbing). -/
def extDummy : Ext where
  regexReplaceAll := fun _ _ s => s
  regexCompileOk := fun _ => true
  intn := fun _ _ _ => 0
  parseRFC3339 := fun _ => none
  parseDate := fun _ => none
  formatRFC3339 := fun _ => ""
  formatDate := fun _ => ""
  pathMatch := fun _ _ => false

/-- Character count of a text value (zero on the other variants); all strings
it is applied to are ASCII, so this is also the Go byte length. -/
def valueTextLength : Value → Nat
  | .vtext s => s.length
  | _ => 0

end Pinkmask

/-!
Lemmas and claim theorems.
-/

namespace Pinkmask

theorem sha256_bytes_lt (msg : List Nat) : ∀ b ∈ sha256 msg, b < 256 := by
  intro b hb
  simp only [sha256, List.mem_flatten, List.mem_map] at hb
  obtain ⟨l, ⟨x, hx, hxl⟩, hbl⟩ := hb
  subst hxl
  simp only [be4Bytes, List.mem_cons, List.not_mem_nil, or_false] at hbl
  rcases hbl with h | h | h | h <;> omega

theorem foldl_shiftor_eq_mulAdd (bs : List Nat) (acc : Nat)
    (hb : ∀ b ∈ bs, b < 256) (hlen : bs.length ≤ 8)
    (ha : acc < 2 ^ (64 - 8 * bs.length)) :
    bs.foldl (fun s b => (((s <<< 8) % u64) ||| b)) acc =
      bs.foldl (fun a b => a * 256 + b) acc := by
  induction bs generalizing acc with
  | nil => rfl
  | cons b bs ih =>
    have hb0 : b < 256 := hb b (List.mem_cons_self _ _)
    have hlen1 : bs.length + 1 ≤ 8 := by simpa using hlen
    have hpow : 2 ^ (64 - 8 * (bs.length + 1)) * 256 = 2 ^ (64 - 8 * bs.length) := by
      have h2 : (64 - 8 * (bs.length + 1)) + 8 = 64 - 8 * bs.length := by omega
      calc 2 ^ (64 - 8 * (bs.length + 1)) * 256
          = 2 ^ (64 - 8 * (bs.length + 1)) * 2 ^ 8 := rfl
        _ = 2 ^ ((64 - 8 * (bs.length + 1)) + 8) := (Nat.pow_add 2 _ 8).symm
        _ = 2 ^ (64 - 8 * bs.length) := by rw [h2]
    have ha1 : acc < 2 ^ (64 - 8 * (bs.length + 1)) := by simpa using ha
    have hstep : (((acc <<< 8) % u64) ||| b) = acc * 256 + b := by
      have hsh : acc <<< 8 = acc * 256 := by rw [Nat.shiftLeft_eq]
      have hmul : acc * 256 < 2 ^ (64 - 8 * (bs.length + 1)) * 256 :=
        (Nat.mul_lt_mul_right (by norm_num)).mpr ha1
      have hle : 2 ^ (64 - 8 * (bs.length + 1)) * 256 ≤ 2 ^ 64 := by
        rw [hpow]
        exact Nat.pow_le_pow_right (by norm_num) (by omega)
      have hlt : acc * 256 < u64 := by
        have h64 : u64 = 2 ^ 64 := by norm_num [u64]
        rw [h64]
        exact lt_of_lt_of_le hmul hle
      have hmod : (acc <<< 8) % u64 = acc * 256 := by
        rw [hsh]; exact Nat.mod_eq_of_lt hlt
      rw [hmod]
      calc (acc * 256) ||| b = (2 ^ 8 * acc) ||| b := by rw [Nat.mul_comm]
        _ = 2 ^ 8 * acc + b := (Nat.mul_add_lt_is_or (by simpa using hb0) acc).symm
        _ = acc * 256 + b := by rw [Nat.mul_comm]
    rw [List.foldl_cons, List.foldl_cons, hstep]
    apply ih
    · intro x hx; exact hb x (List.mem_cons_of_mem _ hx)
    · omega
    · have hbound : acc * 256 + b < 2 ^ (64 - 8 * (bs.length + 1)) * 256 := by omega
      rw [hpow] at hbound
      exact hbound

/-- C5: the row seed equals the big-endian 64-bit integer `s0` read from the
first 8 bytes of `SHA-256(salt ∥ table ∥ pk…)` xored with the run seed, with
`RowContext.seed` substituted for `s0` when `s0 = 0` (yielding
`seed XOR seed = 0`).  Values are 64-bit two's-complement bit patterns; `xor`
and the zero test coincide with their signed readings. -/
theorem rowSeed_spec (row : RowContext) :
    RowSeed row =
      (if beNat ((sha256 (rowSeedMsg row)).take 8) = 0 then row.seed
       else beNat ((sha256 (rowSeedMsg row)).take 8)) ^^^ row.seed
    ∧ (beNat ((sha256 (rowSeedMsg row)).take 8) = 0 → RowSeed row = 0) := by
  have hfold : ((sha256 (rowSeedMsg row)).take 8).foldl
      (fun s b => (((s <<< 8) % u64) ||| b)) 0 =
      beNat ((sha256 (rowSeedMsg row)).take 8) := by
    have h1 := foldl_shiftor_eq_mulAdd ((sha256 (rowSeedMsg row)).take 8) 0
      (fun b hb => sha256_bytes_lt _ b (List.mem_of_mem_take hb))
      (List.length_take_le 8 _) (Nat.two_pow_pos _)
    exact h1.trans rfl
  constructor
  · simp only [RowSeed, hfold]
  · intro h0
    simp only [RowSeed, hfold, h0, if_pos, Nat.xor_self]

/-- C4: every built-in transformer is deterministic, a function of the fixed
tuple `(salt, seed, table, pk, value)` only (the abstracted library surface
`ext` being the same deterministic Go runtime on both evaluations), and the
`HmacSha256` transformer ignores `RowContext.Seed` entirely. -/
theorem builtins_deterministic (ext : Ext) (b : Builtin) (v : Value)
    (ctx1 ctx2 : RowContext) (hsalt : ctx1.salt = ctx2.salt)
    (hseed : ctx1.seed = ctx2.seed) (htable : ctx1.table = ctx2.table)
    (hpk : ctx1.pk = ctx2.pk) :
    transform ext b v ctx1 = transform ext b v ctx2
    ∧ ∀ (salt2 : String) (maxLen : Int) (s1 s2 : Nat),
        transform ext (.hmacSha256 salt2 maxLen) v { ctx1 with seed := s1 } =
          transform ext (.hmacSha256 salt2 maxLen) v { ctx1 with seed := s2 } := by
  obtain ⟨t1, p1, s1, sa1⟩ := ctx1
  obtain ⟨t2, p2, s2, sa2⟩ := ctx2
  simp only at hsalt hseed htable hpk
  subst hsalt; subst hseed; subst htable; subst hpk
  exact ⟨rfl, fun _ _ _ _ => by cases v <;> rfl⟩

set_option maxRecDepth 40000 in
/-- Witness for C4: the S1 scenario row `(id = 1, email, salt = "salt")`
masked with `HmacSha256(maxlen = 16)` twice gives the same value, a seed of 0
and of 42 give the same value, and that value is concretely computed. -/
theorem builtins_deterministic_witness :
    (transform extDummy (.hmacSha256 "salt" 16) (.vtext "user1@example.com")
        ⟨"users", [.vint 1], 7, "salt"⟩ =
      transform extDummy (.hmacSha256 "salt" 16) (.vtext "user1@example.com")
        ⟨"users", [.vint 1], 7, "salt"⟩)
    ∧ (transform extDummy (.hmacSha256 "salt" 16) (.vtext "user1@example.com")
        ⟨"users", [.vint 1], 0, "salt"⟩ =
      transform extDummy (.hmacSha256 "salt" 16) (.vtext "user1@example.com")
        ⟨"users", [.vint 1], 42, "salt"⟩)
    ∧ transform extDummy (.hmacSha256 "salt" 16) (.vtext "user1@example.com")
        ⟨"users", [.vint 1], 7, "salt"⟩ = .vtext "61be22f520f1b639" := by
  refine ⟨(builtins_deterministic extDummy (.hmacSha256 "salt" 16)
      (.vtext "user1@example.com") ⟨"users", [.vint 1], 7, "salt"⟩
      ⟨"users", [.vint 1], 7, "salt"⟩ rfl rfl rfl rfl).1, ?_, by decide⟩
  exact (builtins_deterministic extDummy (.hmacSha256 "salt" 16)
      (.vtext "user1@example.com") ⟨"users", [.vint 1], 0, "salt"⟩
      ⟨"users", [.vint 1], 0, "salt"⟩ rfl rfl rfl rfl).2 "salt" 16 0 42


theorem shaCompressStep_length (st : List Nat) (kw : Nat × Nat) :
    (shaCompressStep st kw).length = st.length := by
  unfold shaCompressStep
  split <;> simp

theorem foldl_shaCompressStep_length (l : List (Nat × Nat)) (st : List Nat) :
    (l.foldl shaCompressStep st).length = st.length := by
  induction l generalizing st with
  | nil => rfl
  | cons p l ih => rw [List.foldl_cons, ih, shaCompressStep_length]

theorem shaCompress_length (h block : List Nat) (hh : h.length = 8) :
    (shaCompress h block).length = 8 := by
  unfold shaCompress
  simp [List.length_zip, foldl_shaCompressStep_length, hh]

theorem foldl_shaCompress_length (blocks : List (List Nat)) (h : List Nat)
    (hh : h.length = 8) : (blocks.foldl shaCompress h).length = 8 := by
  induction blocks generalizing h with
  | nil => exact hh
  | cons b bs ih => rw [List.foldl_cons]; exact ih _ (shaCompress_length _ _ hh)

theorem flatten_map_be4Bytes_length (l : List Nat) :
    ((l.map be4Bytes).flatten).length = 4 * l.length := by
  induction l with
  | cons x xs ih =>
    simp only [List.map_cons, List.flatten_cons, List.length_append, ih, be4Bytes,
      List.length_cons, List.length_nil, List.length_singleton]
    omega
  | nil => rfl

theorem sha256_length (msg : List Nat) : (sha256 msg).length = 32 := by
  simp only [sha256]
  rw [flatten_map_be4Bytes_length, foldl_shaCompress_length _ _ (by decide)]

theorem flatten_map_byteBits_length (l : List Nat) :
    ((l.map byteBits).flatten).length = 8 * l.length := by
  induction l with
  | cons x xs ih =>
    simp only [List.map_cons, List.flatten_cons, List.length_append, ih, byteBits,
      List.length_map, List.length_range, List.length_cons]
    omega
  | nil => rfl

theorem chunksOf_length (n : Nat) (l : List α) :
    (chunksOf n l).length = (l.length + n - 1) / n := by
  simp [chunksOf]

theorem base32NoPad_length (bs : List Nat) (h : bs.length = 32) :
    (base32NoPad bs).length = 52 := by
  simp only [base32NoPad]
  rw [String.length_mk, List.length_map, chunksOf_length, flatten_map_byteBits_length, h]

theorem goToLower_length (s : String) : (goToLower s).length = s.length := by
  unfold goToLower
  rw [String.length_mk, List.length_map]
  rfl

theorem stableTokenize_eval (ext : Ext) (maxLen : Int) (v : Value)
    (row : RowContext) (hv : v ≠ .vnull) :
    transform ext (.stableTokenize maxLen) v row =
      (let out := goToLower (base32NoPad (sha256 (strBytes (row.salt ++ goSprint v))))
       if 0 < maxLen ∧ maxLen < (out.length : Int) then .vtext (out.take maxLen.toNat)
       else if maxLen = 0 ∧ 16 < out.length then .vtext (out.take 16)
       else .vtext out) := by
  cases v with
  | vnull => exact absurd rfl hv
  | vint i => rfl
  | vtext s => rfl
  | vblob bs => rfl

set_option maxRecDepth 40000 in
/-- C7 counterexample: with `maxlen = -1` (which is ≤ 0) the code skips
truncation entirely, so the token keeps all 52 base32 characters — the claim
that every `maxlen ≤ 0` yields at most 16 characters fails at
`maxlen = -1, value = "a", salt = "s"`. -/
theorem stableTokenize_negative_counterexample :
    ¬ (valueTextLength (transform extDummy (.stableTokenize (-1)) (.vtext "a")
        ⟨"t", [], 0, "s"⟩) ≤ 16) := by decide

/-- C7 amended: for a non-null value, `StableTokenize` produces the lowercase
unpadded base32 of `SHA-256(salt ∥ string(value))` — a 52-character string —
truncated to `maxlen` when `0 < maxlen < 52`, kept whole when `maxlen ≥ 52`,
truncated to 16 exactly when `maxlen = 0`, and kept whole (52 characters,
no truncation) when `maxlen < 0`; a null input yields null. -/
theorem stableTokenize_spec (ext : Ext) (maxLen : Int) (v : Value)
    (row : RowContext) (hv : v ≠ .vnull) :
    (goToLower (base32NoPad (sha256 (strBytes (row.salt ++ goSprint v))))).length = 52
    ∧ (0 < maxLen → maxLen < 52 →
        transform ext (.stableTokenize maxLen) v row =
          .vtext ((goToLower (base32NoPad (sha256 (strBytes (row.salt ++ goSprint v))))).take
            maxLen.toNat))
    ∧ (52 ≤ maxLen →
        transform ext (.stableTokenize maxLen) v row =
          .vtext (goToLower (base32NoPad (sha256 (strBytes (row.salt ++ goSprint v))))))
    ∧ (maxLen = 0 →
        transform ext (.stableTokenize maxLen) v row =
          .vtext ((goToLower (base32NoPad (sha256 (strBytes (row.salt ++ goSprint v))))).take 16))
    ∧ (maxLen < 0 →
        transform ext (.stableTokenize maxLen) v row =
          .vtext (goToLower (base32NoPad (sha256 (strBytes (row.salt ++ goSprint v))))))
    ∧ (∀ row2 : RowContext, transform ext (.stableTokenize maxLen) .vnull row2 = .vnull) := by
  have hlen : (goToLower (base32NoPad (sha256 (strBytes (row.salt ++ goSprint v))))).length
      = 52 := by
    rw [goToLower_length, base32NoPad_length _ (sha256_length _)]
  refine ⟨hlen, ?_, ?_, ?_, ?_, fun row2 => rfl⟩
  · intro h1 h2
    rw [stableTokenize_eval ext maxLen v row hv]
    simp only [hlen, Nat.cast_ofNat]
    rw [if_pos ⟨h1, by omega⟩]
  · intro h1
    rw [stableTokenize_eval ext maxLen v row hv]
    simp only [hlen, Nat.cast_ofNat]
    rw [if_neg (by omega), if_neg (by omega)]
  · intro h1
    rw [stableTokenize_eval ext maxLen v row hv]
    simp only [hlen, Nat.cast_ofNat]
    rw [if_neg (by omega), if_pos ⟨h1, by omega⟩]
  · intro h1
    rw [stableTokenize_eval ext maxLen v row hv]
    simp only [hlen, Nat.cast_ofNat]
    rw [if_neg (by omega), if_neg (by omega)]

set_option maxRecDepth 40000 in
/-- Witness for C7 (amended): concrete instantiation at
`maxlen = 5, value = "a", salt = "s"`. -/
theorem stableTokenize_spec_witness :
    (goToLower (base32NoPad (sha256 (strBytes ("s" ++ goSprint (.vtext "a")))))).length = 52
    ∧ ((0 : Int) < 5 → (5 : Int) < 52 →
        transform extDummy (.stableTokenize 5) (.vtext "a") ⟨"t", [], 0, "s"⟩ =
          .vtext ((goToLower (base32NoPad (sha256 (strBytes ("s" ++ goSprint (.vtext "a")))))).take
            (5 : Int).toNat))
    ∧ ((52 : Int) ≤ 5 →
        transform extDummy (.stableTokenize 5) (.vtext "a") ⟨"t", [], 0, "s"⟩ =
          .vtext (goToLower (base32NoPad (sha256 (strBytes ("s" ++ goSprint (.vtext "a")))))))
    ∧ ((5 : Int) = 0 →
        transform extDummy (.stableTokenize 5) (.vtext "a") ⟨"t", [], 0, "s"⟩ =
          .vtext ((goToLower (base32NoPad (sha256 (strBytes ("s" ++ goSprint (.vtext "a")))))).take 16))
    ∧ ((5 : Int) < 0 →
        transform extDummy (.stableTokenize 5) (.vtext "a") ⟨"t", [], 0, "s"⟩ =
          .vtext (goToLower (base32NoPad (sha256 (strBytes ("s" ++ goSprint (.vtext "a")))))))
    ∧ (∀ row2 : RowContext, transform extDummy (.stableTokenize 5) .vnull row2 = .vnull) :=
  stableTokenize_spec extDummy 5 (.vtext "a") ⟨"t", [], 0, "s"⟩ (by decide)

theorem mapReplace_eval (ext : Ext) (m : List (String × String)) (v : Value)
    (row : RowContext) (hv : v ≠ .vnull) :
    transform ext (.mapReplace m) v row =
      .vtext ((lookupStr m (goSprint v)).getD (goSprint v)) := by
  cases v with
  | vnull => exact absurd rfl hv
  | vint i => cases hls : lookupStr m (goSprint (Value.vint i)) <;> simp [transform, hls]
  | vtext s => cases hls : lookupStr m (goSprint (Value.vtext s)) <;> simp [transform, hls]
  | vblob bs => cases hls : lookupStr m (goSprint (Value.vblob bs)) <;> simp [transform, hls]

set_option maxRecDepth 8000 in
/-- C6 counterexample: a configuration whose `type` is `MapReplace` is
rejected by the factory with the unknown-type error — the map-replacing
transformer is reachable only through the case string `map`. -/
theorem build_mapReplace_counterexample :
    Build extDummy { type := "MapReplace" } "salt" =
      .error "unknown transformer type: MapReplace" := by rfl

/-- C6 amended: the configuration name of the map-replacing transformer is
`map` (case-insensitive), not `MapReplace`: whenever the lower-cased `type`
is `map`, `Build` succeeds with the map transformer, whose transform yields
`m[string(value)]` when present and the original string form otherwise, and
null for null. -/
theorem build_map_spec (ext : Ext) (cfg : TransformConfig) (salt : String)
    (h : goToLower cfg.type = "map") :
    Build ext cfg salt = .ok (.mapReplace cfg.map)
    ∧ (∀ (v : Value) (row : RowContext), v ≠ .vnull →
        transform ext (.mapReplace cfg.map) v row =
          .vtext ((lookupStr cfg.map (goSprint v)).getD (goSprint v)))
    ∧ (∀ row : RowContext, transform ext (.mapReplace cfg.map) .vnull row = .vnull) := by
  refine ⟨?_, ?_, fun row => rfl⟩
  · simp [Build, h]
  · intro v row hv
    exact mapReplace_eval ext cfg.map v row hv

set_option maxRecDepth 8000 in
/-- Witness for C6 (amended): the configuration `type: Map` builds the map
transformer, a mapped value is replaced, an unmapped value passes through. -/
theorem build_map_spec_witness :
    goToLower "Map" = "map"
    ∧ Build extDummy { type := "Map", map := [("US", "XX")] } "salt" =
        .ok (.mapReplace [("US", "XX")])
    ∧ transform extDummy (.mapReplace [("US", "XX")]) (.vtext "US") ⟨"t", [], 0, "s"⟩ =
        .vtext "XX"
    ∧ transform extDummy (.mapReplace [("US", "XX")]) (.vtext "CA") ⟨"t", [], 0, "s"⟩ =
        .vtext "CA" := by
  have h := build_map_spec extDummy { type := "Map", map := [("US", "XX")] } "salt" (by decide)
  refine ⟨by decide, h.1, ?_, ?_⟩
  · exact (h.2.1 (.vtext "US") ⟨"t", [], 0, "s"⟩ (by decide)).trans (by decide)
  · exact (h.2.1 (.vtext "CA") ⟨"t", [], 0, "s"⟩ (by decide)).trans (by decide)

theorem char_toNat_injective : Function.Injective Char.toNat := by
  intro a b h
  have h2 : a.val.toBitVec.toNat = b.val.toBitVec.toNat := h
  have h4 : a.val.toBitVec = b.val.toBitVec := BitVec.toNat_injective h2
  have h3 : a.val = b.val := by
    cases hva : a.val with
    | mk x =>
      cases hvb : b.val with
      | mk y =>
        rw [hva, hvb] at h4
        simp only [UInt32.toBitVec] at h4
        rw [h4]
  exact Char.eq_of_val_eq h3

theorem strKey_injective : Function.Injective strKey := by
  intro a b h
  exact String.ext (List.map_injective_iff.mpr char_toNat_injective h)

theorem strLe_refl (a : String) : strLe a a := le_refl _

theorem strLe_antisymm {a b : String} (h1 : strLe a b) (h2 : strLe b a) : a = b :=
  strKey_injective (le_antisymm h1 h2)

instance : IsAntisymm String strLe := ⟨fun _ _ h1 h2 => strLe_antisymm h1 h2⟩

theorem sortStrings_sorted (l : List String) : (sortStrings l).Pairwise strLe :=
  List.sorted_insertionSort strLe l

theorem sortStrings_perm (l : List String) : (sortStrings l).Perm l :=
  List.perm_insertionSort strLe l

theorem sortStrings_mem {l : List String} {z : String} : z ∈ sortStrings l ↔ z ∈ l :=
  (sortStrings_perm l).mem_iff

theorem sortStrings_eq_of_perm {l1 l2 : List String} (h : l1.Perm l2) :
    sortStrings l1 = sortStrings l2 :=
  List.eq_of_perm_of_sorted ((sortStrings_perm l1).trans (h.trans (sortStrings_perm l2).symm))
    (sortStrings_sorted l1) (sortStrings_sorted l2)

theorem indegDec_apply (ind : String → Int) (d n : String) :
    indegDec ind d n = if n = d then ind n - 1 else ind n := by
  unfold indegDec
  by_cases h : n = d <;> simp [h]

theorem processDeps_ind (deps : List String) (ind : String → Int) (q : List String) :
    (processDeps deps ind q).1 = deps.foldl indegDec ind := by
  induction deps generalizing ind q with
  | nil => rfl
  | cons d deps ih =>
    show (if indegDec ind d d = 0 then processDeps deps (indegDec ind d) (q ++ [d])
        else processDeps deps (indegDec ind d) q).1 = _
    by_cases h : indegDec ind d d = 0
    · rw [if_pos h, List.foldl_cons]; exact ih _ _
    · rw [if_neg h, List.foldl_cons]; exact ih _ _

theorem foldl_indegDec_apply (deps : List String) (ind : String → Int) (n : String) :
    (deps.foldl indegDec ind) n = ind n - (deps.count n : Int) := by
  induction deps generalizing ind with
  | nil => simp
  | cons d deps ih =>
    rw [List.foldl_cons, ih, indegDec_apply, List.count_cons]
    by_cases h : n = d
    · subst h
      simp only [beq_self_eq_true, if_pos]
      push_cast
      omega
    · have hb : (d == n) = false := by
        simp only [beq_eq_false_iff_ne, ne_eq]
        exact fun he => h he.symm
      simp only [if_neg h, hb, Bool.false_eq_true, if_false, Nat.add_zero]

theorem processDeps_queue (deps : List String) (ind : String → Int) (q : List String) :
    (processDeps deps ind q).2 = q ++ (processDeps deps ind []).2 := by
  induction deps generalizing ind q with
  | nil => simp [processDeps]
  | cons d deps ih =>
    show (if indegDec ind d d = 0 then processDeps deps (indegDec ind d) (q ++ [d])
        else processDeps deps (indegDec ind d) q).2 =
      q ++ (if indegDec ind d d = 0 then processDeps deps (indegDec ind d) ([] ++ [d])
        else processDeps deps (indegDec ind d) []).2
    by_cases h : indegDec ind d d = 0
    · rw [if_pos h, if_pos h, ih _ (q ++ [d]), ih _ ([] ++ [d]), List.nil_append,
        List.append_assoc]
    · rw [if_neg h, if_neg h, ih _ q]

theorem mem_processDeps_enq (deps : List String) (ind : String → Int) (z : String) :
    z ∈ (processDeps deps ind []).2 ↔
      1 ≤ ind z ∧ ind z ≤ (deps.count z : Int) := by
  induction deps generalizing ind with
  | nil =>
    simp only [processDeps, List.not_mem_nil, false_iff, not_and, not_le, List.count_nil,
      Nat.cast_zero]
    intro h1
    omega
  | cons d deps ih =>
    have hcnt : ((d :: deps).count z : Int) =
        (deps.count z : Int) + (if z = d then 1 else 0) := by
      rw [List.count_cons]
      by_cases hz : z = d
      · subst hz; simp
      · have hb : (d == z) = false := by
          simp only [beq_eq_false_iff_ne, ne_eq]
          exact fun he => hz he.symm
        simp [hb, hz]
    show z ∈ (if indegDec ind d d = 0 then processDeps deps (indegDec ind d) ([] ++ [d])
        else processDeps deps (indegDec ind d) []).2 ↔ _
    rw [hcnt]
    by_cases h : indegDec ind d d = 0
    · have hd : ind d = 1 := by
        have h2 := indegDec_apply ind d d
        rw [h] at h2
        simp at h2
        omega
      rw [if_pos h, processDeps_queue, List.nil_append, List.mem_append,
        List.mem_singleton, ih, indegDec_apply]
      by_cases hz : z = d
      · subst hz
        rw [if_pos rfl, if_pos rfl]
        constructor
        · intro _
          constructor
          · omega
          · rw [hd]
            have hnn : (0 : Int) ≤ (deps.count z : Int) := by positivity
            exact le_add_of_nonneg_left hnn
        · intro _
          exact Or.inl rfl
      · rw [if_neg hz, if_neg hz]
        constructor
        · rintro (hcase | hcase)
          · exact absurd hcase hz
          · exact ⟨hcase.1, by omega⟩
        · intro hcase
          exact Or.inr ⟨hcase.1, by omega⟩
    · have hne : ind d - 1 ≠ 0 := by
        have h2 := indegDec_apply ind d d
        simp only [if_pos rfl] at h2
        rw [h2] at h
        exact h
      rw [if_neg h, ih, indegDec_apply]
      by_cases hz : z = d
      · subst hz
        rw [if_pos rfl, if_pos rfl]
        constructor
        · intro hcase
          exact ⟨by omega, by omega⟩
        · intro hcase
          have : ind z ≠ 1 := by omega
          exact ⟨by omega, by omega⟩
      · rw [if_neg hz, if_neg hz]
        constructor
        · intro hcase
          exact ⟨hcase.1, by omega⟩
        · intro hcase
          exact ⟨hcase.1, by omega⟩

theorem nodup_processDeps_enq (deps : List String) (ind : String → Int) :
    (processDeps deps ind []).2.Nodup := by
  induction deps generalizing ind with
  | nil => simp [processDeps]
  | cons d deps ih =>
    show (if indegDec ind d d = 0 then processDeps deps (indegDec ind d) ([] ++ [d])
        else processDeps deps (indegDec ind d) []).2.Nodup
    by_cases h : indegDec ind d d = 0
    · rw [if_pos h, processDeps_queue, List.nil_append]
      apply List.Nodup.append (by simp) (ih _)
      intro a ha
      simp only [List.mem_singleton] at ha
      subst ha
      rw [mem_processDeps_enq, indegDec_apply]
      simp only [if_pos rfl]
      have h2 := indegDec_apply ind a a
      rw [h] at h2
      simp only [if_pos rfl] at h2
      intro hcase
      omega
    · rw [if_neg h]
      exact ih _

theorem schemaEdges_mem_names {s : Schema} {e : String × String}
    (he : e ∈ schemaEdges s) :
    e.1 ∈ Schema.names s ∧ e.2 ∈ Schema.names s := by
  simp only [schemaEdges, List.mem_flatten, List.mem_map] at he
  obtain ⟨l, ⟨p, hp, rfl⟩, hel⟩ := he
  simp only [List.mem_map, List.mem_filter] at hel
  obtain ⟨fk, ⟨hfk, hhas⟩, rfl⟩ := hel
  constructor
  · simpa [Schema.hasTable] using hhas
  · exact List.mem_map_of_mem (fun p => p.1) hp

theorem count_graphChildren (edges : List (String × String)) (y n : String) :
    ((graphChildren edges y).count n : Nat) =
      (edges.filter (fun e => e.1 == y && e.2 == n)).length := by
  unfold graphChildren
  rw [show ∀ (l : List String) (a : String), l.count a = l.countP (fun b => b == a) from
    fun l a => rfl]
  rw [List.countP_map, List.countP_filter, ← List.countP_eq_length_filter]
  congr 1
  funext e
  simp only [Function.comp]
  rw [Bool.and_comm]

theorem length_filter_split (l : List α) (p q r : α → Bool)
    (h : ∀ a ∈ l, p a = (q a || r a)) (hdisj : ∀ a ∈ l, ¬(q a = true ∧ r a = true)) :
    (l.filter p).length = (l.filter q).length + (l.filter r).length := by
  induction l with
  | cons x xs ih =>
    have hx := h x (List.mem_cons_self _ _)
    have hdx := hdisj x (List.mem_cons_self _ _)
    have ih2 := ih (fun a ha => h a (List.mem_cons_of_mem _ ha))
      (fun a ha => hdisj a (List.mem_cons_of_mem _ ha))
    cases hqx : q x with
    | false =>
      cases hrx : r x with
      | false =>
        rw [hqx, hrx] at hx
        simp only [Bool.or_self] at hx
        simp [List.filter_cons, hx, hqx, hrx, ih2]
      | true =>
        rw [hqx, hrx] at hx
        simp only [Bool.or_true] at hx
        simp [List.filter_cons, hx, hqx, hrx, List.length_cons]
        omega
    | true =>
      cases hrx : r x with
      | false =>
        rw [hqx, hrx] at hx
        simp only [Bool.true_or] at hx
        simp [List.filter_cons, hx, hqx, hrx, List.length_cons]
        omega
      | true => exact absurd ⟨hqx, hrx⟩ hdx
  | nil => rfl

theorem contains_eq_false_iff (l : List String) (a : String) :
    l.contains a = false ↔ a ∉ l := by
  constructor
  · intro h hm
    have h2 : l.contains a = true := List.elem_iff.mpr hm
    rw [h] at h2
    exact Bool.false_ne_true h2
  · intro h
    cases hc : l.contains a
    · rfl
    · exact absurd (List.elem_iff.mp hc) h

theorem kahnLoop_greedy (s : Schema) :
    ∀ (fuel : Nat) (done queue : List String) (ind : String → Int),
      (Schema.names s).length - done.length < fuel →
      queue.Pairwise strLe →
      queue.Nodup →
      (∀ z, z ∈ queue ↔ readyAfter s done z) →
      (∀ n, ind n = (((schemaEdges s).filter
          (fun e => e.2 == n && !(done.contains e.1))).length : Int)) →
      done.Nodup →
      (∀ z ∈ done, z ∈ Schema.names s) →
      (∀ z ∈ done, ∀ e ∈ schemaEdges s, e.2 = z → e.1 ∈ done) →
      GreedySeq s done (kahnLoop (graphChildren (schemaEdges s)) fuel queue ind) := by
  intro fuel
  induction fuel with
  | zero =>
    intro done queue ind hfuel _ _ _ _ _ _ _
    exact absurd hfuel (by omega)
  | succ fuel ih =>
    intro done queue ind hfuel hsort hqnd hqmem hind hdnd hdsub hdcl
    rcases queue with _ | ⟨y, rest⟩
    · exact GreedySeq.nil done (fun z hz => absurd ((hqmem z).mpr hz) (List.not_mem_nil z))
    · have hyready : readyAfter s done y := (hqmem y).mp (List.mem_cons_self _ _)
      have hynotdone : y ∉ done := hyready.2.1
      have hymem : y ∈ Schema.names s := hyready.1
      have hrestnd : rest.Nodup := (List.nodup_cons.mp hqnd).2
      have hynotrest : y ∉ rest := (List.nodup_cons.mp hqnd).1
      have hdone2nd : (done ++ [y]).Nodup := by
        apply List.Nodup.append hdnd (by simp)
        intro a ha hay
        simp only [List.mem_singleton] at hay
        subst hay
        exact hynotdone ha
      have hdone2sub : ∀ z ∈ done ++ [y], z ∈ Schema.names s := by
        intro z hz
        rcases List.mem_append.mp hz with h | h
        · exact hdsub z h
        · simp only [List.mem_singleton] at h
          subst h
          exact hymem
      have hdone2cl : ∀ z ∈ done ++ [y], ∀ e ∈ schemaEdges s, e.2 = z →
          e.1 ∈ done ++ [y] := by
        intro z hz e he hez
        rcases List.mem_append.mp hz with h | h
        · exact List.mem_append_left _ (hdcl z h e he hez)
        · simp only [List.mem_singleton] at h
          subst h
          exact List.mem_append_left _ (hyready.2.2 e he hez)
      have hfuel2 : (Schema.names s).length - (done ++ [y]).length < fuel := by
        have hsp : (done ++ [y]).length ≤ (Schema.names s).length :=
          (List.Nodup.subperm hdone2nd (fun a ha => hdone2sub a ha)).length_le
        simp only [List.length_append, List.length_singleton] at hsp ⊢
        omega
      have hcontains2 : ∀ x : String, ((done ++ [y]).contains x) =
          (done.contains x || (x == y)) := by
        intro x
        rw [Bool.eq_iff_iff]
        simp [List.elem_iff, List.mem_append, beq_iff_eq]
      have hind2 : ∀ n, ((graphChildren (schemaEdges s) y).foldl indegDec ind) n =
          (((schemaEdges s).filter
            (fun e => e.2 == n && !((done ++ [y]).contains e.1))).length : Int) := by
        intro n
        rw [foldl_indegDec_apply, hind n]
        have hsplit : ((schemaEdges s).filter
              (fun e => e.2 == n && !(done.contains e.1))).length =
            ((schemaEdges s).filter
              (fun e => e.2 == n && !((done ++ [y]).contains e.1))).length +
            ((schemaEdges s).filter (fun e => e.1 == y && e.2 == n)).length := by
          apply length_filter_split
          · intro e _
            rw [hcontains2 e.1]
            by_cases h2 : e.2 = n
            · by_cases hy1 : e.1 = y
              · have hcd : e.1 ∉ done := by rw [hy1]; exact hynotdone
                rw [Bool.eq_iff_iff]
                simp [h2, hy1, hcd, List.elem_iff, hynotdone]
              · by_cases hcd : e.1 ∈ done
                · rw [Bool.eq_iff_iff]
                  simp [h2, hy1, hcd, List.elem_iff]
                · rw [Bool.eq_iff_iff]
                  simp [h2, hy1, hcd, List.elem_iff]
            · rw [Bool.eq_iff_iff]
              simp [h2]
          · intro e _ hqr
            obtain ⟨hq, hr⟩ := hqr
            simp only [Bool.and_eq_true, beq_iff_eq, Bool.not_eq_true'] at hq hr
            rw [hcontains2 e.1] at hq
            have h3 := hq.2
            rw [hr.1] at h3
            simp at h3
        rw [hsplit, count_graphChildren]
        push_cast
        ring
      have hreadyind : ∀ z, readyAfter s done z → ind z = 0 := by
        intro z hz
        rw [hind z]
        have hnil : ((schemaEdges s).filter
            (fun e => e.2 == z && !(done.contains e.1))) = [] := by
          apply List.filter_eq_nil_iff.mpr
          intro e he
          simp only [Bool.and_eq_true, beq_iff_eq, Bool.not_eq_true', not_and]
          intro he2
          rw [Bool.not_eq_false, List.elem_iff]
          exact hz.2.2 e he he2
        rw [hnil]
        rfl
      have hq2mem : ∀ z, (z ∈ rest ∨
          z ∈ (processDeps (graphChildren (schemaEdges s) y) ind []).2) ↔
          readyAfter s (done ++ [y]) z := by
        intro z
        constructor
        · rintro (hz | hz)
          · have hrdy : readyAfter s done z := (hqmem z).mp (List.mem_cons_of_mem _ hz)
            refine ⟨hrdy.1, ?_, ?_⟩
            · intro hmem
              rcases List.mem_append.mp hmem with h | h
              · exact hrdy.2.1 h
              · simp only [List.mem_singleton] at h
                subst h
                exact hynotrest hz
            · intro e he hez
              exact List.mem_append_left _ (hrdy.2.2 e he hez)
          · rw [mem_processDeps_enq] at hz
            obtain ⟨hz1, hz2⟩ := hz
            have hcnt1 : (1 : Int) ≤ ((graphChildren (schemaEdges s) y).count z : Int) :=
              le_trans hz1 hz2
            have hedge : ∃ e ∈ schemaEdges s, e.1 = y ∧ e.2 = z := by
              have hpos : 0 < ((schemaEdges s).filter
                  (fun e => e.1 == y && e.2 == z)).length := by
                rw [← count_graphChildren]
                exact_mod_cast hcnt1
              obtain ⟨e, hef⟩ := List.exists_mem_of_length_pos hpos
              rw [List.mem_filter] at hef
              simp only [Bool.and_eq_true, beq_iff_eq] at hef
              exact ⟨e, hef.1, hef.2.1, hef.2.2⟩
            obtain ⟨e0, he0, he0y, he0z⟩ := hedge
            have hz_names : z ∈ Schema.names s := by
              have h4 := (schemaEdges_mem_names he0).2
              rwa [he0z] at h4
            have hz_ne_y : z ≠ y := by
              intro hzy
              have h4 := hyready.2.2 e0 he0 (by rw [he0z, hzy])
              rw [he0y] at h4
              exact hynotdone h4
            have hz_not_done : z ∉ done := by
              intro hzd
              have h4 := hdcl z hzd e0 he0 he0z
              rw [he0y] at h4
              exact hynotdone h4
            refine ⟨hz_names, ?_, ?_⟩
            · intro hmem
              rcases List.mem_append.mp hmem with h | h
              · exact hz_not_done h
              · simp only [List.mem_singleton] at h
                exact hz_ne_y h
            · have h0 : ((graphChildren (schemaEdges s) y).foldl indegDec ind) z ≤ 0 := by
                rw [foldl_indegDec_apply]
                omega
              rw [hind2 z] at h0
              have hlen0 : ((schemaEdges s).filter
                  (fun e => e.2 == z && !((done ++ [y]).contains e.1))).length = 0 := by
                omega
              rw [List.length_eq_zero] at hlen0
              intro e he hez
              by_contra hnotin
              have hef : e ∈ (schemaEdges s).filter
                  (fun e => e.2 == z && !((done ++ [y]).contains e.1)) := by
                rw [List.mem_filter]
                refine ⟨he, ?_⟩
                simp only [Bool.and_eq_true, beq_iff_eq, Bool.not_eq_true']
                exact ⟨hez, (contains_eq_false_iff _ _).mpr hnotin⟩
              rw [hlen0] at hef
              exact List.not_mem_nil e hef
        · intro hz2
          by_cases hrdy : readyAfter s done z
          · left
            have hq := (hqmem z).mpr hrdy
            rcases List.mem_cons.mp hq with h | h
            · exfalso
              apply hz2.2.1
              rw [h]
              exact List.mem_append_right _ (by simp)
            · exact h
          · right
            rw [mem_processDeps_enq]
            have hznd : z ∉ done := fun hzd => hz2.2.1 (List.mem_append_left _ hzd)
            have hex : ∃ e ∈ schemaEdges s, e.2 = z ∧ e.1 ∉ done := by
              by_contra hch
              push_neg at hch
              exact hrdy ⟨hz2.1, hznd, fun e he hez => hch e he hez⟩
            obtain ⟨e1, he1, he1z, he1nd⟩ := hex
            constructor
            · rw [hind z]
              have hmemf : e1 ∈ (schemaEdges s).filter
                  (fun e => e.2 == z && !(done.contains e.1)) := by
                rw [List.mem_filter]
                refine ⟨he1, ?_⟩
                simp only [Bool.and_eq_true, beq_iff_eq, Bool.not_eq_true']
                exact ⟨he1z, (contains_eq_false_iff _ _).mpr he1nd⟩
              have hpos := List.length_pos.mpr (List.ne_nil_of_mem hmemf)
              omega
            · rw [hind z]
              have hsub : ((schemaEdges s).filter
                    (fun e => e.2 == z && !(done.contains e.1))).length ≤
                  ((schemaEdges s).filter (fun e => e.1 == y && e.2 == z)).length := by
                rw [← List.countP_eq_length_filter, ← List.countP_eq_length_filter]
                apply List.countP_mono_left
                intro e he hp
                simp only [Bool.and_eq_true, beq_iff_eq, Bool.not_eq_true'] at hp ⊢
                obtain ⟨hp1, hp2⟩ := hp
                have hpnd : e.1 ∉ done := (contains_eq_false_iff _ _).mp hp2
                have hin2 := hz2.2.2 e he hp1
                rcases List.mem_append.mp hin2 with h | h
                · exact absurd h hpnd
                · exact ⟨by simpa using h, hp1⟩
              rw [count_graphChildren]
              omega
      have hq2mem2 : ∀ z, z ∈ sortStrings (rest ++
          (processDeps (graphChildren (schemaEdges s) y) ind []).2) ↔
          readyAfter s (done ++ [y]) z := by
        intro z
        rw [sortStrings_mem, List.mem_append]
        exact hq2mem z
      have henqnd := nodup_processDeps_enq (graphChildren (schemaEdges s) y) ind
      have hq2nd : (sortStrings (rest ++
          (processDeps (graphChildren (schemaEdges s) y) ind []).2)).Nodup := by
        rw [(sortStrings_perm _).nodup_iff]
        apply List.Nodup.append hrestnd henqnd
        intro a ha hae
        rw [mem_processDeps_enq] at hae
        have hrdy := (hqmem a).mp (List.mem_cons_of_mem _ ha)
        have h5 := hreadyind a hrdy
        omega
      show GreedySeq s done (y :: kahnLoop (graphChildren (schemaEdges s)) fuel
        (sortStrings (processDeps (graphChildren (schemaEdges s) y) ind rest).2)
        (processDeps (graphChildren (schemaEdges s) y) ind rest).1)
      refine GreedySeq.cons done y _ hyready ?_ ?_
      · intro z hz
        have hzq := (hqmem z).mpr hz
        rcases List.mem_cons.mp hzq with h | h
        · rw [h]
          exact strLe_refl y
        · exact (List.pairwise_cons.mp hsort).1 z h
      · rw [processDeps_queue, processDeps_ind]
        exact ih (done ++ [y])
          (sortStrings (rest ++ (processDeps (graphChildren (schemaEdges s) y) ind []).2))
          ((graphChildren (schemaEdges s) y).foldl indegDec ind)
          hfuel2 (sortStrings_sorted _) hq2nd hq2mem2 hind2 hdone2nd hdone2sub hdone2cl

theorem kahnPart_greedy (s : Schema) (hn : (Schema.names s).Nodup) :
    GreedySeq s [] (kahnPart s) := by
  show GreedySeq s [] (kahnLoop (graphChildren (schemaEdges s)) (s.tables.length + 1)
    (sortStrings ((Schema.names s).filter (fun n => initIndeg s n == 0))) (initIndeg s))
  apply kahnLoop_greedy s (s.tables.length + 1)
  · have hlen : (Schema.names s).length = s.tables.length := List.length_map _ _
    omega
  · exact sortStrings_sorted _
  · rw [(sortStrings_perm _).nodup_iff]
    exact hn.filter _
  · intro z
    rw [sortStrings_mem, List.mem_filter]
    unfold readyAfter
    constructor
    · rintro ⟨hzn, hz0⟩
      refine ⟨hzn, List.not_mem_nil z, ?_⟩
      intro e he hez
      exfalso
      rw [beq_iff_eq] at hz0
      unfold initIndeg at hz0
      have hlen0 : ((schemaEdges s).filter (fun e => e.2 == z)).length = 0 := by
        exact_mod_cast hz0
      rw [List.length_eq_zero] at hlen0
      have hef : e ∈ (schemaEdges s).filter (fun e => e.2 == z) := by
        rw [List.mem_filter]
        exact ⟨he, by rw [beq_iff_eq]; exact hez⟩
      rw [hlen0] at hef
      exact List.not_mem_nil e hef
    · rintro ⟨hzn, _, hcl⟩
      refine ⟨hzn, ?_⟩
      rw [beq_iff_eq]
      unfold initIndeg
      have hnil : ((schemaEdges s).filter (fun e => e.2 == z)) = [] := by
        apply List.filter_eq_nil_iff.mpr
        intro e he
        rw [beq_iff_eq]
        intro hez
        exact List.not_mem_nil e.1 (hcl e he hez)
      rw [hnil]
      rfl
  · intro n
    unfold initIndeg
    congr 2
    apply List.filter_congr
    intro e _
    simp
  · exact List.nodup_nil
  · intro z hz
    exact absurd hz (List.not_mem_nil z)
  · intro z hz
    exact absurd hz (List.not_mem_nil z)

theorem GreedySeq.unique {s : Schema} {done l1 l2 : List String}
    (h1 : GreedySeq s done l1) (h2 : GreedySeq s done l2) : l1 = l2 := by
  induction h1 generalizing l2 with
  | nil done h =>
    cases h2 with
    | nil => rfl
    | cons done y rest hy hmin hrest => exact absurd hy (h y)
  | cons done y rest hy hmin hrest ih =>
    cases h2 with
    | nil d hempty => exact absurd hy (hempty y)
    | cons _ y2 rest2 hy2 hmin2 hrest2 =>
      have heq : y = y2 := strLe_antisymm (hmin y2 hy2) (hmin2 y hy)
      subst heq
      rw [ih hrest2]

theorem GreedySeq.ready_of_decomp {s : Schema} {done l : List String}
    (h : GreedySeq s done l) :
    ∀ xs y ys, l = xs ++ y :: ys →
      readyAfter s (done ++ xs) y ∧ ∀ z, readyAfter s (done ++ xs) z → strLe y z := by
  induction h with
  | nil done h =>
    intro xs y ys hx
    exact absurd hx (by simp)
  | cons done y0 rest hy hmin hrest ih =>
    intro xs y ys hx
    rcases xs with _ | ⟨x, xs⟩
    · simp only [List.nil_append, List.cons.injEq] at hx
      obtain ⟨rfl, _⟩ := hx
      simpa using ⟨hy, hmin⟩
    · simp only [List.cons_append, List.cons.injEq] at hx
      obtain ⟨rfl, hx2⟩ := hx
      have := ih xs y ys hx2
      rwa [List.append_assoc, List.singleton_append] at this

theorem GreedySeq.not_ready_end {s : Schema} {done l : List String}
    (h : GreedySeq s done l) : ∀ z, ¬ readyAfter s (done ++ l) z := by
  induction h with
  | nil done h => simpa using h
  | cons done y rest hy hmin hrest ih =>
    intro z
    have := ih z
    rwa [List.append_assoc, List.singleton_append] at this

theorem GreedySeq.sub_nodup {s : Schema} {done l : List String}
    (h : GreedySeq s done l) :
    (∀ z ∈ l, z ∈ Schema.names s ∧ z ∉ done) ∧ l.Nodup := by
  induction h with
  | nil done h => exact ⟨fun z hz => absurd hz (List.not_mem_nil z), List.nodup_nil⟩
  | cons done y rest hy hmin hrest ih =>
    constructor
    · intro z hz
      rcases List.mem_cons.mp hz with h | h
      · subst h
        exact ⟨hy.1, hy.2.1⟩
      · have h2 := ih.1 z h
        refine ⟨h2.1, fun hzd => h2.2 (List.mem_append_left _ hzd)⟩
    · rw [List.nodup_cons]
      refine ⟨?_, ih.2⟩
      intro hmem
      exact (ih.1 y hmem).2 (List.mem_append_right _ (by simp))

theorem kahnPart_sub_nodup (s : Schema) (hn : (Schema.names s).Nodup) :
    (∀ z ∈ kahnPart s, z ∈ Schema.names s) ∧ (kahnPart s).Nodup := by
  have h := (kahnPart_greedy s hn).sub_nodup
  exact ⟨fun z hz => (h.1 z hz).1, h.2⟩

theorem TableOrder_eq_kahn_append (s : Schema) (hn : (Schema.names s).Nodup) :
    TableOrder s = kahnPart s ++
      sortStrings ((Schema.names s).filter (fun n => !((kahnPart s).contains n))) := by
  unfold TableOrder
  by_cases hc : (kahnPart s).length ≠ s.tables.length
  · rw [if_pos hc]
  · push_neg at hc
    rw [if_neg (by rw [hc]; exact fun hne => hne rfl)]
    have hperm : (kahnPart s).Perm (Schema.names s) := by
      apply List.Subperm.perm_of_length_le
      · exact List.Nodup.subperm (kahnPart_sub_nodup s hn).2
          (fun a ha => (kahnPart_sub_nodup s hn).1 a ha)
      · rw [hc]
        unfold Schema.names
        rw [List.length_map]
    have hnil : ((Schema.names s).filter (fun n => !((kahnPart s).contains n))) = [] := by
      apply List.filter_eq_nil_iff.mpr
      intro a ha
      have ham : a ∈ kahnPart s := hperm.mem_iff.mpr ha
      simp [List.elem_iff, ham]
    rw [hnil]
    simp [sortStrings, List.insertionSort]

theorem TableOrder_perm (s : Schema) (hn : (Schema.names s).Nodup) :
    (TableOrder s).Perm (Schema.names s) := by
  rw [TableOrder_eq_kahn_append s hn]
  have h1 : ((Schema.names s).filter (fun n => (kahnPart s).contains n)).Perm
      (kahnPart s) := by
    apply List.Subperm.antisymm
    · apply List.Nodup.subperm (hn.filter _)
      intro a ha
      rw [List.mem_filter] at ha
      exact List.elem_iff.mp ha.2
    · apply List.Nodup.subperm (kahnPart_sub_nodup s hn).2
      intro a ha
      rw [List.mem_filter]
      exact ⟨(kahnPart_sub_nodup s hn).1 a ha, List.elem_iff.mpr ha⟩
  exact (List.Perm.append h1.symm (sortStrings_perm _)).trans
    (List.filter_append_perm _ _)

theorem kahnPart_parent_before (s : Schema) (hn : (Schema.names s).Nodup) :
    ∀ e ∈ schemaEdges s, e.2 ∈ kahnPart s →
      ∃ l1 l2, kahnPart s = l1 ++ e.2 :: l2 ∧ e.1 ∈ l1 := by
  intro e he hmem
  obtain ⟨l1, l2, hdec⟩ := List.append_of_mem hmem
  refine ⟨l1, l2, hdec, ?_⟩
  have hready := ((kahnPart_greedy s hn).ready_of_decomp l1 e.2 l2 hdec).1
  have := hready.2.2 e he rfl
  simpa using this

theorem readyAfter_congr {s1 s2 : Schema}
    (hmem : ∀ z, z ∈ Schema.names s1 ↔ z ∈ Schema.names s2)
    (hedge : ∀ e, e ∈ schemaEdges s1 ↔ e ∈ schemaEdges s2)
    (done : List String) (z : String) :
    readyAfter s1 done z ↔ readyAfter s2 done z := by
  unfold readyAfter
  rw [hmem z]
  constructor
  · rintro ⟨h1, h2, h3⟩
    exact ⟨h1, h2, fun e he hez => h3 e ((hedge e).mpr he) hez⟩
  · rintro ⟨h1, h2, h3⟩
    exact ⟨h1, h2, fun e he hez => h3 e ((hedge e).mp he) hez⟩

theorem GreedySeq.congr {s1 s2 : Schema}
    (hmem : ∀ z, z ∈ Schema.names s1 ↔ z ∈ Schema.names s2)
    (hedge : ∀ e, e ∈ schemaEdges s1 ↔ e ∈ schemaEdges s2)
    {done l : List String} (h : GreedySeq s1 done l) : GreedySeq s2 done l := by
  induction h with
  | nil done h =>
    exact GreedySeq.nil done
      (fun z hz => h z ((readyAfter_congr hmem hedge done z).mpr hz))
  | cons done y rest hy hmin hrest ih =>
    exact GreedySeq.cons done y rest ((readyAfter_congr hmem hedge done y).mp hy)
      (fun z hz => hmin z ((readyAfter_congr hmem hedge done z).mpr hz)) ih

theorem hasTable_eq_of_perm {s1 s2 : Schema} (h : s1.tables.Perm s2.tables)
    (t : String) : Schema.hasTable s1 t = Schema.hasTable s2 t := by
  unfold Schema.hasTable
  rw [Bool.eq_iff_iff]
  simp only [List.elem_iff]
  exact (h.map (fun p => p.1)).mem_iff

theorem schemaEdges_mem_of_perm {s1 s2 : Schema} (h : s1.tables.Perm s2.tables)
    (e : String × String) : e ∈ schemaEdges s1 ↔ e ∈ schemaEdges s2 := by
  unfold schemaEdges
  simp only [List.mem_flatten, List.mem_map]
  constructor
  · rintro ⟨l, ⟨p, hp, rfl⟩, hel⟩
    simp only [List.mem_map, List.mem_filter] at hel
    obtain ⟨fk, ⟨hfk, hhas⟩, rfl⟩ := hel
    refine ⟨_, ⟨p, h.mem_iff.mp hp, rfl⟩, ?_⟩
    simp only [List.mem_map, List.mem_filter]
    exact ⟨fk, ⟨hfk, by rw [← hasTable_eq_of_perm h]; exact hhas⟩, rfl⟩
  · rintro ⟨l, ⟨p, hp, rfl⟩, hel⟩
    simp only [List.mem_map, List.mem_filter] at hel
    obtain ⟨fk, ⟨hfk, hhas⟩, rfl⟩ := hel
    refine ⟨_, ⟨p, h.mem_iff.mpr hp, rfl⟩, ?_⟩
    simp only [List.mem_map, List.mem_filter]
    exact ⟨fk, ⟨hfk, by rw [hasTable_eq_of_perm h]; exact hhas⟩, rfl⟩

theorem TableOrder_eq_of_perm {s1 s2 : Schema} (hn : (Schema.names s1).Nodup)
    (h : s2.tables.Perm s1.tables) : TableOrder s2 = TableOrder s1 := by
  have hnperm : (Schema.names s2).Perm (Schema.names s1) := by
    unfold Schema.names
    exact h.map _
  have hn2 : (Schema.names s2).Nodup := hnperm.nodup_iff.mpr hn
  have hmem : ∀ z, z ∈ Schema.names s2 ↔ z ∈ Schema.names s1 := fun z => hnperm.mem_iff
  have hedge := schemaEdges_mem_of_perm h
  have hkp : kahnPart s2 = kahnPart s1 :=
    GreedySeq.unique (kahnPart_greedy s2 hn2)
      (GreedySeq.congr (fun z => (hmem z).symm) (fun e => (hedge e).symm)
        (kahnPart_greedy s1 hn))
  rw [TableOrder_eq_kahn_append s2 hn2, TableOrder_eq_kahn_append s1 hn, hkp]
  congr 1
  apply sortStrings_eq_of_perm
  exact hnperm.filter _

set_option maxRecDepth 40000 in
/-- C8: `TableOrder` is a total order over all tables (a permutation of the
table names); its Kahn-produced prefix is exactly the greedy lexicographic
Kahn sequence (each emitted table is ready — all parents of FK edges into it
already emitted, which gives parent-before-child on the acyclic region — and
is the lexicographically least ready table, and the prefix extends until no
table is ready); the remaining tables (cycles or unreached) are appended in
lexicographic order; the result does not depend on the map-iteration order of
the schema; and the S5 schema `A, B(a → A), C(b → B)` yields `[A, B, C]`. -/
theorem TableOrder_spec (s : Schema) (hn : (Schema.names s).Nodup) :
    (TableOrder s).Perm (Schema.names s)
    ∧ GreedySeq s [] (kahnPart s)
    ∧ TableOrder s = kahnPart s ++
        sortStrings ((Schema.names s).filter (fun n => !((kahnPart s).contains n)))
    ∧ (∀ e ∈ schemaEdges s, e.2 ∈ kahnPart s →
        ∃ l1 l2, kahnPart s = l1 ++ e.2 :: l2 ∧ e.1 ∈ l1)
    ∧ (∀ s2 : Schema, s2.tables.Perm s.tables → TableOrder s2 = TableOrder s)
    ∧ TableOrder exampleSchemaABC = ["A", "B", "C"] :=
  ⟨TableOrder_perm s hn, kahnPart_greedy s hn, TableOrder_eq_kahn_append s hn,
    kahnPart_parent_before s hn, fun s2 h2 => TableOrder_eq_of_perm hn h2, by decide⟩

set_option maxRecDepth 40000 in
/-- Witness for C8 at the S5 example schema. -/
theorem TableOrder_spec_witness :
    (Schema.names exampleSchemaABC).Nodup
    ∧ (TableOrder exampleSchemaABC).Perm (Schema.names exampleSchemaABC)
    ∧ TableOrder exampleSchemaABC = ["A", "B", "C"] :=
  ⟨by decide, (TableOrder_spec exampleSchemaABC (by decide)).1,
    (TableOrder_spec exampleSchemaABC (by decide)).2.2.2.2.2⟩


/-! ### Empty-selection behaviour (no subset roots) -/

lemma selection_get_nil (n : String) : Selection.get { sets := [] } n = none := rfl

lemma foldlM_const_of {α β : Type} (f : α → β → Except String α)
    (h : ∀ a b, f a b = .ok a) : ∀ (l : List β) (a : α), l.foldlM f a = .ok a := by
  intro l
  induction l with
  | cons b rest ih =>
    intro a
    simp only [List.foldlM_cons, h a b]
    exact ih a
  | nil => intro a; rfl

lemma foldlM_fixpoint {α β : Type} (f : α → β → Except String α) (a : α)
    (h : ∀ b, f a b = .ok a) : ∀ (l : List β), l.foldlM f a = .ok a := by
  intro l
  induction l with
  | nil => rfl
  | cons b rest ih =>
    simp only [List.foldlM_cons, h b]
    exact ih

lemma runGroup_nil (db : DB) (s : Schema) (n : String) (hc : Bool) (fk : FKGroup) :
    runGroup db s n hc fk { sets := [] } = .ok ({ sets := [] }, false) := by
  unfold runGroup
  cases s.find fk.refTable <;> cases s.find n <;> rfl

lemma runTableStep_nil (db : DB) (s : Schema) (n : String) (hc : Bool)
    (fk : FKGroup) :
    runTableStep db s n hc ({ sets := [] }, false) fk = .ok ({ sets := [] }, false) := by
  unfold runTableStep orStep
  simp only [runGroup_nil]
  rfl

lemma runTable_nil (db : DB) (s : Schema) (n : String) :
    runTable db s n { sets := [] } = .ok ({ sets := [] }, false) := by
  unfold runTable
  exact foldlM_fixpoint _ _ (runTableStep_nil db s n _) _

lemma runRoundStep_nil (db : DB) (s : Schema) (n : String) :
    runRoundStep db s ({ sets := [] }, false) n = .ok ({ sets := [] }, false) := by
  unfold runRoundStep orStep
  simp only [runTable_nil]
  rfl

lemma runRound_nil (db : DB) (s : Schema) :
    runRound db s { sets := [] } = .ok ({ sets := [] }, false) := by
  unfold runRound
  exact foldlM_fixpoint _ _ (runRoundStep_nil db s) _

lemma expandLoop_nil (db : DB) (s : Schema) (m : Nat) :
    expandLoop db s (m + 1) { sets := [] } = .ok (some { sets := [] }) := by
  unfold expandLoop
  rw [runRound_nil]
  rfl

lemma loadRoots_empty_names (db : DB) (s : Schema) (roots : List RootConfig)
    (h : ∀ r ∈ roots, r.table = "") (sel : Selection) :
    roots.foldlM (loadRoot db s) sel = .ok sel := by
  induction roots generalizing sel with
  | nil => rfl
  | cons r rest ih =>
    have hr : r.table = "" := h r (by simp)
    have hstep : loadRoot db s sel r = .ok sel := by
      unfold loadRoot
      rw [if_pos hr]
    simp only [List.foldlM_cons, hstep]
    exact ih (fun q hq => h q (by simp [hq])) sel

lemma copyData_empty_selection (db : DB) (s : Schema) (order : List String)
    (included : String → Bool) (trsFor : String → List (String × Transformer))
    (seed : Nat) (salt : String) :
    copyData db s order included trsFor seed salt (some { sets := [] }) = .ok [] := by
  unfold copyData
  refine foldlM_const_of _ (fun acc name => ?_) order []
  unfold copyDataStep
  cases hI : included name with
  | false => rfl
  | true =>
    cases hf : s.find name with
    | none => simp [hI, hf]
    | some tbl => simp [hI, hf, selection_get_nil]

lemma buildSelection_no_roots (db : DB) (s : Schema) (cfg : Option Config)
    (fuel : Nat)
    (hroots : ∀ c sub r, cfg = some c → c.subset = some sub → r ∈ sub.roots →
      r.table = "")
    (hfuel : 0 < fuel) :
    BuildSelection db s cfg fuel = .ok (some { sets := [] }) := by
  obtain ⟨m, rfl⟩ : ∃ m, fuel = m + 1 := ⟨fuel - 1, by omega⟩
  cases cfg with
  | none => rfl
  | some c =>
    cases hc : c.subset with
    | none =>
      simp only [BuildSelection, hc]
      rfl
    | some sub =>
      cases he : sub.roots.isEmpty with
      | true =>
        simp only [BuildSelection, hc, he, if_true]
        rfl
      | false =>
        simp only [BuildSelection, hc, he, Bool.false_eq_true, if_false]
        rw [loadRoots_empty_names db s sub.roots
          (fun r hr => hroots c sub r rfl hc hr)]
        simpa using expandLoop_nil db s m

/-- C10: when subsetting is requested (run flag set or a subset section
present) but every configured root is absent or empty-named, BuildSelection
yields the empty selection and the data phase skips every table as not
selected, so the run inserts zero data rows. -/
theorem subset_without_roots_empty_output
    (db : DB) (s : Schema) (cfg : Option Config) (subsetFlag : Bool)
    (included : String → Bool) (trsFor : String → List (String × Transformer))
    (seed : Nat) (salt : String) (fuel : Nat)
    (hreq : subsetFlag = true ∨ ∃ c, cfg = some c ∧ (c.subset).isSome = true)
    (hroots : ∀ c sub r, cfg = some c → c.subset = some sub → r ∈ sub.roots →
      r.table = "")
    (hfuel : 0 < fuel) :
    runData db s cfg subsetFlag included trsFor seed salt fuel =
      .ok (some { sets := [] }, []) := by
  unfold runData
  have hreq2 : subsetRequested cfg subsetFlag = true := by
    rcases hreq with h | ⟨c, rfl, hc⟩
    · simp [subsetRequested, h]
    · simp [subsetRequested, hc]
  rw [hreq2]
  simp only [if_true]
  rw [buildSelection_no_roots db s cfg fuel hroots hfuel]
  show (copyData db s (TableOrder s) included trsFor seed salt
      (some { sets := [] })).bind _ = _
  rw [copyData_empty_selection db s (TableOrder s) included trsFor seed salt]
  rfl

/-- The C10 theorem at a concrete run: one table `t` with one stored row, a
subset section whose only root has an empty table name; the run returns the
empty selection and no inserted rows. -/
theorem subset_without_roots_empty_output_witness :
    runData [("t", [[("id", Value.vint 1)]])]
      { tables := [("t", { name := "t", primaryKeys := ["id"] })] }
      (some { subset := some { roots := [{ table := "" }] } }) false
      (fun _ => true) (fun _ => []) 0 "" 1 =
      .ok (some { sets := [] }, []) :=
  subset_without_roots_empty_output _ _ _ _ _ _ _ _ _
    (Or.inr ⟨_, rfl, rfl⟩)
    (by
      intro c sub r hc hs hr
      cases hc
      cases hs
      simp only [List.mem_singleton] at hr
      subst hr
      rfl)
    (by decide)


/-! ### The parallel writer reorders results back into index order (C3) -/

lemma pendingChar_mem_seen {f : Nat → List Value} {seen : List Nat} {k : Nat}
    {p : List (Nat × List Value)} (h : PendingChar f seen k p)
    (hk : k ∈ seen) : ∃ e ∈ p, e.1 = k :=
  h.2.1 k hk (le_refl k)

lemma drainLoop_spec (f : Nat → List Value) :
    ∀ (fuel : Nat) (p : List (Nat × List Value)) (k : Nat) (seen : List Nat),
      PendingChar f seen k p → p.length ≤ fuel → (∀ j, j < k → j ∈ seen) →
      ∃ k2 p2, drainLoop fuel p k ((List.range k).map f) =
          (p2, k2, (List.range k2).map f) ∧
        PendingChar f seen k2 p2 ∧ k2 ∉ seen ∧ (∀ j, j < k2 → j ∈ seen) ∧ k ≤ k2 := by
  intro fuel
  induction fuel with
  | zero =>
    intro p k seen hchar hlen hbelow
    have hp : p = [] := List.length_eq_zero.mp (Nat.le_zero.mp hlen)
    refine ⟨k, p, rfl, hchar, ?_, hbelow, le_refl k⟩
    intro hk
    obtain ⟨e, he, _⟩ := pendingChar_mem_seen hchar hk
    rw [hp] at he
    exact absurd he (List.not_mem_nil e)
  | succ fuel ih =>
    intro p k seen hchar hlen hbelow
    cases hfind : p.find? (fun e => e.1 == k) with
    | none =>
      refine ⟨k, p, ?_, hchar, ?_, hbelow, le_refl k⟩
      · unfold drainLoop
        rw [hfind]
      · intro hk
        obtain ⟨e, he, hek⟩ := pendingChar_mem_seen hchar hk
        have := List.find?_eq_none.mp hfind e he
        simp [hek] at this
    | some e =>
      have hmem : e ∈ p := List.mem_of_find?_eq_some hfind
      have hek : e.1 = k := by
        have := List.find?_some hfind
        simpa using this
      have hval : e.2 = f k := by
        rw [← hek]
        exact (hchar.1 e hmem).1
      have hkseen : k ∈ seen := by
        rw [← hek]
        exact (hchar.1 e hmem).2.1
      set p2 := p.filter (fun q => !(q.1 == k)) with hp2
      have hchar2 : PendingChar f seen (k + 1) p2 := by
        refine ⟨?_, ?_, ?_⟩
        · intro q hq
          have hq1 : q ∈ p := List.mem_of_mem_filter hq
          have hq2 : ¬(q.1 = k) := by
            have := List.of_mem_filter hq
            simpa using this
          obtain ⟨ha, hb, hcle⟩ := hchar.1 q hq1
          exact ⟨ha, hb, by omega⟩
        · intro i hi hki
          obtain ⟨q, hq, hqi⟩ := hchar.2.1 i hi (by omega)
          refine ⟨q, ?_, hqi⟩
          rw [hp2]
          rw [List.mem_filter]
          refine ⟨hq, ?_⟩
          simp [hqi]
          omega
        · exact List.Nodup.sublist ((List.filter_sublist p).map Prod.fst) hchar.2.2
      have hlen2 : p2.length ≤ fuel := by
        have : p2.length < p.length := by
          rw [hp2]
          refine List.length_filter_lt_length_iff_exists.mpr ⟨e, hmem, ?_⟩
          simp [hek]
        omega
      have hbelow2 : ∀ j, j < k + 1 → j ∈ seen := by
        intro j hj
        rcases Nat.lt_or_ge j k with h | h
        · exact hbelow j h
        · have : j = k := by omega
          rw [this]
          exact hkseen
      obtain ⟨k2, p3, heq, hchar3, hnot, hbel, hle⟩ :=
        ih p2 (k + 1) seen hchar2 hlen2 hbelow2
      refine ⟨k2, p3, ?_, hchar3, hnot, hbel, by omega⟩
      have hout : (List.range k).map f ++ [e.2] = (List.range (k + 1)).map f := by
        rw [hval, List.range_succ, List.map_append]
        rfl
      unfold drainLoop
      rw [hfind]
      show drainLoop fuel (p.filter (fun q => !(q.1 == k))) (k + 1)
        ((List.range k).map f ++ [e.2]) = _
      rw [hout]
      exact heq

lemma flushFold_aux (f : Nat → List Value) :
    ∀ (arr : List Nat) (seen : List Nat) (p : List (Nat × List Value)) (k : Nat),
      arr.Nodup → (∀ i ∈ arr, i ∉ seen) → PendingChar f seen k p →
      k ∉ seen → (∀ j, j < k → j ∈ seen) →
      ∃ k2 p2 seen2,
        (arr.map (fun i => (i, f i))).foldl (fun st res =>
            let q := st.1 ++ [res]
            drainLoop q.length q st.2.1 st.2.2) (p, k, (List.range k).map f) =
          (p2, k2, (List.range k2).map f) ∧
        PendingChar f seen2 k2 p2 ∧ k2 ∉ seen2 ∧ (∀ j, j < k2 → j ∈ seen2) ∧
        (∀ i, i ∈ seen2 ↔ i ∈ arr ∨ i ∈ seen) := by
  intro arr
  induction arr with
  | nil =>
    intro seen p k _ _ hchar hk hbelow
    exact ⟨k, p, seen, rfl, hchar, hk, hbelow, by simp⟩
  | cons j rest ih =>
    intro seen p k hnd hfresh hchar hk hbelow
    have hjseen : j ∉ seen := hfresh j (by simp)
    have hkj : k ≤ j := by
      by_contra h
      exact hjseen (hbelow j (by omega))
    have hchar2 : PendingChar f (j :: seen) k (p ++ [(j, f j)]) := by
      refine ⟨?_, ?_, ?_⟩
      · intro e he
        rcases List.mem_append.mp he with h | h
        · obtain ⟨ha, hb, hcle⟩ := hchar.1 e h
          exact ⟨ha, by simp [hb], hcle⟩
        · simp only [List.mem_singleton] at h
          rw [h]
          exact ⟨rfl, by simp, hkj⟩
      · intro i hi hki
        rcases List.mem_cons.mp hi with h | h
        · exact ⟨(j, f j), by simp [h], by simp [h]⟩
        · obtain ⟨e, he, hei⟩ := hchar.2.1 i h hki
          exact ⟨e, List.mem_append_left _ he, hei⟩
      · rw [List.map_append]
        refine List.Nodup.append hchar.2.2 (by simp) ?_
        intro a ha hb
        simp only [List.map_cons, List.map_nil, List.mem_singleton] at hb
        obtain ⟨e, he, hea⟩ := List.mem_map.mp ha
        rw [hb] at hea
        exact hjseen (hea ▸ (hchar.1 e he).2.1)
    have hbelow2 : ∀ m, m < k → m ∈ j :: seen := by
      intro m hm
      exact List.mem_cons_of_mem j (hbelow m hm)
    obtain ⟨k2, p2, heq, hchar3, hnot, hbel, hle⟩ :=
      drainLoop_spec f (p ++ [(j, f j)]).length (p ++ [(j, f j)]) k (j :: seen)
        hchar2 (le_refl _) hbelow2
    simp only [List.map_cons, List.foldl_cons]
    rw [heq]
    have hnd2 : rest.Nodup := hnd.of_cons
    have hfresh2 : ∀ i ∈ rest, i ∉ j :: seen := by
      intro i hi
      simp only [List.mem_cons]
      push_neg
      constructor
      · intro hij
        rw [hij] at hi
        exact (List.nodup_cons.mp hnd).1 hi
      · exact hfresh i (List.mem_cons_of_mem j hi)
    obtain ⟨k3, p3, seen3, heq2, hchar4, hnot3, hbel3, hmem3⟩ :=
      ih (j :: seen) p2 k2 hnd2 hfresh2 hchar3 hnot hbel
    refine ⟨k3, p3, seen3, heq2, hchar4, hnot3, hbel3, ?_⟩
    intro i
    rw [hmem3 i]
    simp only [List.mem_cons]
    tauto

lemma flushFold_perm (f : Nat → List Value) (n : Nat) (arrival : List Nat)
    (hperm : arrival.Perm (List.range n)) :
    (flushFold (arrival.map (fun i => (i, f i)))).2.2 = (List.range n).map f := by
  have hnd : arrival.Nodup := hperm.nodup_iff.mpr (List.nodup_range n)
  have hmem : ∀ i, i ∈ arrival ↔ i < n := by
    intro i
    rw [hperm.mem_iff, List.mem_range]
  have hchar0 : PendingChar f [] 0 [] :=
    ⟨by simp, by simp, by simp⟩
  obtain ⟨k2, p2, seen2, heq, hchar, hnot, hbel, hseen⟩ :=
    flushFold_aux f arrival [] [] 0 hnd (by simp) hchar0 (by simp)
      (by intro j hj; omega)
  have hs : ∀ i, i ∈ seen2 ↔ i < n := by
    intro i
    rw [hseen i, hmem i]
    simp
  have hk2 : k2 = n := by
    by_contra hne
    rcases Nat.lt_or_ge k2 n with h | h
    · exact hnot ((hs k2).mpr h)
    · have hn : n < k2 := by omega
      have := hbel n hn
      rw [hs n] at this
      omega
  unfold flushFold
  have h0 : (([], 0, []) :
      List (Nat × List Value) × Nat × List (List Value)) =
      ([], 0, (List.range 0).map f) := rfl
  rw [h0, heq, hk2]


lemma getD_range_self : ∀ (l : List (List Value)),
    (List.range l.length).map (fun i => l.getD i []) = l := by
  intro l
  induction l with
  | cons a t ih =>
    show (List.range (t.length + 1)).map _ = _
    rw [List.range_succ_eq_map, List.map_cons, List.map_map]
    refine congrArg (List.cons a) ?_
    calc (List.range t.length).map ((fun i => (a :: t).getD i []) ∘ Nat.succ)
        = (List.range t.length).map (fun i => t.getD i []) := by
          refine List.map_congr_left ?_
          intro i _
          rfl
      _ = t := ih
  | nil => rfl

/-- C3: the parallel row pipeline is output-equivalent to the sequential
one — for every table, transformer list and arrival order of worker results
(any permutation of the row indices, covering every worker count), the
writer's index-ordered drain reproduces exactly the sequential output
sequence. -/
theorem processRowsParallel_eq_sequential
    (tblName : String) (colNames pkCols : List String) (useRowID : Bool)
    (trs : List (String × Transformer)) (seed : Nat) (salt : String)
    (rows : List (List Value)) (arrival : List Nat)
    (hperm : arrival.Perm (List.range rows.length)) :
    processRowsParallel tblName colNames pkCols useRowID trs seed salt rows arrival =
      processRowsSequential tblName colNames pkCols useRowID trs seed salt rows := by
  unfold processRowsParallel
  have hlen : (processRowsSequential tblName colNames pkCols useRowID trs seed
      salt rows).length = rows.length := by
    unfold processRowsSequential
    exact List.length_map _ _
  rw [flushFold_perm (fun i => (processRowsSequential tblName colNames pkCols
    useRowID trs seed salt rows).getD i []) rows.length arrival hperm]
  rw [← hlen]
  exact getD_range_self _

/-- The C3 theorem at a concrete table: two rows, an identity transformer on
column `a`, results arriving out of order. -/
theorem processRowsParallel_eq_sequential_witness :
    ([1, 0] : List Nat).Perm (List.range 2) ∧
    processRowsParallel "t" ["a"] ["a"] false
      [("a", fun v _ => v)] 0 "" [[Value.vint 1], [Value.vint 2]] [1, 0] =
    processRowsSequential "t" ["a"] ["a"] false
      [("a", fun v _ => v)] 0 "" [[Value.vint 1], [Value.vint 2]] :=
  ⟨by decide, processRowsParallel_eq_sequential _ _ _ _ _ _ _ _ _ (by decide)⟩


/-! ### Output row order of copyTable (C2) -/

lemma keyProj_rowTuple (selectCols orderCols : List String) (r : Row)
    (h : ∀ c ∈ orderCols, c ∈ selectCols) :
    keyProj selectCols orderCols (rowTuple r selectCols) = rowTuple r orderCols := by
  unfold keyProj rowTuple
  refine List.map_congr_left ?_
  intro c hc
  have hmem : c ∈ selectCols := h c hc
  have hlt : selectCols.indexOf c < selectCols.length :=
    List.indexOf_lt_length.mpr hmem
  have hlt2 : selectCols.indexOf c < (selectCols.map (rowGet r)).length := by
    rw [List.length_map]
    exact hlt
  rw [List.getD_eq_get _ _ hlt2, List.get_map, List.indexOf_get]

lemma sortTuplesBy_sorted {α : Type} (key : α → List Value) (l : List α) :
    List.Sorted (fun a b => tupleLe (key a) (key b)) (sortTuplesBy key l) := by
  haveI : IsTotal α (fun a b => tupleLe (key a) (key b)) :=
    ⟨fun a b => IsTotal.total (r := tupleLe) (key a) (key b)⟩
  haveI : IsTrans α (fun a b => tupleLe (key a) (key b)) :=
    ⟨fun a b c h1 h2 => IsTrans.trans (r := tupleLe) _ _ _ h1 h2⟩
  exact List.sorted_insertionSort _ l

lemma tableSelect_ascending (db : DB) (tbl : Table)
    (selectCols orderCols : List String) (cond : Row → Bool)
    (h : ∀ c ∈ orderCols, c ∈ selectCols) :
    ascendingBy (keyProj selectCols orderCols)
      (tableSelect db tbl selectCols orderCols cond) := by
  unfold tableSelect ascendingBy
  rw [List.chain'_map]
  have hsorted := sortTuplesBy_sorted (fun r => rowTuple r orderCols)
    ((dbRows db tbl.name).filter cond)
  refine List.Chain'.imp ?_ (List.Pairwise.chain' hsorted)
  intro a b hab
  rw [keyProj_rowTuple selectCols orderCols a h,
    keyProj_rowTuple selectCols orderCols b h]
  exact hab

lemma valuesByColumns_self (ps : PKSet) (hne : ps.cols ≠ []) :
    ps.valuesByColumns ps.cols = .ok ps.values := by
  unfold PKSet.valuesByColumns
  rw [if_neg hne, if_pos rfl]

lemma exceptBind_ok {α β : Type} (x : α) (f : α → Except String β) :
    (Except.ok x : Except String α).bind f = f x := rfl

lemma orderCols_sub_selectCols (tbl : Table)
    (hpk : ∀ c ∈ tbl.primaryKeys, c ∈ tbl.columns.map (fun col => col.name)) :
    ∀ c ∈ buildOrderBy tbl (tbl.primaryKeys.isEmpty && !tbl.withoutRowID),
      c ∈ (if tbl.primaryKeys.isEmpty && !tbl.withoutRowID then ["rowid"] else [])
        ++ tbl.columns.map (fun col => col.name) := by
  intro c hc
  by_cases h1 : tbl.primaryKeys.isEmpty = true
  · by_cases h2 : tbl.withoutRowID = true
    · simp [buildOrderBy, h1, h2] at hc
    · simp [buildOrderBy, h1, h2] at hc
      simp [h1, h2, hc]
  · have h1f : tbl.primaryKeys.isEmpty = false := by
      simpa using h1
    simp only [buildOrderBy, h1f, Bool.false_eq_true, if_false] at hc
    simp only [h1f, Bool.false_and, Bool.false_eq_true, if_false, List.nil_append]
    exact hpk c hc

/-- C2 (amended): the inserted sequence of a table is the transform image of
its source scan sequence, and that scan is ascending by the PK (or rowid)
ordering columns when no subset applies or the subset PKSet holds at most
500 tuples (a single chunk); the counterexample below shows the >500-tuple
chunked scan breaks the global ordering. -/
theorem copyTable_insert_order
    (db : DB) (tbl : Table) (trs : List (String × Transformer)) (seed : Nat)
    (salt : String) (selSet : Option PKSet)
    (hpk : ∀ c ∈ tbl.primaryKeys, c ∈ tbl.columns.map (fun col => col.name))
    (hsel : selSet = none ∨
      ∃ ps, selSet = some ps ∧ ps.cols ≠ [] ∧ ps.values.length ≤ 500) :
    ∃ src, copyTableScan db tbl selSet = .ok src ∧
      ascendingBy (pkProj tbl) src ∧
      copyTable db tbl trs seed salt selSet =
        .ok (processRowsSequential tbl.name (tbl.columns.map (fun c => c.name))
          tbl.primaryKeys (tbl.primaryKeys.isEmpty && !tbl.withoutRowID)
          trs seed salt src) := by
  have horder := orderCols_sub_selectCols tbl hpk
  rcases hsel with rfl | ⟨ps, rfl, hne, hlen⟩
  · refine ⟨tableSelect db tbl
      ((if tbl.primaryKeys.isEmpty && !tbl.withoutRowID then ["rowid"] else [])
        ++ tbl.columns.map (fun col => col.name))
      (buildOrderBy tbl (tbl.primaryKeys.isEmpty && !tbl.withoutRowID))
      (fun _ => true), rfl, ?_, rfl⟩
    exact tableSelect_ascending db tbl _ _ _ horder
  · have hv := valuesByColumns_self ps hne
    have hchunks : chunkValues (sortRows ps.values) 500 = [sortRows ps.values] := by
      unfold chunkValues
      rw [if_pos]
      refine Or.inr ?_
      unfold sortRows
      rw [(List.perm_insertionSort _ ps.values).length_eq]
      exact hlen
    refine ⟨tableSelect db tbl
      ((if tbl.primaryKeys.isEmpty && !tbl.withoutRowID then ["rowid"] else [])
        ++ tbl.columns.map (fun col => col.name))
      (buildOrderBy tbl (tbl.primaryKeys.isEmpty && !tbl.withoutRowID))
      (fun r => (sortRows ps.values).contains (rowTuple r ps.cols)), ?_, ?_, ?_⟩
    · have hscan : copyTableScan db tbl (some ps) =
          (ps.valuesByColumns ps.cols).bind (fun pkValues =>
            Except.ok (((chunkValues (sortRows pkValues) 500).map (fun chunk =>
              tableSelect db tbl
                ((if tbl.primaryKeys.isEmpty && !tbl.withoutRowID then ["rowid"]
                  else []) ++ tbl.columns.map (fun c => c.name))
                (buildOrderBy tbl (tbl.primaryKeys.isEmpty && !tbl.withoutRowID))
                (fun r => chunk.contains (rowTuple r ps.cols)))).flatten)) := rfl
      rw [hscan, hv]
      simp only [exceptBind_ok]
      rw [hchunks]
      simp
    · exact tableSelect_ascending db tbl _ _ _ horder
    · have hcopy : copyTable db tbl trs seed salt (some ps) =
          (ps.valuesByColumns ps.cols).bind (fun pkValues =>
            Except.ok (((chunkValues (sortRows pkValues) 500).map (fun chunk =>
              processRowsSequential tbl.name (tbl.columns.map (fun c => c.name))
                tbl.primaryKeys (tbl.primaryKeys.isEmpty && !tbl.withoutRowID)
                trs seed salt
                (tableSelect db tbl
                  ((if tbl.primaryKeys.isEmpty && !tbl.withoutRowID then ["rowid"]
                    else []) ++ tbl.columns.map (fun c => c.name))
                  (buildOrderBy tbl (tbl.primaryKeys.isEmpty && !tbl.withoutRowID))
                  (fun r => chunk.contains (rowTuple r ps.cols))))).flatten)) := rfl
      rw [hcopy, hv]
      simp only [exceptBind_ok]
      rw [hchunks]
      simp

/-- The C2 amended theorem at a concrete table: single-column integer PK,
two stored rows out of order, a two-tuple subset set; the scan is the
PK-ascending pair and the inserted rows its (identity) transform image. -/
theorem copyTable_insert_order_witness :
    ∃ src, copyTableScan [("t", [[("id", Value.vint 2)], [("id", Value.vint 1)]])]
      { name := "t", primaryKeys := ["id"], columns := [{ name := "id" }] }
      (some { cols := ["id"], keys := ["2", "1"],
              values := [[Value.vint 2], [Value.vint 1]] }) = .ok src ∧
      ascendingBy
        (pkProj { name := "t", primaryKeys := ["id"],
                  columns := [{ name := "id" }] }) src ∧
      copyTable [("t", [[("id", Value.vint 2)], [("id", Value.vint 1)]])]
        { name := "t", primaryKeys := ["id"], columns := [{ name := "id" }] }
        [] 0 ""
        (some { cols := ["id"], keys := ["2", "1"],
                values := [[Value.vint 2], [Value.vint 1]] }) =
        .ok (processRowsSequential "t" ["id"] ["id"] false [] 0 "" src) :=
  copyTable_insert_order _ _ _ _ _ _ (by decide)
    (Or.inr ⟨_, rfl, by decide, by decide⟩)


set_option maxRecDepth 100000 in
/-- C2 counterexample: with a 501-tuple PKSet the key-sorted chunks are
queried separately, and the per-chunk ORDER BY does not give a globally
PK-ascending insert sequence — the first chunk yields id 599, the second
id 6. -/
theorem copyTable_chunk_order_counterexample :
    500 < chunkSet.values.length ∧
    copyTable chunkDB chunkTable [] 0 "" (some chunkSet) =
      .ok [[Value.vint 599], [Value.vint 6]] ∧
    ¬ ascendingBy (pkProj chunkTable) [[Value.vint 599], [Value.vint 6]] := by
  refine ⟨by decide, by rfl, ?_⟩
  intro h
  unfold ascendingBy at h
  rw [List.chain'_cons] at h
  exact absurd h.1 (by decide)


/-! ### PKSet.add and addAll -/

lemma contains_iff {l : List String} {a : String} : l.contains a = true ↔ a ∈ l :=
  List.elem_iff

lemma add_of_contains {ps : PKSet} {v : List Value}
    (h : ps.keys.contains (keyFor v) = true) : ps.add v = (ps, false) := by
  unfold PKSet.add
  rw [if_pos h]

lemma add_of_not_contains {ps : PKSet} {v : List Value}
    (h : ps.keys.contains (keyFor v) = false) :
    ps.add v =
      ({ ps with
          keys := keyFor v :: ps.keys,
          values := ps.values ++ [v] }, true) := by
  unfold PKSet.add
  rw [if_neg (by rw [h]; simp)]

lemma add_fst_cols (ps : PKSet) (v : List Value) : (ps.add v).1.cols = ps.cols := by
  cases hc : ps.keys.contains (keyFor v) with
  | true => rw [add_of_contains hc]
  | false => rw [add_of_not_contains hc]

lemma add_false_eq {ps : PKSet} {v : List Value} (h : (ps.add v).2 = false) :
    (ps.add v).1 = ps := by
  cases hc : ps.keys.contains (keyFor v) with
  | true => rw [add_of_contains hc]
  | false =>
    rw [add_of_not_contains hc] at h
    exact absurd h (by simp)

lemma add_false_contains {ps : PKSet} {v : List Value} (h : (ps.add v).2 = false) :
    keyFor v ∈ ps.keys := by
  cases hc : ps.keys.contains (keyFor v) with
  | true => exact contains_iff.mp hc
  | false =>
    rw [add_of_not_contains hc] at h
    exact absurd h (by simp)

lemma add_mem_keys (ps : PKSet) (v : List Value) :
    keyFor v ∈ (ps.add v).1.keys := by
  cases hc : ps.keys.contains (keyFor v) with
  | true =>
    rw [add_of_contains hc]
    exact contains_iff.mp hc
  | false =>
    rw [add_of_not_contains hc]
    exact List.mem_cons_self _ _

lemma add_keys_sub {ps : PKSet} {v : List Value} :
    ∀ k ∈ (ps.add v).1.keys, k = keyFor v ∨ k ∈ ps.keys := by
  intro k hk
  cases hc : ps.keys.contains (keyFor v) with
  | true =>
    rw [add_of_contains hc] at hk
    exact Or.inr hk
  | false =>
    rw [add_of_not_contains hc] at hk
    exact List.mem_cons.mp hk

lemma add_keys_super {ps : PKSet} {v : List Value} :
    ∀ k ∈ ps.keys, k ∈ (ps.add v).1.keys := by
  intro k hk
  cases hc : ps.keys.contains (keyFor v) with
  | true =>
    rw [add_of_contains hc]
    exact hk
  | false =>
    rw [add_of_not_contains hc]
    exact List.mem_cons_of_mem _ hk

lemma add_values_sub {ps : PKSet} {v : List Value} :
    ∀ w ∈ (ps.add v).1.values, w ∈ ps.values ∨ w = v := by
  intro w hw
  cases hc : ps.keys.contains (keyFor v) with
  | true =>
    rw [add_of_contains hc] at hw
    exact Or.inl hw
  | false =>
    rw [add_of_not_contains hc] at hw
    simpa using List.mem_append.mp hw

lemma add_values_super {ps : PKSet} {v : List Value} :
    ∀ w ∈ ps.values, w ∈ (ps.add v).1.values := by
  intro w hw
  cases hc : ps.keys.contains (keyFor v) with
  | true =>
    rw [add_of_contains hc]
    exact hw
  | false =>
    rw [add_of_not_contains hc]
    exact List.mem_append_left _ hw

lemma add_keys_len (ps : PKSet) (v : List Value) :
    ps.keys.length ≤ (ps.add v).1.keys.length ∧
    ((ps.add v).2 = true → ps.keys.length < (ps.add v).1.keys.length) := by
  cases hc : ps.keys.contains (keyFor v) with
  | true =>
    rw [add_of_contains hc]
    exact ⟨le_refl _, by simp⟩
  | false =>
    rw [add_of_not_contains hc]
    refine ⟨?_, fun _ => ?_⟩ <;> simp

lemma add_wf {ps : PKSet} {v : List Value} (h : PKSetWF ps) :
    PKSetWF (ps.add v).1 := by
  cases hc : ps.keys.contains (keyFor v) with
  | true =>
    rw [add_of_contains hc]
    exact h
  | false =>
    rw [add_of_not_contains hc]
    obtain ⟨hnd, hfwd, hbwd⟩ := h
    refine ⟨?_, ?_, ?_⟩
    · refine List.nodup_cons.mpr ⟨?_, hnd⟩
      intro hmem
      rw [← contains_iff] at hmem
      rw [hc] at hmem
      exact absurd hmem (by simp)
    · intro k hk
      rcases List.mem_cons.mp hk with rfl | hk2
      · refine List.mem_map.mpr ⟨v, ?_, rfl⟩
        exact List.mem_append_right _ (by simp)
      · obtain ⟨w, hw, hwk⟩ := List.mem_map.mp (hfwd k hk2)
        exact List.mem_map.mpr ⟨w, List.mem_append_left _ hw, hwk⟩
    · intro w hw
      rcases List.mem_append.mp hw with hw2 | hw2
      · exact List.mem_cons_of_mem _ (hbwd w hw2)
      · simp only [List.mem_singleton] at hw2
        rw [hw2]
        exact List.mem_cons_self _ _

lemma addAll_nil (ps : PKSet) : addAll ps [] = (ps, false) := rfl

lemma addAll_go (ts : List (List Value)) : ∀ (ps : PKSet) (b : Bool),
    (ts.foldl (fun acc t =>
      let r := acc.1.add t
      (r.1, acc.2 || r.2)) (ps, b)) =
    ((addAll ps ts).1, b || (addAll ps ts).2) := by
  induction ts with
  | nil =>
    intro ps b
    simp [addAll]
  | cons t ts ih =>
    intro ps b
    show (ts.foldl _ ((ps.add t).1, b || (ps.add t).2)) = _
    rw [ih ((ps.add t).1) (b || (ps.add t).2)]
    have hr : addAll ps (t :: ts) =
        ((addAll (ps.add t).1 ts).1,
          (ps.add t).2 || (addAll (ps.add t).1 ts).2) := by
      show (ts.foldl _ ((ps.add t).1, false || (ps.add t).2)) = _
      rw [ih ((ps.add t).1) (false || (ps.add t).2)]
      rw [Bool.false_or]
    rw [hr, Bool.or_assoc]

lemma addAll_cons (ps : PKSet) (t : List Value) (ts : List (List Value)) :
    addAll ps (t :: ts) =
      ((addAll (ps.add t).1 ts).1,
        (ps.add t).2 || (addAll (ps.add t).1 ts).2) := by
  show (ts.foldl _ ((ps.add t).1, false || (ps.add t).2)) = _
  rw [addAll_go ts ((ps.add t).1) (false || (ps.add t).2)]
  rw [Bool.false_or]

lemma addAll_cols (ts : List (List Value)) : ∀ (ps : PKSet),
    (addAll ps ts).1.cols = ps.cols := by
  induction ts with
  | nil => intro ps; rfl
  | cons t ts ih =>
    intro ps
    rw [addAll_cons]
    show (addAll (ps.add t).1 ts).1.cols = ps.cols
    rw [ih ((ps.add t).1), add_fst_cols]

lemma addAll_false_eq (ts : List (List Value)) : ∀ (ps : PKSet),
    (addAll ps ts).2 = false → (addAll ps ts).1 = ps := by
  induction ts with
  | nil => intro ps _; rfl
  | cons t ts ih =>
    intro ps h
    rw [addAll_cons] at h ⊢
    simp only [Bool.or_eq_false_iff] at h
    show (addAll (ps.add t).1 ts).1 = ps
    rw [ih ((ps.add t).1) h.2, add_false_eq h.1]

lemma addAll_keys_le (ts : List (List Value)) : ∀ (ps : PKSet),
    ps.keys.length ≤ (addAll ps ts).1.keys.length := by
  induction ts with
  | nil => intro ps; exact le_refl _
  | cons t ts ih =>
    intro ps
    rw [addAll_cons]
    exact le_trans (add_keys_len ps t).1 (ih ((ps.add t).1))

lemma addAll_keys_lt (ts : List (List Value)) : ∀ (ps : PKSet),
    (addAll ps ts).2 = true → ps.keys.length < (addAll ps ts).1.keys.length := by
  induction ts with
  | nil =>
    intro ps h
    exact absurd h (by simp [addAll_nil])
  | cons t ts ih =>
    intro ps h
    rw [addAll_cons] at h ⊢
    rcases Bool.or_eq_true_iff.mp h with h1 | h2
    · exact lt_of_lt_of_le ((add_keys_len ps t).2 h1) (addAll_keys_le ts _)
    · exact lt_of_le_of_lt (add_keys_len ps t).1 (ih _ h2)

lemma addAll_wf (ts : List (List Value)) : ∀ (ps : PKSet),
    PKSetWF ps → PKSetWF (addAll ps ts).1 := by
  induction ts with
  | nil => intro ps h; exact h
  | cons t ts ih =>
    intro ps h
    rw [addAll_cons]
    exact ih _ (add_wf h)

lemma addAll_keys_sub (ts : List (List Value)) : ∀ (ps : PKSet),
    ∀ k ∈ (addAll ps ts).1.keys, k ∈ ps.keys ∨ ∃ t ∈ ts, keyFor t = k := by
  induction ts with
  | nil => intro ps k hk; exact Or.inl hk
  | cons t ts ih =>
    intro ps k hk
    rw [addAll_cons] at hk
    rcases ih _ k hk with h | ⟨u, hu, huk⟩
    · rcases add_keys_sub k h with rfl | h2
      · exact Or.inr ⟨t, by simp, rfl⟩
      · exact Or.inl h2
    · exact Or.inr ⟨u, by simp [hu], huk⟩

lemma addAll_keys_super (ts : List (List Value)) : ∀ (ps : PKSet),
    ∀ k ∈ ps.keys, k ∈ (addAll ps ts).1.keys := by
  induction ts with
  | nil => intro ps k hk; exact hk
  | cons t ts ih =>
    intro ps k hk
    rw [addAll_cons]
    exact ih _ k (add_keys_super k hk)

lemma addAll_mem_keys (ts : List (List Value)) : ∀ (ps : PKSet),
    ∀ t ∈ ts, keyFor t ∈ (addAll ps ts).1.keys := by
  induction ts with
  | nil => intro ps t ht; exact absurd ht (List.not_mem_nil t)
  | cons u ts ih =>
    intro ps t ht
    rw [addAll_cons]
    rcases List.mem_cons.mp ht with rfl | ht2
    · exact addAll_keys_super ts _ _ (add_mem_keys ps t)
    · exact ih _ t ht2

lemma addAll_values_sub (ts : List (List Value)) : ∀ (ps : PKSet),
    ∀ w ∈ (addAll ps ts).1.values, w ∈ ps.values ∨ w ∈ ts := by
  induction ts with
  | nil => intro ps w hw; exact Or.inl hw
  | cons t ts ih =>
    intro ps w hw
    rw [addAll_cons] at hw
    rcases ih _ w hw with h | h
    · rcases add_values_sub w h with h2 | rfl
      · exact Or.inl h2
      · exact Or.inr (by simp)
    · exact Or.inr (by simp [h])

lemma addAll_values_super (ts : List (List Value)) : ∀ (ps : PKSet),
    ∀ w ∈ ps.values, w ∈ (addAll ps ts).1.values := by
  induction ts with
  | nil => intro ps w hw; exact hw
  | cons t ts ih =>
    intro ps w hw
    rw [addAll_cons]
    exact ih _ w (add_values_super w hw)


/-! ### Selection map operations -/

lemma any_name_iff (sel : Selection) (n : String) :
    sel.sets.any (fun p => p.1 == n) = true ↔ n ∈ selNames sel := by
  rw [List.any_eq_true]
  unfold selNames
  constructor
  · rintro ⟨p, hp, hpn⟩
    rw [beq_iff_eq] at hpn
    exact List.mem_map.mpr ⟨p, hp, hpn⟩
  · intro h
    obtain ⟨p, hp, hpn⟩ := List.mem_map.mp h
    exact ⟨p, hp, beq_iff_eq.mpr hpn⟩

lemma get_none_iff (sel : Selection) (n : String) :
    sel.get n = none ↔ n ∉ selNames sel := by
  unfold Selection.get
  rw [Option.map_eq_none', List.find?_eq_none]
  unfold selNames
  constructor
  · intro h hmem
    obtain ⟨p, hp, hpn⟩ := List.mem_map.mp hmem
    exact absurd (beq_iff_eq.mpr hpn) (by simpa using h p hp)
  · intro h p hp
    intro hpn
    rw [beq_iff_eq] at hpn
    exact h (List.mem_map.mpr ⟨p, hp, hpn⟩)

lemma get_some_mem {sel : Selection} {n : String} {ps : PKSet}
    (h : sel.get n = some ps) : (n, ps) ∈ sel.sets := by
  unfold Selection.get at h
  rw [Option.map_eq_some'] at h
  obtain ⟨e, he, hev⟩ := h
  have hmem := List.mem_of_find?_eq_some he
  have hen : e.1 = n := beq_iff_eq.mp (by simpa using List.find?_some he)
  have : e = (n, ps) := by
    cases e
    simp only at hen hev
    rw [hen, hev]
  rw [← this]
  exact hmem

lemma find_map_replace (l : List (String × PKSet)) (n : String) (ps : PKSet) :
    (l.map (fun p => if p.1 == n then (n, ps) else p)).find? (fun p => p.1 == n) =
      if l.any (fun p => p.1 == n) then some (n, ps) else none := by
  induction l with
  | nil => rfl
  | cons p t ih =>
    by_cases hp : p.1 = n
    · have hb : (p.1 == n) = true := beq_iff_eq.mpr hp
      simp only [List.map_cons, hb, if_true, List.any_cons, Bool.true_or]
      rw [List.find?_cons_of_pos]
      simp
    · have hb : (p.1 == n) = false := by simp [hp]
      simp only [List.map_cons, hb, Bool.false_eq_true, if_false,
        List.any_cons, Bool.false_or]
      rw [List.find?_cons_of_neg]
      · exact ih
      · simp [hb]

lemma find_map_replace_other (l : List (String × PKSet)) (n m : String)
    (ps : PKSet) (h : m ≠ n) :
    (l.map (fun p => if p.1 == n then (n, ps) else p)).find? (fun p => p.1 == m) =
      l.find? (fun p => p.1 == m) := by
  have hnm : ((n, ps).1 == m) = false := by
    simp only [beq_eq_false_iff_ne]
    exact fun h2 => h h2.symm
  induction l with
  | nil => rfl
  | cons p t ih =>
    by_cases hp : p.1 = n
    · have hb : (p.1 == n) = true := beq_iff_eq.mpr hp
      have hpm : (p.1 == m) = false := by
        simp only [beq_eq_false_iff_ne]
        rw [hp]
        exact fun h2 => h h2.symm
      simp only [List.map_cons, hb, if_true]
      rw [List.find?_cons_of_neg _ (by simp [hnm]),
        List.find?_cons_of_neg _ (by simp [hpm])]
      exact ih
    · have hb : (p.1 == n) = false := by simp [hp]
      simp only [List.map_cons, hb, Bool.false_eq_true, if_false]
      by_cases hm : p.1 = m
      · rw [List.find?_cons_of_pos _ (by simp [hm]),
          List.find?_cons_of_pos _ (by simp [hm])]
      · rw [List.find?_cons_of_neg _ (by simp [hm]),
          List.find?_cons_of_neg _ (by simp [hm])]
        exact ih

lemma get_put_self (sel : Selection) (n : String) (ps : PKSet) :
    (sel.put n ps).get n = some ps := by
  unfold Selection.put
  cases hany : sel.sets.any (fun p => p.1 == n) with
  | true =>
    show (Selection.get { sets := _ } n) = some ps
    unfold Selection.get
    rw [find_map_replace, if_pos hany]
    rfl
  | false =>
    show (Selection.get { sets := sel.sets ++ [(n, ps)] } n) = some ps
    unfold Selection.get
    rw [List.find?_append]
    have h1 : sel.sets.find? (fun p => p.1 == n) = none := by
      rw [List.find?_eq_none]
      intro p hp hpn
      have : sel.sets.any (fun p => p.1 == n) = true :=
        List.any_eq_true.mpr ⟨p, hp, hpn⟩
      rw [hany] at this
      exact absurd this (by simp)
    rw [h1]
    simp

lemma get_put_other (sel : Selection) (n m : String) (ps : PKSet) (h : m ≠ n) :
    (sel.put n ps).get m = sel.get m := by
  unfold Selection.put
  cases hany : sel.sets.any (fun p => p.1 == n) with
  | true =>
    show (Selection.get { sets := _ } m) = _
    unfold Selection.get
    rw [find_map_replace_other sel.sets n m ps h]
  | false =>
    show (Selection.get { sets := sel.sets ++ [(n, ps)] } m) = _
    unfold Selection.get
    rw [List.find?_append]
    have h2 : ([(n, ps)].find? (fun p => p.1 == m)) = none := by
      rw [List.find?_eq_none]
      intro p hp
      simp only [List.mem_singleton] at hp
      rw [hp]
      simp
      exact fun h2 => h h2.symm
    rw [h2]
    simp

lemma selNames_put (sel : Selection) (n : String) (ps : PKSet) :
    selNames (sel.put n ps) =
      if n ∈ selNames sel then selNames sel else selNames sel ++ [n] := by
  unfold Selection.put
  cases hany : sel.sets.any (fun p => p.1 == n) with
  | true =>
    rw [if_pos ((any_name_iff sel n).mp hany)]
    show selNames { sets := sel.sets.map (fun p => if p.1 == n then (n, ps) else p) } = _
    unfold selNames
    show (sel.sets.map (fun p => if p.1 == n then (n, ps) else p)).map
      (fun p => p.1) = sel.sets.map (fun p => p.1)
    rw [List.map_map]
    refine List.map_congr_left ?_
    intro p hp
    by_cases hpn : p.1 = n
    · show ((fun p => p.1) ∘ fun p => if p.1 == n then (n, ps) else p) p = p.1
      simp only [Function.comp]
      rw [if_pos (beq_iff_eq.mpr hpn)]
      exact hpn.symm
    · show ((fun p => p.1) ∘ fun p => if p.1 == n then (n, ps) else p) p = p.1
      simp only [Function.comp]
      rw [if_neg (by simp [hpn])]
  | false =>
    have hnot : n ∉ selNames sel := by
      intro hmem
      have hx := (any_name_iff sel n).mpr hmem
      rw [hany] at hx
      exact absurd hx (by simp)
    rw [if_neg hnot]
    show selNames { sets := sel.sets ++ [(n, ps)] } = _
    unfold selNames
    show (sel.sets ++ [(n, ps)]).map (fun p => p.1) = _
    rw [List.map_append]
    rfl

lemma selNames_put_nodup {sel : Selection} (n : String) (ps : PKSet)
    (h : (selNames sel).Nodup) : (selNames (sel.put n ps)).Nodup := by
  rw [selNames_put]
  by_cases hmem : n ∈ selNames sel
  · rw [if_pos hmem]
    exact h
  · rw [if_neg hmem]
    refine List.Nodup.append h (by simp) ?_
    intro a ha hb
    simp only [List.mem_singleton] at hb
    rw [hb] at ha
    exact hmem ha

lemma put_sets_mem {sel : Selection} {n : String} {ps : PKSet} :
    ∀ q ∈ (sel.put n ps).sets, q = (n, ps) ∨ (q ∈ sel.sets ∧ q.1 ≠ n) := by
  intro q hq
  unfold Selection.put at hq
  cases hany : sel.sets.any (fun p => p.1 == n) with
  | true =>
    rw [hany] at hq
    simp only [if_true] at hq
    obtain ⟨p, hp, hpq⟩ := List.mem_map.mp hq
    by_cases hpn : p.1 = n
    · rw [if_pos (beq_iff_eq.mpr hpn)] at hpq
      exact Or.inl hpq.symm
    · rw [if_neg (by simp [hpn])] at hpq
      rw [← hpq]
      exact Or.inr ⟨hp, hpn⟩
  | false =>
    rw [hany] at hq
    simp only [Bool.false_eq_true, if_false] at hq
    rcases List.mem_append.mp hq with h1 | h1
    · refine Or.inr ⟨h1, ?_⟩
      intro hqn
      have : sel.sets.any (fun p => p.1 == n) = true :=
        List.any_eq_true.mpr ⟨q, h1, beq_iff_eq.mpr hqn⟩
      rw [hany] at this
      exact absurd this (by simp)
    · simp only [List.mem_singleton] at h1
      exact Or.inl h1

lemma totalKeys_put_none {sel : Selection} {n : String} (ps : PKSet)
    (h : sel.get n = none) :
    totalKeys (sel.put n ps) = totalKeys sel + ps.keys.length := by
  unfold Selection.put
  have hany : sel.sets.any (fun p => p.1 == n) = false := by
    cases hx : sel.sets.any (fun p => p.1 == n) with
    | false => rfl
    | true =>
      exact absurd ((any_name_iff sel n).mp hx) ((get_none_iff sel n).mp h)
  rw [hany]
  simp only [Bool.false_eq_true, if_false]
  show totalKeys { sets := sel.sets ++ [(n, ps)] } = _
  unfold totalKeys
  rw [List.map_append, List.sum_append]
  rfl

lemma sum_map_replace (n : String) (ps : PKSet) :
    ∀ (l : List (String × PKSet)) (e : String × PKSet),
      (l.map Prod.fst).Nodup →
      l.find? (fun p => p.1 == n) = some e →
      ((l.map (fun p => if p.1 == n then (n, ps) else p)).map
        (fun p => p.2.keys.length)).sum + e.2.keys.length =
      (l.map (fun p => p.2.keys.length)).sum + ps.keys.length := by
  intro l
  induction l with
  | nil =>
    intro e _ hfind
    exact absurd hfind (by simp)
  | cons p t ih =>
    intro e hnd hfind
    by_cases hp : p.1 = n
    · have hb : (fun q : String × PKSet => q.1 == n) p = true := beq_iff_eq.mpr hp
      rw [List.find?_cons_of_pos t hb] at hfind
      have he : e = p := by
        cases hfind
        rfl
      have hnd2 : p.1 ∉ t.map Prod.fst ∧ (t.map Prod.fst).Nodup := by
        rw [List.map_cons] at hnd
        exact List.nodup_cons.mp hnd
      have ht : t.map (fun q => if q.1 == n then (n, ps) else q) = t := by
        nth_rewrite 2 [show t = t.map id from (List.map_id t).symm]
        refine List.map_congr_left ?_
        intro q hq
        have hqn : q.1 ≠ n := by
          intro hq2
          exact hnd2.1 (List.mem_map.mpr ⟨q, hq, by rw [hq2, hp]⟩)
        simp only [id]
        rw [if_neg (by simp [hqn])]
      simp only [List.map_cons, hb, if_true, ht, he]
      simp only [List.map_cons, List.sum_cons]
      omega
    · have hb : (p.1 == n) = false := by simp [hp]
      have hbn : ¬((fun q : String × PKSet => q.1 == n) p = true) := by simp [hb]
      rw [List.find?_cons_of_neg t hbn] at hfind
      have hnd2 : (t.map Prod.fst).Nodup := (List.nodup_cons.mp (by simpa using hnd)).2
      have := ih e hnd2 hfind
      simp only [List.map_cons, hb, Bool.false_eq_true, if_false, List.sum_cons]
      omega

lemma totalKeys_put_some {sel : Selection} {n : String} {old : PKSet} (ps : PKSet)
    (hnd : (selNames sel).Nodup) (h : sel.get n = some old) :
    totalKeys (sel.put n ps) + old.keys.length = totalKeys sel + ps.keys.length := by
  unfold Selection.get at h
  rw [Option.map_eq_some'] at h
  obtain ⟨e, hfind, hev⟩ := h
  have hany : sel.sets.any (fun p => p.1 == n) = true := by
    refine List.any_eq_true.mpr ⟨e, List.mem_of_find?_eq_some hfind, ?_⟩
    simpa using List.find?_some hfind
  unfold Selection.put
  rw [hany]
  simp only [if_true]
  show totalKeys { sets := _ } + _ = _
  unfold totalKeys
  have := sum_map_replace n ps sel.sets e hnd hfind
  rw [hev] at this
  exact this


/-! ### Chunking, dedup and the insertable-tuple universe -/

lemma eraseDups_loop_mem {α : Type} [BEq α] [LawfulBEq α] (as : List α) :
    ∀ (bs : List α) (x : α),
      x ∈ List.eraseDups.loop as bs ↔ x ∈ as ∨ x ∈ bs := by
  induction as with
  | nil =>
    intro bs x
    simp [List.eraseDups.loop]
  | cons a as ih =>
    intro bs x
    show x ∈ List.eraseDups.loop (a :: as) bs ↔ _
    rw [List.eraseDups.loop]
    cases hel : bs.elem a with
    | true =>
      simp only
      rw [ih]
      have ha : a ∈ bs := List.elem_iff.mp hel
      constructor
      · rintro (h | h)
        · exact Or.inl (List.mem_cons_of_mem a h)
        · exact Or.inr h
      · rintro (h | h)
        · rcases List.mem_cons.mp h with heq | h2
          · rw [heq]
            exact Or.inr ha
          · exact Or.inl h2
        · exact Or.inr h
    | false =>
      simp only
      rw [ih]
      constructor
      · rintro (h | h)
        · exact Or.inl (List.mem_cons_of_mem _ h)
        · rcases List.mem_cons.mp h with heq | h2
          · rw [heq]
            exact Or.inl (List.mem_cons_self _ _)
          · exact Or.inr h2
      · rintro (h | h)
        · rcases List.mem_cons.mp h with heq | h2
          · rw [heq]
            exact Or.inr (List.mem_cons_self _ _)
          · exact Or.inl h2
        · exact Or.inr (List.mem_cons_of_mem _ h)

lemma mem_eraseDups {α : Type} [BEq α] [LawfulBEq α] {x : α} {l : List α} :
    x ∈ l.eraseDups ↔ x ∈ l := by
  unfold List.eraseDups
  rw [eraseDups_loop_mem]
  simp

lemma chunksOf_nil {α : Type} (n : Nat) : chunksOf n ([] : List α) = [] := by
  unfold chunksOf
  have h0 : (List.length ([] : List α) + n - 1) / n = 0 := by
    cases n with
    | zero => simp
    | succ k =>
      simp only [List.length_nil, Nat.zero_add, Nat.succ_sub_one]
      exact Nat.div_eq_of_lt (Nat.lt_succ_self k)
  rw [h0]
  rfl

lemma chunksOf_cons {α : Type} (n : Nat) (hn : 0 < n) (l : List α) (hl : l ≠ []) :
    chunksOf n l = l.take n :: chunksOf n (l.drop n) := by
  have hm : 1 ≤ l.length := List.length_pos.mpr hl
  unfold chunksOf
  have h1 : (l.length + n - 1) / n = (l.length - 1) / n + 1 := by
    have : l.length + n - 1 = (l.length - 1) + n := by omega
    rw [this, Nat.add_div_right _ hn]
  have h2 : ((l.drop n).length + n - 1) / n = (l.length - 1) / n := by
    rw [List.length_drop]
    rcases le_or_lt n l.length with h | h
    · have : l.length - n + n - 1 = l.length - 1 := by omega
      rw [this]
    · have hz : l.length - n = 0 := by omega
      rw [hz]
      have e1 : (0 + n - 1) / n = 0 := Nat.div_eq_of_lt (by omega)
      have e2 : (l.length - 1) / n = 0 := Nat.div_eq_of_lt (by omega)
      rw [e1, e2]
  rw [h1, h2, List.range_succ_eq_map, List.map_cons]
  refine congrArg₂ List.cons ?_ ?_
  · show (l.drop (0 * n)).take n = l.take n
    rw [Nat.zero_mul, List.drop_zero]
  · rw [List.map_map]
    refine List.map_congr_left ?_
    intro i _
    show (l.drop (Nat.succ i * n)).take n = ((l.drop n).drop (i * n)).take n
    rw [List.drop_drop]
    have hmul : Nat.succ i * n = i * n + n := Nat.succ_mul i n
    rw [hmul, Nat.add_comm]

lemma chunksOf_flatten {α : Type} (n : Nat) (hn : 0 < n) (l : List α) :
    (chunksOf n l).flatten = l := by
  have H : ∀ (m : Nat) (l : List α), l.length ≤ m → (chunksOf n l).flatten = l := by
    intro m
    induction m with
    | zero =>
      intro l hl
      have : l = [] := List.length_eq_zero.mp (Nat.le_zero.mp hl)
      rw [this, chunksOf_nil]
      rfl
    | succ m ih =>
      intro l hl
      by_cases he : l = []
      · rw [he, chunksOf_nil]
        rfl
      · rw [chunksOf_cons n hn l he]
        show l.take n ++ (chunksOf n (l.drop n)).flatten = l
        have hm : 1 ≤ l.length := List.length_pos.mpr he
        rw [ih (l.drop n) (by rw [List.length_drop]; omega)]
        exact List.take_append_drop n l
  exact H l.length l (le_refl _)

lemma chunkValues_flatten (values : List (List Value)) (size : Nat) :
    (chunkValues values size).flatten = values := by
  unfold chunkValues
  by_cases h : size = 0 ∨ values.length ≤ size
  · rw [if_pos h]
    simp
  · rw [if_neg h]
    push_neg at h
    exact chunksOf_flatten size (by omega) values

lemma mem_chunkValues {values : List (List Value)} {size : Nat} {x : List Value} :
    (∃ c ∈ chunkValues values size, x ∈ c) ↔ x ∈ values := by
  conv_rhs => rw [← chunkValues_flatten values size]
  rw [List.mem_flatten]

lemma find_some_mem {s : Schema} {n : String} {tbl : Table}
    (h : s.find n = some tbl) : (n, tbl) ∈ s.tables := by
  unfold Schema.find at h
  rw [Option.map_eq_some'] at h
  obtain ⟨e, he, hev⟩ := h
  have hmem := List.mem_of_find?_eq_some he
  have hen : e.1 = n := beq_iff_eq.mp (by simpa using List.find?_some he)
  have : e = (n, tbl) := by
    cases e
    simp only at hen hev
    rw [hen, hev]
  rw [← this]
  exact hmem

lemma find_some_mem_names {s : Schema} {n : String} {tbl : Table}
    (h : s.find n = some tbl) : n ∈ Schema.names s := by
  unfold Schema.names
  exact List.mem_map.mpr ⟨(n, tbl), find_some_mem h, rfl⟩

lemma insertable_mem {db : DB} {s : Schema} {n : String} {tbl : Table}
    (hfind : s.find n = some tbl) (cols : List String)
    (hcols : (∃ b, tablePKColumns tbl = .ok (cols, b)) ∨
      ∃ g ∈ groupFKs tbl, g.fromCols = cols)
    {r : Row} (hr : r ∈ dbRows db tbl.name) :
    rowTuple r cols ∈ insertableTuples db s := by
  have hmem : (n, tbl) ∈ s.tables := find_some_mem hfind
  unfold insertableTuples
  rw [List.mem_flatten]
  refine ⟨((match tablePKColumns tbl with
      | .ok pc => [pc.1] | .error _ => []) ++
        (groupFKs tbl).map (fun g => g.fromCols)).map
      (fun cols => (dbRows db tbl.name).map (fun r => rowTuple r cols)) |>.flatten,
    List.mem_map.mpr ⟨(n, tbl), hmem, rfl⟩, ?_⟩
  rw [List.mem_flatten]
  refine ⟨(dbRows db tbl.name).map (fun r => rowTuple r cols), ?_,
    List.mem_map.mpr ⟨r, hr, rfl⟩⟩
  refine List.mem_map.mpr ⟨cols, ?_, rfl⟩
  rcases hcols with ⟨b, hb⟩ | ⟨g, hg, hgc⟩
  · refine List.mem_append_left _ ?_
    rw [hb]
    simp
  · refine List.mem_append_right _ ?_
    exact List.mem_map.mpr ⟨g, hg, hgc⟩


/-! ### Growth contracts of the expansion operations (C9) -/

@[simp] lemma okBind {α β : Type} (a : α) (f : α → Except String β) :
    (Except.ok a : Except String α) >>= f = f a := rfl

@[simp] lemma errBind {α β : Type} (e : String) (f : α → Except String β) :
    (Except.error e : Except String α) >>= f = .error e := rfl

@[simp] lemma pureExcept {α : Type} (a : α) :
    (pure a : Except String α) = Except.ok a := rfl

@[simp] lemma okBindE {α β : Type} (a : α) (f : α → Except String β) :
    Except.bind (Except.ok a) f = f a := rfl

@[simp] lemma errBindE {α β : Type} (e : String) (f : α → Except String β) :
    Except.bind (Except.error e : Except String α) f = .error e := rfl

lemma newPKSetWF (cols : List String) : PKSetWF (NewPKSet cols) := by
  refine ⟨List.nodup_nil, ?_, ?_⟩ <;> intro k hk <;>
    exact absurd hk (List.not_mem_nil k)

@[simp] lemma optionCase_none {α : Type} (P : α → Prop) :
    optionCase none P ↔ True := Iff.rfl

@[simp] lemma optionCase_some {α : Type} (a : α) (P : α → Prop) :
    optionCase (some a) P ↔ P a := Iff.rfl

@[simp] lemma exceptCase_error {ε α : Type} (e : ε) (P : α → Prop) :
    exceptCase (Except.error e : Except ε α) P ↔ True := Iff.rfl

@[simp] lemma exceptCase_ok {ε α : Type} (a : α) (P : α → Prop) :
    exceptCase (Except.ok a : Except ε α) P ↔ P a := Iff.rfl

lemma colsOK_of_cols_eq {s : Schema} {n : String} {ps ps2 : PKSet}
    (h : ps2.cols = ps.cols) (hc : colsOK s n ps) : colsOK s n ps2 := by
  unfold colsOK at *
  cases hf : s.find n with
  | none => simp
  | some tbl =>
    rw [hf] at hc
    rw [optionCase_some] at hc ⊢
    cases htp : tablePKColumns tbl with
    | error e => simp
    | ok pc =>
      rw [htp] at hc
      rw [exceptCase_ok] at hc ⊢
      rw [h]
      exact hc

lemma expInv_entry {s : Schema} {ks ns : List String} {sel : Selection}
    (hinv : ExpInv s ks ns sel) {n : String} {ps : PKSet}
    (hget : sel.get n = some ps) :
    PKSetWF ps ∧ colsOK s n ps ∧ (∀ k ∈ ps.keys, k ∈ ks) ∧ n ∈ ns := by
  have hmem := get_some_mem hget
  obtain ⟨⟨hnd, hwf⟩, hkeys, hnames⟩ := hinv
  obtain ⟨h1, h2⟩ := hwf (n, ps) hmem
  exact ⟨h1, h2, hkeys (n, ps) hmem, hnames (n, ps) hmem⟩

lemma putGrow_existing {s : Schema} {ks ns : List String} {sel : Selection}
    {n : String} {ps : PKSet} (ts : List (List Value))
    (hinv : ExpInv s ks ns sel) (hget : sel.get n = some ps)
    (hts : ∀ t ∈ ts, keyFor t ∈ ks) :
    ExpInv s ks ns (sel.put n (addAll ps ts).1) ∧
    totalKeys sel ≤ totalKeys (sel.put n (addAll ps ts).1) ∧
    ((addAll ps ts).2 = true →
      totalKeys sel < totalKeys (sel.put n (addAll ps ts).1)) ∧
    (∀ m, (sel.get m).isSome → ((sel.put n (addAll ps ts).1).get m).isSome) := by
  obtain ⟨hpswf, hpscols, hpskeys, hpn⟩ := expInv_entry hinv hget
  obtain ⟨⟨hndn, hwf⟩, hkeys, hnames⟩ := hinv
  have hmemn : n ∈ selNames sel := by
    by_contra hc
    rw [← get_none_iff] at hc
    rw [hget] at hc
    exact absurd hc (by simp)
  have hkeysub : ∀ k ∈ (addAll ps ts).1.keys, k ∈ ks := by
    intro k hk
    rcases addAll_keys_sub ts ps k hk with h | ⟨t, ht, htk⟩
    · exact hpskeys k h
    · rw [← htk]
      exact hts t ht
  refine ⟨⟨⟨?_, ?_⟩, ?_, ?_⟩, ?_, ?_, ?_⟩
  · rw [selNames_put, if_pos hmemn]
    exact hndn
  · intro q hq
    rcases put_sets_mem q hq with rfl | ⟨hqmem, _⟩
    · exact ⟨addAll_wf ts ps hpswf,
        colsOK_of_cols_eq (addAll_cols ts ps) hpscols⟩
    · exact hwf q hqmem
  · intro q hq
    rcases put_sets_mem q hq with rfl | ⟨hqmem, _⟩
    · exact hkeysub
    · exact hkeys q hqmem
  · intro q hq
    rcases put_sets_mem q hq with rfl | ⟨hqmem, _⟩
    · exact hpn
    · exact hnames q hqmem
  · have := totalKeys_put_some (addAll ps ts).1 hndn hget
    have hle := addAll_keys_le ts ps
    omega
  · intro hch
    have := totalKeys_put_some (addAll ps ts).1 hndn hget
    have hlt := addAll_keys_lt ts ps hch
    omega
  · intro m hm
    by_cases hmn : m = n
    · rw [hmn, get_put_self]
      simp
    · rw [get_put_other sel n m _ hmn]
      exact hm

lemma putCreate {s : Schema} {ks ns : List String} {sel : Selection}
    {n : String} (cols : List String)
    (hinv : ExpInv s ks ns sel) (hget : sel.get n = none)
    (hn : n ∈ ns) (hcols : colsOK s n (NewPKSet cols)) :
    ExpInv s ks ns (sel.put n (NewPKSet cols)) ∧
    totalKeys (sel.put n (NewPKSet cols)) = totalKeys sel ∧
    (sel.put n (NewPKSet cols)).get n = some (NewPKSet cols) ∧
    (∀ m, (sel.get m).isSome → ((sel.put n (NewPKSet cols)).get m).isSome) := by
  obtain ⟨⟨hndn, hwf⟩, hkeys, hnames⟩ := hinv
  refine ⟨⟨⟨selNames_put_nodup n _ hndn, ?_⟩, ?_, ?_⟩, ?_, get_put_self sel n _, ?_⟩
  · intro q hq
    rcases put_sets_mem q hq with rfl | ⟨hqmem, _⟩
    · exact ⟨newPKSetWF cols, hcols⟩
    · exact hwf q hqmem
  · intro q hq
    rcases put_sets_mem q hq with rfl | ⟨hqmem, _⟩
    · intro k hk
      exact absurd hk (List.not_mem_nil k)
    · exact hkeys q hqmem
  · intro q hq
    rcases put_sets_mem q hq with rfl | ⟨hqmem, _⟩
    · exact hn
    · exact hnames q hqmem
  · rw [totalKeys_put_none _ hget]
    rfl
  · intro m hm
    by_cases hmn : m = n
    · rw [hmn, get_put_self]
      simp
    · rw [get_put_other sel n m _ hmn]
      exact hm


lemma selectFKValues_ok_proj {db : DB} {childTbl : Table} {fk : FKGroup}
    {cs : PKSet} {vs : List (List Value)}
    (h : selectFKValues db childTbl fk cs = .ok vs) :
    ∀ v ∈ vs, ∃ r ∈ dbRows db childTbl.name, v = rowTuple r fk.fromCols := by
  unfold selectFKValues at h
  cases htp : tablePKColumns childTbl with
  | error e =>
    rw [htp] at h
    simp at h
  | ok pc =>
    rw [htp] at h
    simp only [okBind, okBindE] at h
    cases hvb : cs.valuesByColumns pc.1 with
    | error e =>
      rw [hvb] at h
      simp at h
    | ok vals =>
      rw [hvb] at h
      simp only [okBind, okBindE] at h
      by_cases hnil : vals = []
      · rw [if_pos hnil] at h
        simp only [pureExcept, Except.ok.injEq] at h
        intro v hv
        rw [← h] at hv
        exact absurd hv (List.not_mem_nil v)
      · rw [if_neg hnil] at h
        simp only [pureExcept, Except.ok.injEq] at h
        intro v hv
        rw [← h] at hv
        rw [List.mem_flatten] at hv
        obtain ⟨c, hc, hvc⟩ := hv
        obtain ⟨chunk, _, hcd⟩ := List.mem_map.mp hc
        rw [← hcd] at hvc
        rw [mem_eraseDups] at hvc
        obtain ⟨r, hr, hrv⟩ := List.mem_map.mp hvc
        exact ⟨r, List.mem_of_mem_filter hr, hrv.symm⟩

lemma selectParentPKs_growth {db : DB} {s : Schema} {ks ns : List String}
    {parentTbl : Table} {fk : FKGroup} {refVals : List (List Value)}
    {parentSet : PKSet} {sel sel2 : Selection} {ch : Bool}
    (hks : ∀ t ∈ insertableTuples db s, keyFor t ∈ ks)
    (hfindp : s.find fk.refTable = some parentTbl)
    (hinv : ExpInv s ks ns sel)
    (hget : sel.get fk.refTable = some parentSet)
    (h : selectParentPKs db parentTbl fk refVals parentSet sel = .ok (sel2, ch)) :
    ExpInv s ks ns sel2 ∧ totalKeys sel ≤ totalKeys sel2 ∧
    (ch = true → totalKeys sel < totalKeys sel2) ∧
    (∀ m, (sel.get m).isSome → (sel2.get m).isSome) := by
  unfold selectParentPKs at h
  cases htp : tablePKColumns parentTbl with
  | error e =>
    rw [htp] at h
    simp at h
  | ok pc =>
    rw [htp] at h
    simp only [okBind, okBindE, pureExcept, Except.ok.injEq, Prod.mk.injEq] at h
    obtain ⟨hsel2, hch⟩ := h
    have hts : ∀ t ∈ ((chunkValues refVals 500).map (fun chunk =>
        ((dbRows db parentTbl.name).filter
          (fun r => chunk.contains (rowTuple r fk.toCols))).map
        (fun r => rowTuple r pc.1))).flatten, keyFor t ∈ ks := by
      intro t ht
      rw [List.mem_flatten] at ht
      obtain ⟨c, hc, htc⟩ := ht
      obtain ⟨chunk, _, hcd⟩ := List.mem_map.mp hc
      rw [← hcd] at htc
      obtain ⟨r, hr, hrt⟩ := List.mem_map.mp htc
      rw [← hrt]
      exact hks _ (insertable_mem hfindp pc.1 (Or.inl ⟨pc.2, htp⟩)
        (List.mem_of_mem_filter hr))
    have hg := putGrow_existing _ hinv hget hts
    rw [hsel2] at hg
    rw [← hch]
    exact ⟨hg.1, hg.2.1, hg.2.2.1, hg.2.2.2⟩

lemma addParentKeys_growth {db : DB} {s : Schema} {ks ns : List String}
    {parentTbl : Table} {fk : FKGroup} {refVals : List (List Value)}
    {sel sel2 : Selection} {ch : Bool}
    (hks : ∀ t ∈ insertableTuples db s, keyFor t ∈ ks)
    (hns : ∀ n ∈ Schema.names s, n ∈ ns)
    (hfindp : s.find fk.refTable = some parentTbl)
    (hinv : ExpInv s ks ns sel)
    (hts : ∀ t ∈ refVals, keyFor t ∈ ks)
    (h : addParentKeys db parentTbl fk refVals sel = .ok (sel2, ch)) :
    ExpInv s ks ns sel2 ∧ totalKeys sel ≤ totalKeys sel2 ∧
    (ch = true → totalKeys sel < totalKeys sel2) ∧
    (∀ m, (sel.get m).isSome → (sel2.get m).isSome) := by
  unfold addParentKeys at h
  by_cases hnil : refVals = []
  · rw [if_pos hnil] at h
    simp only [pureExcept, Except.ok.injEq, Prod.mk.injEq] at h
    obtain ⟨hsel2, hch⟩ := h
    rw [← hsel2, ← hch]
    exact ⟨hinv, le_refl _, by simp, fun m hm => hm⟩
  · rw [if_neg hnil] at h
    cases hget : sel.get fk.refTable with
    | some ps =>
      rw [hget] at h
      simp only [okBind, okBindE] at h
      by_cases hcols : (ps.cols == fk.toCols) = true
      · rw [if_pos hcols] at h
        simp only [pureExcept, Except.ok.injEq, Prod.mk.injEq] at h
        obtain ⟨hsel2, hch⟩ := h
        have hg := putGrow_existing refVals hinv hget hts
        rw [hsel2] at hg
        rw [← hch]
        exact ⟨hg.1, hg.2.1, hg.2.2.1, hg.2.2.2⟩
      · rw [if_neg hcols] at h
        exact selectParentPKs_growth hks hfindp hinv hget h
    | none =>
      rw [hget] at h
      cases htp : tablePKColumns parentTbl with
      | error e =>
        rw [htp] at h
        simp at h
      | ok pc =>
        rw [htp] at h
        simp only [okBind, okBindE] at h
        have hcolsOK : colsOK s fk.refTable (NewPKSet pc.1) := by
          unfold colsOK
          rw [hfindp, optionCase_some, htp, exceptCase_ok]
          rfl
        have hc := putCreate pc.1 hinv hget
          (hns _ (find_some_mem_names hfindp)) hcolsOK
        obtain ⟨hinv1, htk1, hget1, hmono1⟩ := hc
        by_cases hcols : ((NewPKSet pc.1).cols == fk.toCols) = true
        · rw [if_pos hcols] at h
          simp only [pureExcept, Except.ok.injEq, Prod.mk.injEq] at h
          obtain ⟨hsel2, hch⟩ := h
          have hg := putGrow_existing refVals hinv1 hget1 hts
          rw [hsel2] at hg
          rw [← hch]
          refine ⟨hg.1, ?_, ?_, ?_⟩
          · omega
          · intro hc2
            have := hg.2.2.1 hc2
            omega
          · intro m hm
            exact hg.2.2.2 m (hmono1 m hm)
        · rw [if_neg hcols] at h
          have hg := selectParentPKs_growth hks hfindp hinv1 hget1 h
          refine ⟨hg.1, ?_, ?_, ?_⟩
          · omega
          · intro hc2
            have := hg.2.2.1 hc2
            omega
          · intro m hm
            exact hg.2.2.2 m (hmono1 m hm)

lemma addChildKeys_growth {db : DB} {s : Schema} {ks ns : List String}
    {childTbl : Table} {fk : FKGroup} {parentSet : PKSet}
    {sel sel2 : Selection} {ch : Bool}
    (hks : ∀ t ∈ insertableTuples db s, keyFor t ∈ ks)
    (hns : ∀ n ∈ Schema.names s, n ∈ ns)
    (hfindc : s.find childTbl.name = some childTbl)
    (hinv : ExpInv s ks ns sel)
    (h : addChildKeys db childTbl fk parentSet sel = .ok (sel2, ch)) :
    ExpInv s ks ns sel2 ∧ totalKeys sel ≤ totalKeys sel2 ∧
    (ch = true → totalKeys sel < totalKeys sel2) ∧
    (∀ m, (sel.get m).isSome → (sel2.get m).isSome) := by
  unfold addChildKeys at h
  cases htp : tablePKColumns childTbl with
  | error e =>
    rw [htp] at h
    simp at h
  | ok pc =>
    rw [htp] at h
    simp only [okBind, okBindE] at h
    have htuples : ∀ (pv : List (List Value)),
        ∀ t ∈ ((chunkValues pv 500).map (fun chunk =>
          (((dbRows db childTbl.name).filter
            (fun r => chunk.contains (rowTuple r fk.fromCols))).map
          (fun r => rowTuple r pc.1)).eraseDups)).flatten, keyFor t ∈ ks := by
      intro pv t ht
      rw [List.mem_flatten] at ht
      obtain ⟨c, hc, htc⟩ := ht
      obtain ⟨chunk, _, hcd⟩ := List.mem_map.mp hc
      rw [← hcd] at htc
      rw [mem_eraseDups] at htc
      obtain ⟨r, hr, hrt⟩ := List.mem_map.mp htc
      rw [← hrt]
      exact hks _ (insertable_mem hfindc pc.1 (Or.inl ⟨pc.2, htp⟩)
        (List.mem_of_mem_filter hr))
    cases hget : sel.get childTbl.name with
    | some cs =>
      rw [hget] at h
      cases hvb : parentSet.valuesByColumns fk.toCols with
      | error e =>
        rw [hvb] at h
        simp at h
      | ok parentVals =>
        rw [hvb] at h
        simp only [okBind, okBindE] at h
        by_cases hnil : parentVals = []
        · rw [if_pos hnil] at h
          simp only [pureExcept, Except.ok.injEq, Prod.mk.injEq] at h
          obtain ⟨hsel2, hch⟩ := h
          rw [← hsel2, ← hch]
          exact ⟨hinv, le_refl _, by simp, fun m hm => hm⟩
        · rw [if_neg hnil] at h
          simp only [pureExcept, Except.ok.injEq, Prod.mk.injEq] at h
          obtain ⟨hsel2, hch⟩ := h
          have hg := putGrow_existing _ hinv hget (htuples parentVals)
          rw [hsel2] at hg
          rw [← hch]
          exact ⟨hg.1, hg.2.1, hg.2.2.1, hg.2.2.2⟩
    | none =>
      rw [hget] at h
      have hcolsOK : colsOK s childTbl.name (NewPKSet pc.1) := by
        unfold colsOK
        rw [hfindc, optionCase_some, htp, exceptCase_ok]
        rfl
      have hc := putCreate pc.1 hinv hget
        (hns _ (find_some_mem_names hfindc)) hcolsOK
      obtain ⟨hinv1, htk1, hget1, hmono1⟩ := hc
      cases hvb : parentSet.valuesByColumns fk.toCols with
      | error e =>
        rw [hvb] at h
        simp at h
      | ok parentVals =>
        rw [hvb] at h
        simp only [okBind, okBindE] at h
        by_cases hnil : parentVals = []
        · rw [if_pos hnil] at h
          simp only [pureExcept, Except.ok.injEq, Prod.mk.injEq] at h
          obtain ⟨hsel2, hch⟩ := h
          rw [← hsel2, ← hch]
          refine ⟨hinv1, by omega, by simp, hmono1⟩
        · rw [if_neg hnil] at h
          simp only [pureExcept, Except.ok.injEq, Prod.mk.injEq] at h
          obtain ⟨hsel2, hch⟩ := h
          have hg := putGrow_existing _ hinv1 hget1 (htuples parentVals)
          rw [hsel2] at hg
          rw [← hch]
          refine ⟨hg.1, ?_, ?_, ?_⟩
          · omega
          · intro hc2
            have := hg.2.2.1 hc2
            omega
          · intro m hm
            exact hg.2.2.2 m (hmono1 m hm)


lemma runGroup_phase2 {db : DB} {s : Schema} {ks ns : List String}
    {childTbl : Table} {fk : FKGroup} {sel : Selection}
    {sel2 : Selection} {ch hp : Bool} (st1 : Selection × Bool)
    (hks : ∀ t ∈ insertableTuples db s, keyFor t ∈ ks)
    (hns : ∀ n ∈ Schema.names s, n ∈ ns)
    (hfindc : s.find childTbl.name = some childTbl)
    (hinv1 : ExpInv s ks ns st1.1)
    (hle1 : totalKeys sel ≤ totalKeys st1.1)
    (hlt1 : st1.2 = true → totalKeys sel < totalKeys st1.1)
    (hmono1 : ∀ m, (sel.get m).isSome → (st1.1.get m).isSome)
    (h : (match st1.1.get fk.refTable with
          | some parentSet =>
            if hp && decide (0 < parentSet.values.length) then do
              let st2 ← addChildKeys db childTbl fk parentSet st1.1
              Except.ok (st2.1, st1.2 || st2.2)
            else Except.ok (st1.1, st1.2)
          | none => Except.ok (st1.1, st1.2)) = .ok (sel2, ch)) :
    ExpInv s ks ns sel2 ∧ totalKeys sel ≤ totalKeys sel2 ∧
    (ch = true → totalKeys sel < totalKeys sel2) ∧
    (∀ m, (sel.get m).isSome → (sel2.get m).isSome) := by
  split at h
  case h_2 =>
    simp only [Except.ok.injEq, Prod.mk.injEq] at h
    obtain ⟨hsel2, hch⟩ := h
    rw [← hsel2, ← hch]
    exact ⟨hinv1, hle1, hlt1, hmono1⟩
  case h_1 parentSet hgp =>
    split at h
    case isFalse =>
      simp only [Except.ok.injEq, Prod.mk.injEq] at h
      obtain ⟨hsel2, hch⟩ := h
      rw [← hsel2, ← hch]
      exact ⟨hinv1, hle1, hlt1, hmono1⟩
    case isTrue =>
      cases hack : addChildKeys db childTbl fk parentSet st1.1 with
      | error e =>
        rw [hack] at h
        simp at h
      | ok st2 =>
        rw [hack] at h
        simp only [okBind, Except.ok.injEq, Prod.mk.injEq] at h
        obtain ⟨hsel2, hch⟩ := h
        have hg := addChildKeys_growth hks hns hfindc hinv1
          (show addChildKeys db childTbl fk parentSet st1.1 =
            .ok (st2.1, st2.2) from hack)
        rw [hsel2] at hg
        refine ⟨hg.1, le_trans hle1 hg.2.1, ?_, ?_⟩
        · intro hch2
          rw [← hch] at hch2
          rcases Bool.or_eq_true_iff.mp hch2 with h1 | h2
          · exact lt_of_lt_of_le (hlt1 h1) hg.2.1
          · exact lt_of_le_of_lt hle1 (hg.2.2.1 h2)
        · intro m hm
          exact hg.2.2.2 m (hmono1 m hm)

lemma runGroup_growth {db : DB} {s : Schema} {ks ns : List String}
    {cn : String} {hc : Bool} {fk : FKGroup} {sel sel2 : Selection} {ch : Bool}
    (hnamed : SchemaNamed s)
    (hks : ∀ t ∈ insertableTuples db s, keyFor t ∈ ks)
    (hns : ∀ n ∈ Schema.names s, n ∈ ns)
    (hfkin : ∀ tbl, s.find cn = some tbl → fk ∈ groupFKs tbl)
    (hinv : ExpInv s ks ns sel)
    (h : runGroup db s cn hc fk sel = .ok (sel2, ch)) :
    ExpInv s ks ns sel2 ∧ totalKeys sel ≤ totalKeys sel2 ∧
    (ch = true → totalKeys sel < totalKeys sel2) ∧
    (∀ m, (sel.get m).isSome → (sel2.get m).isSome) := by
  unfold runGroup at h
  split at h
  case h_2 =>
    simp only [Except.ok.injEq, Prod.mk.injEq] at h
    obtain ⟨hsel2, hch⟩ := h
    rw [← hsel2, ← hch]
    exact ⟨hinv, le_refl _, by simp, fun m hm => hm⟩
  case h_1 parentTbl childTbl hfp hfc =>
    have hcname : childTbl.name = cn := hnamed (cn, childTbl) (find_some_mem hfc)
    have hfindc : s.find childTbl.name = some childTbl := by
      rw [hcname]
      exact hfc
    split at h
    case h_2 hgc =>
      simp only [okBind, okBindE] at h
      exact runGroup_phase2 (sel, false) hks hns hfindc hinv (le_refl _)
        (by simp) (fun m hm => hm) h
    case h_1 childSet hgc =>
      split at h
      case isFalse hguard =>
        simp only [okBind, okBindE] at h
        exact runGroup_phase2 (sel, false) hks hns hfindc hinv (le_refl _)
          (by simp) (fun m hm => hm) h
      case isTrue hguard =>
        cases hsfv : selectFKValues db childTbl fk childSet with
        | error e =>
          rw [hsfv] at h
          simp at h
        | ok refVals =>
          rw [hsfv] at h
          simp only [okBind, okBindE] at h
          have hts : ∀ t ∈ refVals, keyFor t ∈ ks := by
            intro t ht
            obtain ⟨r, hr, hrt⟩ := selectFKValues_ok_proj hsfv t ht
            rw [hrt]
            exact hks _ (insertable_mem hfindc fk.fromCols
              (Or.inr ⟨fk, hfkin childTbl hfc, rfl⟩) hr)
          split at h
          case isTrue hrv =>
            cases happ : addParentKeys db parentTbl fk refVals sel with
            | error e =>
              rw [happ] at h
              simp at h
            | ok st1 =>
              rw [happ] at h
              simp only [okBind, okBindE] at h
              have hg := addParentKeys_growth hks hns hfp hinv hts
                (show addParentKeys db parentTbl fk refVals sel =
                  .ok (st1.1, st1.2) from happ)
              exact runGroup_phase2 st1 hks hns hfindc hg.1 hg.2.1 hg.2.2.1
                hg.2.2.2 h
          case isFalse hrv =>
            simp only [okBind, okBindE] at h
            exact runGroup_phase2 (sel, false) hks hns hfindc hinv (le_refl _)
              (by simp) (fun m hm => hm) h


lemma tableGroups_some {s : Schema} {n : String} {tbl : Table}
    (h : s.find n = some tbl) : tableGroups s n = groupFKs tbl := by
  unfold tableGroups
  rw [h]

lemma orStep_eq {β : Type} (f : Selection → β → Except String (Selection × Bool))
    (sel : Selection) (b : Bool) (x : β) :
    orStep f (sel, b) x = (f sel x) >>= (fun st => pure (st.1, b || st.2)) := rfl

lemma foldlM_orStep_growth {β : Type}
    (f : Selection → β → Except String (Selection × Bool))
    (P : Selection → Prop) :
    ∀ (l : List β),
      (∀ x ∈ l, ∀ a a2 c, P a → f a x = .ok (a2, c) →
        P a2 ∧ totalKeys a ≤ totalKeys a2 ∧
        (c = true → totalKeys a < totalKeys a2) ∧
        (∀ m, (a.get m).isSome → (a2.get m).isSome)) →
      ∀ (sel : Selection) (b : Bool) (sel2 : Selection) (c2 : Bool),
        P sel → l.foldlM (orStep f) (sel, b) = .ok (sel2, c2) →
        P sel2 ∧ totalKeys sel ≤ totalKeys sel2 ∧
        ((b = false ∧ c2 = true) → totalKeys sel < totalKeys sel2) ∧
        (∀ m, (sel.get m).isSome → (sel2.get m).isSome) := by
  intro l
  induction l with
  | nil =>
    intro _ sel b sel2 c2 hP h
    simp only [List.foldlM_nil, pureExcept, Except.ok.injEq, Prod.mk.injEq] at h
    obtain ⟨hsel2, hc2⟩ := h
    rw [← hsel2]
    refine ⟨hP, le_refl _, ?_, fun m hm => hm⟩
    rintro ⟨hb, hc⟩
    rw [← hc2, hb] at hc
    exact absurd hc (by simp)
  | cons x xs ih =>
    intro hstep sel b sel2 c2 hP h
    rw [List.foldlM_cons, orStep_eq] at h
    cases hfx : f sel x with
    | error e =>
      rw [hfx] at h
      simp at h
    | ok st =>
      rw [hfx] at h
      simp only [okBind, pureExcept] at h
      have hx := hstep x (List.mem_cons_self _ _) sel st.1 st.2 hP
        (show f sel x = .ok (st.1, st.2) from hfx)
      have hxs := ih (fun y hy => hstep y (List.mem_cons_of_mem _ hy))
        st.1 (b || st.2) sel2 c2 hx.1 h
      refine ⟨hxs.1, le_trans hx.2.1 hxs.2.1, ?_, ?_⟩
      · rintro ⟨hb, hc⟩
        cases hst2 : st.2 with
        | true => exact lt_of_lt_of_le (hx.2.2.1 hst2) hxs.2.1
        | false =>
          refine lt_of_le_of_lt hx.2.1 (hxs.2.2.1 ⟨?_, hc⟩)
          simp [hb, hst2]
      · intro m hm
        exact hxs.2.2.2 m (hx.2.2.2 m hm)

lemma runTable_growth {db : DB} {s : Schema} {ks ns : List String}
    {cn : String} {sel sel2 : Selection} {ch : Bool}
    (hnamed : SchemaNamed s)
    (hks : ∀ t ∈ insertableTuples db s, keyFor t ∈ ks)
    (hns : ∀ n ∈ Schema.names s, n ∈ ns)
    (hinv : ExpInv s ks ns sel)
    (h : runTable db s cn sel = .ok (sel2, ch)) :
    ExpInv s ks ns sel2 ∧ totalKeys sel ≤ totalKeys sel2 ∧
    (ch = true → totalKeys sel < totalKeys sel2) ∧
    (∀ m, (sel.get m).isSome → (sel2.get m).isSome) := by
  unfold runTable runTableStep at h
  have hstep : ∀ fk ∈ tableGroups s cn, ∀ a a2 c, ExpInv s ks ns a →
      runGroup db s cn ((sel.get cn).isSome) fk a = .ok (a2, c) →
      ExpInv s ks ns a2 ∧ totalKeys a ≤ totalKeys a2 ∧
      (c = true → totalKeys a < totalKeys a2) ∧
      (∀ m, (a.get m).isSome → (a2.get m).isSome) := by
    intro fk hfk a a2 c hPa hfa
    refine runGroup_growth hnamed hks hns ?_ hPa hfa
    intro tbl hfind
    rw [tableGroups_some hfind] at hfk
    exact hfk
  have hg := foldlM_orStep_growth
    (fun a fk => runGroup db s cn ((sel.get cn).isSome) fk a)
    (ExpInv s ks ns) (tableGroups s cn) hstep sel false sel2 ch hinv h
  exact ⟨hg.1, hg.2.1, fun hc => hg.2.2.1 ⟨rfl, hc⟩, hg.2.2.2⟩

lemma runRound_growth {db : DB} {s : Schema} {ks ns : List String}
    {sel sel2 : Selection} {ch : Bool}
    (hnamed : SchemaNamed s)
    (hks : ∀ t ∈ insertableTuples db s, keyFor t ∈ ks)
    (hns : ∀ n ∈ Schema.names s, n ∈ ns)
    (hinv : ExpInv s ks ns sel)
    (h : runRound db s sel = .ok (sel2, ch)) :
    ExpInv s ks ns sel2 ∧ totalKeys sel ≤ totalKeys sel2 ∧
    (ch = true → totalKeys sel < totalKeys sel2) ∧
    (∀ m, (sel.get m).isSome → (sel2.get m).isSome) := by
  unfold runRound runRoundStep at h
  have hstep : ∀ n ∈ sortStrings (Schema.names s), ∀ a a2 c, ExpInv s ks ns a →
      runTable db s n a = .ok (a2, c) →
      ExpInv s ks ns a2 ∧ totalKeys a ≤ totalKeys a2 ∧
      (c = true → totalKeys a < totalKeys a2) ∧
      (∀ m, (a.get m).isSome → (a2.get m).isSome) := by
    intro n _ a a2 c hPa hfa
    exact runTable_growth hnamed hks hns hPa hfa
  have hg := foldlM_orStep_growth (fun a n => runTable db s n a)
    (ExpInv s ks ns) (sortStrings (Schema.names s)) hstep sel false sel2 ch hinv h
  exact ⟨hg.1, hg.2.1, fun hc => hg.2.2.1 ⟨rfl, hc⟩, hg.2.2.2⟩


lemma totalKeys_le_bound {s : Schema} {ks ns : List String} {sel : Selection}
    (hinv : ExpInv s ks ns sel) : totalKeys sel ≤ ns.length * ks.length := by
  obtain ⟨⟨hndn, hwf⟩, hkeys, hnames⟩ := hinv
  have h1 : ∀ x ∈ sel.sets.map (fun p => p.2.keys.length), x ≤ ks.length := by
    intro x hx
    obtain ⟨p, hp, rfl⟩ := List.mem_map.mp hx
    have hnd : p.2.keys.Nodup := (hwf p hp).1.1
    have hsub : p.2.keys ⊆ ks := fun k hk => hkeys p hp k hk
    exact (List.Nodup.subperm hnd hsub).length_le
  have h2 : totalKeys sel ≤
      (sel.sets.map (fun p => p.2.keys.length)).length * ks.length := by
    have := List.sum_le_card_nsmul (sel.sets.map (fun p => p.2.keys.length))
      ks.length h1
    simpa [smul_eq_mul] using this
  have h3 : sel.sets.length ≤ ns.length := by
    have hsub : selNames sel ⊆ ns := by
      intro n hn
      obtain ⟨p, hp, rfl⟩ := List.mem_map.mp hn
      exact hnames p hp
    have := (List.Nodup.subperm hndn hsub).length_le
    unfold selNames at this
    rw [List.length_map] at this
    exact this
  calc totalKeys sel
      ≤ (sel.sets.map (fun p => p.2.keys.length)).length * ks.length := h2
    _ = sel.sets.length * ks.length := by rw [List.length_map]
    _ ≤ ns.length * ks.length := Nat.mul_le_mul_right _ h3

lemma expInv_init (db : DB) (s : Schema) (sel0 : Selection) (hwf : SelWF s sel0) :
    ExpInv s (allKeys sel0 ++ (insertableTuples db s).map keyFor)
      (selNames sel0 ++ Schema.names s) sel0 := by
  refine ⟨hwf, ?_, ?_⟩
  · intro p hp k hk
    refine List.mem_append_left _ ?_
    unfold allKeys
    rw [List.mem_flatten]
    exact ⟨p.2.keys, List.mem_map.mpr ⟨p, hp, rfl⟩, hk⟩
  · intro p hp
    refine List.mem_append_left _ ?_
    exact List.mem_map.mpr ⟨p, hp, rfl⟩

lemma expandLoop_no_fuel_out (db : DB) (s : Schema)
    (ks ns : List String)
    (hnamed : SchemaNamed s)
    (hks : ∀ t ∈ insertableTuples db s, keyFor t ∈ ks)
    (hns : ∀ n ∈ Schema.names s, n ∈ ns) :
    ∀ (fuel : Nat) (sel : Selection), ExpInv s ks ns sel →
      ns.length * ks.length + 1 - totalKeys sel ≤ fuel →
      expandLoop db s fuel sel ≠ .ok none := by
  intro fuel
  induction fuel with
  | zero =>
    intro sel hinv hfuel
    have := totalKeys_le_bound hinv
    omega
  | succ f ih =>
    intro sel hinv hfuel
    unfold expandLoop
    cases hrr : runRound db s sel with
    | error e => simp
    | ok st =>
      simp only [okBind]
      cases hch : st.2 with
      | false =>
        rw [if_neg (by simp)]
        simp
      | true =>
        rw [if_pos rfl]
        have hg := runRound_growth hnamed hks hns hinv
          (show runRound db s sel = .ok (st.1, st.2) from hrr)
        have hlt := hg.2.2.1 hch
        have hb2 := totalKeys_le_bound hg.1
        exact ih st.1 hg.1 (by omega)

set_option maxHeartbeats 1000000 in
/-- C9: the subset fixed-point expansion terminates on every finite
database: every insertion draws its dedup key from the finite universe of
PK and FK-source projections of stored rows, `PKSet.Add` never removes and
reports `true` only for a genuinely new key, and each round that reports a
change strictly grows the total key count, which the universe bounds — so
the fuelled model of the unbounded Go loop never exhausts a fuel of
names·keys + 1. -/
theorem expandSelection_terminates
    (db : DB) (s : Schema) (sel0 : Selection) (fuel : Nat)
    (hnamed : SchemaNamed s) (hwf : SelWF s sel0)
    (hfuel : (selNames sel0 ++ Schema.names s).length *
      (allKeys sel0 ++ (insertableTuples db s).map keyFor).length + 1 ≤ fuel) :
    expandLoop db s fuel sel0 ≠ .ok none := by
  refine expandLoop_no_fuel_out db s
    (allKeys sel0 ++ (insertableTuples db s).map keyFor)
    (selNames sel0 ++ Schema.names s) hnamed ?_ ?_ fuel sel0
    (expInv_init db s sel0 hwf) (by omega)
  · intro t ht
    exact List.mem_append_right _ (List.mem_map.mpr ⟨t, ht, rfl⟩)
  · intro n hn
    exact List.mem_append_right _ hn

/-- The C9 theorem at a concrete database: one table `t(id PK)` with one
row and the empty starting selection; fuel 2 meets the bound, so the
expansion cannot run out. -/
theorem expandSelection_terminates_witness :
    expandLoop [("t", [[("id", Value.vint 1)]])]
      { tables := [("t", { name := "t", primaryKeys := ["id"] })] } 2
      { sets := [] } ≠ .ok none :=
  expandSelection_terminates _ _ _ _ (by decide) (by decide) (by decide)


/-! ### Observational preservation across a no-change round (C1) -/

lemma obsEq_refl (a : Selection) : ObsEq a a := fun _ => ⟨rfl, rfl⟩

lemma obsEq_trans {a b c : Selection} (h1 : ObsEq a b) (h2 : ObsEq b c) :
    ObsEq a c := fun n =>
  ⟨(h1 n).1.trans (h2 n).1, (h1 n).2.trans (h2 n).2⟩

lemma keysOf_get_some {sel : Selection} {n : String} {ps : PKSet}
    (h : sel.get n = some ps) : keysOf sel n = ps.keys := by
  unfold keysOf
  rw [h]

lemma valuesOf_get_some {sel : Selection} {n : String} {ps : PKSet}
    (h : sel.get n = some ps) : valuesOf sel n = ps.values := by
  unfold valuesOf
  rw [h]

lemma keysOf_get_none {sel : Selection} {n : String}
    (h : sel.get n = none) : keysOf sel n = [] := by
  unfold keysOf
  rw [h]

lemma valuesOf_get_none {sel : Selection} {n : String}
    (h : sel.get n = none) : valuesOf sel n = [] := by
  unfold valuesOf
  rw [h]

/-- Re-storing the very value a name holds is observationally silent. -/
lemma put_same_obs {sel : Selection} {n : String} {ps : PKSet}
    (hget : sel.get n = some ps) : ObsEq sel (sel.put n ps) := by
  intro m
  by_cases hmn : m = n
  · rw [hmn]
    rw [keysOf_get_some hget, valuesOf_get_some hget,
      keysOf_get_some (get_put_self sel n ps),
      valuesOf_get_some (get_put_self sel n ps)]
    exact ⟨rfl, rfl⟩
  · rw [keysOf, keysOf, valuesOf, valuesOf, get_put_other sel n m ps hmn]
    exact ⟨rfl, rfl⟩

/-- Creating an empty set under an absent name is observationally silent. -/
lemma put_empty_obs {sel : Selection} {n : String} (cols : List String)
    (hget : sel.get n = none) : ObsEq sel (sel.put n (NewPKSet cols)) := by
  intro m
  by_cases hmn : m = n
  · rw [hmn]
    rw [keysOf_get_none hget, valuesOf_get_none hget,
      keysOf_get_some (get_put_self sel n _),
      valuesOf_get_some (get_put_self sel n _)]
    exact ⟨rfl, rfl⟩
  · rw [keysOf, keysOf, valuesOf, valuesOf, get_put_other sel n m _ hmn]
    exact ⟨rfl, rfl⟩

lemma selectParentPKs_false_obs {db : DB} {parentTbl : Table} {fk : FKGroup}
    {refVals : List (List Value)} {parentSet : PKSet} {sel sel2 : Selection}
    (hget : sel.get fk.refTable = some parentSet)
    (h : selectParentPKs db parentTbl fk refVals parentSet sel = .ok (sel2, false)) :
    ObsEq sel sel2 := by
  unfold selectParentPKs at h
  cases htp : tablePKColumns parentTbl with
  | error e =>
    rw [htp] at h
    simp at h
  | ok pc =>
    rw [htp] at h
    simp only [okBind, okBindE, pureExcept, Except.ok.injEq, Prod.mk.injEq] at h
    obtain ⟨hsel2, hch⟩ := h
    rw [← hsel2]
    rw [addAll_false_eq _ _ hch]
    exact put_same_obs hget

lemma addParentKeys_false_obs {db : DB} {s : Schema} {parentTbl : Table}
    {fk : FKGroup} {refVals : List (List Value)} {sel sel2 : Selection}
    (h : addParentKeys db parentTbl fk refVals sel = .ok (sel2, false)) :
    ObsEq sel sel2 := by
  unfold addParentKeys at h
  by_cases hnil : refVals = []
  · rw [if_pos hnil] at h
    simp only [pureExcept, Except.ok.injEq, Prod.mk.injEq] at h
    rw [← h.1]
    exact obsEq_refl sel
  · rw [if_neg hnil] at h
    cases hget : sel.get fk.refTable with
    | some ps =>
      rw [hget] at h
      simp only [okBind, okBindE] at h
      split at h
      · simp only [pureExcept, Except.ok.injEq, Prod.mk.injEq] at h
        obtain ⟨hsel2, hch⟩ := h
        rw [← hsel2, addAll_false_eq _ _ hch]
        exact put_same_obs hget
      · exact selectParentPKs_false_obs hget h
    | none =>
      rw [hget] at h
      cases htp : tablePKColumns parentTbl with
      | error e =>
        rw [htp] at h
        simp at h
      | ok pc =>
        rw [htp] at h
        simp only [okBind, okBindE] at h
        have hobs1 : ObsEq sel (sel.put fk.refTable (NewPKSet pc.1)) :=
          put_empty_obs pc.1 hget
        have hget1 := get_put_self sel fk.refTable (NewPKSet pc.1)
        split at h
        · simp only [pureExcept, Except.ok.injEq, Prod.mk.injEq] at h
          obtain ⟨hsel2, hch⟩ := h
          rw [← hsel2, addAll_false_eq _ _ hch]
          exact obsEq_trans hobs1 (put_same_obs hget1)
        · exact obsEq_trans hobs1 (selectParentPKs_false_obs hget1 h)

lemma addChildKeys_false_obs {db : DB} {childTbl : Table} {fk : FKGroup}
    {parentSet : PKSet} {sel sel2 : Selection}
    (h : addChildKeys db childTbl fk parentSet sel = .ok (sel2, false)) :
    ObsEq sel sel2 := by
  unfold addChildKeys at h
  cases htp : tablePKColumns childTbl with
  | error e =>
    rw [htp] at h
    simp at h
  | ok pc =>
    rw [htp] at h
    simp only [okBind, okBindE] at h
    cases hget : sel.get childTbl.name with
    | some cs =>
      rw [hget] at h
      cases hvb : parentSet.valuesByColumns fk.toCols with
      | error e =>
        rw [hvb] at h
        simp at h
      | ok parentVals =>
        rw [hvb] at h
        simp only [okBind, okBindE] at h
        split at h
        · simp only [pureExcept, Except.ok.injEq, Prod.mk.injEq] at h
          rw [← h.1]
          exact obsEq_refl sel
        · simp only [pureExcept, Except.ok.injEq, Prod.mk.injEq] at h
          obtain ⟨hsel2, hch⟩ := h
          rw [← hsel2, addAll_false_eq _ _ hch]
          exact put_same_obs hget
    | none =>
      rw [hget] at h
      have hobs1 : ObsEq sel (sel.put childTbl.name (NewPKSet pc.1)) :=
        put_empty_obs pc.1 hget
      have hget1 := get_put_self sel childTbl.name (NewPKSet pc.1)
      cases hvb : parentSet.valuesByColumns fk.toCols with
      | error e =>
        rw [hvb] at h
        simp at h
      | ok parentVals =>
        rw [hvb] at h
        simp only [okBind, okBindE] at h
        split at h
        · simp only [pureExcept, Except.ok.injEq, Prod.mk.injEq] at h
          rw [← h.1]
          exact hobs1
        · simp only [pureExcept, Except.ok.injEq, Prod.mk.injEq] at h
          obtain ⟨hsel2, hch⟩ := h
          rw [← hsel2, addAll_false_eq _ _ hch]
          exact obsEq_trans hobs1 (put_same_obs hget1)


lemma runGroup_phase2_false_obs {db : DB} {childTbl : Table} {fk : FKGroup}
    {sel2 : Selection} {hp : Bool} (st1 : Selection × Bool)
    (h : (match st1.1.get fk.refTable with
          | some parentSet =>
            if hp && decide (0 < parentSet.values.length) then do
              let st2 ← addChildKeys db childTbl fk parentSet st1.1
              Except.ok (st2.1, st1.2 || st2.2)
            else Except.ok (st1.1, st1.2)
          | none => Except.ok (st1.1, st1.2)) = .ok (sel2, false)) :
    ObsEq st1.1 sel2 ∧ st1.2 = false := by
  split at h
  case h_2 =>
    simp only [Except.ok.injEq, Prod.mk.injEq] at h
    rw [← h.1]
    exact ⟨obsEq_refl _, h.2⟩
  case h_1 parentSet hgp =>
    split at h
    case isFalse =>
      simp only [Except.ok.injEq, Prod.mk.injEq] at h
      rw [← h.1]
      exact ⟨obsEq_refl _, h.2⟩
    case isTrue =>
      cases hack : addChildKeys db childTbl fk parentSet st1.1 with
      | error e =>
        rw [hack] at h
        simp at h
      | ok st2 =>
        rw [hack] at h
        simp only [okBind, okBindE, Except.ok.injEq, Prod.mk.injEq] at h
        obtain ⟨hsel2, hch⟩ := h
        rw [Bool.or_eq_false_iff] at hch
        have hck : addChildKeys db childTbl fk parentSet st1.1
            = Except.ok (st2.1, false) := by
          rw [hack, show st2 = (st2.1, st2.2) from rfl, hch.2]
        have hobs2 : ObsEq st1.1 st2.1 := addChildKeys_false_obs hck
        rw [← hsel2]
        exact ⟨hobs2, hch.1⟩

lemma runGroup_false_obs {db : DB} {s : Schema} {cn : String} {hc : Bool}
    {fk : FKGroup} {sel sel2 : Selection}
    (h : runGroup db s cn hc fk sel = .ok (sel2, false)) : ObsEq sel sel2 := by
  unfold runGroup at h
  split at h
  case h_2 =>
    simp only [Except.ok.injEq, Prod.mk.injEq] at h
    rw [← h.1]
    exact obsEq_refl _
  case h_1 parentTbl childTbl hfp hfc =>
    split at h
    case h_2 hgc =>
      simp only [okBind, okBindE] at h
      exact (runGroup_phase2_false_obs (sel, false) h).1
    case h_1 childSet hgc =>
      split at h
      case isFalse hguard =>
        simp only [okBind, okBindE] at h
        exact (runGroup_phase2_false_obs (sel, false) h).1
      case isTrue hguard =>
        cases hsfv : selectFKValues db childTbl fk childSet with
        | error e =>
          rw [hsfv] at h
          simp at h
        | ok refVals =>
          rw [hsfv] at h
          simp only [okBind, okBindE] at h
          split at h
          case isTrue hrv =>
            cases happ : addParentKeys db parentTbl fk refVals sel with
            | error e =>
              rw [happ] at h
              simp at h
            | ok st1 =>
              rw [happ] at h
              simp only [okBind, okBindE] at h
              obtain ⟨hobs2, hb1⟩ := runGroup_phase2_false_obs st1 h
              have hpk : addParentKeys db parentTbl fk refVals sel
                  = Except.ok (st1.1, false) := by
                rw [happ, show st1 = (st1.1, st1.2) from rfl, hb1]
              have hobs1 : ObsEq sel st1.1 :=
                @addParentKeys_false_obs db s parentTbl fk refVals sel st1.1 hpk
              exact obsEq_trans hobs1 hobs2
          case isFalse hrv =>
            simp only [okBind, okBindE] at h
            exact (runGroup_phase2_false_obs (sel, false) h).1

lemma foldlM_orStep_bool_mono {β : Type}
    (f : Selection → β → Except String (Selection × Bool)) :
    ∀ (l : List β) (a b : Selection) (c : Bool),
      l.foldlM (orStep f) (a, true) = .ok (b, c) → c = true := by
  intro l
  induction l with
  | nil =>
    intro a b c h
    simp only [List.foldlM_nil, pureExcept, Except.ok.injEq, Prod.mk.injEq] at h
    exact h.2.symm
  | cons x xs ih =>
    intro a b c h
    rw [List.foldlM_cons, orStep_eq] at h
    cases hfx : f a x with
    | error e =>
      rw [hfx] at h
      simp at h
    | ok st =>
      rw [hfx] at h
      simp only [okBind, okBindE, pureExcept, Bool.true_or] at h
      exact ih st.1 b c h

lemma foldlM_orStep_false_obs {β : Type}
    (f : Selection → β → Except String (Selection × Bool)) :
    ∀ (l : List β),
      (∀ x ∈ l, ∀ u u2, f u x = .ok (u2, false) → ObsEq u u2) →
      ∀ (a b : Selection),
        l.foldlM (orStep f) (a, false) = .ok (b, false) → ObsEq a b := by
  intro l
  induction l with
  | nil =>
    intro _ a b h
    simp only [List.foldlM_nil, pureExcept, Except.ok.injEq, Prod.mk.injEq] at h
    rw [← h.1]
    exact obsEq_refl _
  | cons x xs ih =>
    intro hstep a b h
    rw [List.foldlM_cons, orStep_eq] at h
    cases hfx : f a x with
    | error e =>
      rw [hfx] at h
      simp at h
    | ok st =>
      rw [hfx] at h
      simp only [okBind, okBindE, pureExcept, Bool.false_or] at h
      cases hst2 : st.2 with
      | true =>
        rw [hst2] at h
        have := foldlM_orStep_bool_mono f xs st.1 b false h
        exact absurd this (by simp)
      | false =>
        rw [hst2] at h
        have hfx2 : f a x = Except.ok (st.1, false) := by
          rw [hfx, show st = (st.1, st.2) from rfl, hst2]
        have hobs1 : ObsEq a st.1 :=
          hstep x (List.mem_cons_self _ _) a st.1 hfx2
        exact obsEq_trans hobs1
          (ih (fun y hy => hstep y (List.mem_cons_of_mem _ hy)) st.1 b h)

lemma runTable_false_obs {db : DB} {s : Schema} {cn : String}
    {sel sel2 : Selection}
    (h : runTable db s cn sel = .ok (sel2, false)) : ObsEq sel sel2 := by
  unfold runTable runTableStep at h
  refine foldlM_orStep_false_obs _ (tableGroups s cn) ?_ sel sel2 h
  intro fk _ u u2 hfa
  exact runGroup_false_obs hfa

lemma runRound_false_obs {db : DB} {s : Schema} {sel sel2 : Selection}
    (h : runRound db s sel = .ok (sel2, false)) : ObsEq sel sel2 := by
  unfold runRound runRoundStep at h
  refine foldlM_orStep_false_obs _ (sortStrings (Schema.names s)) ?_ sel sel2 h
  intro n _ u u2 hfa
  exact runTable_false_obs hfa

lemma tablePKColumns_ne_nil {tbl : Table} {pc : List String × Bool}
    (h : tablePKColumns tbl = .ok pc) : pc.1 ≠ [] := by
  unfold tablePKColumns at h
  by_cases hpk : tbl.primaryKeys ≠ []
  · rw [if_pos hpk] at h
    simp only [Except.ok.injEq] at h
    rw [← h]
    exact hpk
  · rw [if_neg hpk] at h
    by_cases hwr : tbl.withoutRowID
    · rw [if_pos hwr] at h
      exact absurd h (by simp)
    · rw [if_neg hwr] at h
      simp only [Except.ok.injEq] at h
      rw [← h]
      simp

lemma find?_entry_of_mem_nodup {l : List (String × Table)}
    (hnd : (l.map Prod.fst).Nodup) {p : String × Table} (hp : p ∈ l) :
    l.find? (fun q => q.1 == p.1) = some p := by
  induction l with
  | nil => exact absurd hp (List.not_mem_nil p)
  | cons q t ih =>
    rw [List.map_cons, List.nodup_cons] at hnd
    rcases List.mem_cons.mp hp with rfl | hpl
    · rw [List.find?_cons_of_pos _ (by simp)]
    · have hq : (q.1 == p.1) = false := by
        rw [beq_eq_false_iff_ne]
        intro he
        exact hnd.1 (he ▸ List.mem_map.mpr ⟨p, hpl, rfl⟩)
      rw [List.find?_cons_of_neg _ (by simp [hq])]
      exact ih hnd.2 hpl

lemma find_of_mem_nodup {s : Schema} (hnd : (Schema.names s).Nodup)
    {p : String × Table} (hp : p ∈ s.tables) : s.find p.1 = some p.2 := by
  unfold Schema.find
  rw [find?_entry_of_mem_nodup hnd hp]
  rfl

lemma valuesOf_mem_get {sel : Selection} {n : String} {t : List Value}
    (h : t ∈ valuesOf sel n) :
    ∃ ps, sel.get n = some ps ∧ t ∈ ps.values := by
  unfold valuesOf at h
  cases hget : sel.get n with
  | none =>
    rw [hget] at h
    exact absurd h (List.not_mem_nil t)
  | some ps =>
    rw [hget] at h
    exact ⟨ps, rfl, h⟩

lemma keysOf_mem_get {sel : Selection} {n : String} {k : String}
    (h : k ∈ keysOf sel n) :
    ∃ ps, sel.get n = some ps ∧ k ∈ ps.keys := by
  unfold keysOf at h
  cases hget : sel.get n with
  | none =>
    rw [hget] at h
    exact absurd h (List.not_mem_nil k)
  | some ps =>
    rw [hget] at h
    exact ⟨ps, rfl, h⟩

lemma valuesIn_entry {vs : List (List Value)} {sel : Selection}
    (hvi : ValuesIn vs sel) {n : String} {ps : PKSet}
    (hget : sel.get n = some ps) : ∀ v ∈ ps.values, v ∈ vs :=
  hvi (n, ps) (get_some_mem hget)

lemma valuesIn_put {vs : List (List Value)} {sel : Selection} {n : String}
    {ps : PKSet} (hvi : ValuesIn vs sel) (hps : ∀ v ∈ ps.values, v ∈ vs) :
    ValuesIn vs (sel.put n ps) := by
  intro q hq
  rcases put_sets_mem q hq with rfl | ⟨hqmem, _⟩
  · exact hps
  · exact hvi q hqmem

lemma valuesIn_init (sel : Selection) (rest : List (List Value)) :
    ValuesIn (allValues sel ++ rest) sel := by
  intro p hp v hv
  refine List.mem_append_left _ ?_
  unfold allValues
  rw [List.mem_flatten]
  exact ⟨p.2.values, List.mem_map.mpr ⟨p, hp, rfl⟩, hv⟩

lemma foldlM_orStep_pres {β : Type}
    (f : Selection → β → Except String (Selection × Bool))
    (P : Selection → Prop) :
    ∀ (l : List β),
      (∀ x ∈ l, ∀ u u2 c, P u → f u x = .ok (u2, c) → P u2) →
      ∀ (acc res : Selection × Bool), P acc.1 →
        l.foldlM (orStep f) acc = .ok res → P res.1 := by
  intro l
  induction l with
  | nil =>
    intro _ acc res hP h
    simp only [List.foldlM_nil, pureExcept, Except.ok.injEq] at h
    rw [← h]
    exact hP
  | cons x xs ih =>
    intro hstep acc res hP h
    rw [List.foldlM_cons, orStep_eq] at h
    cases hfx : f acc.1 x with
    | error e =>
      rw [hfx] at h
      simp at h
    | ok st =>
      rw [hfx] at h
      simp only [okBind, okBindE, pureExcept] at h
      exact ih (fun y hy => hstep y (List.mem_cons_of_mem _ hy))
        (st.1, acc.2 || st.2) res
        (hstep x (List.mem_cons_self _ _) acc.1 st.1 st.2 hP
          (by rw [hfx])) h


lemma newPKSet_values_in (cols : List String) {vs : List (List Value)} :
    ∀ v ∈ (NewPKSet cols).values, v ∈ vs := by
  intro v hv
  exact absurd hv (List.not_mem_nil v)

lemma selectParentPKs_valuesIn {db : DB} {s : Schema} {vs : List (List Value)}
    {parentTbl : Table} {fk : FKGroup} {refVals : List (List Value)}
    {parentSet : PKSet} {sel sel2 : Selection} {ch : Bool}
    (hins : ∀ t ∈ insertableTuples db s, t ∈ vs)
    (hfindp : s.find fk.refTable = some parentTbl)
    (hvi : ValuesIn vs sel)
    (hget : sel.get fk.refTable = some parentSet)
    (h : selectParentPKs db parentTbl fk refVals parentSet sel = .ok (sel2, ch)) :
    ValuesIn vs sel2 := by
  unfold selectParentPKs at h
  cases htp : tablePKColumns parentTbl with
  | error e =>
    rw [htp] at h
    simp at h
  | ok pc =>
    rw [htp] at h
    simp only [okBind, okBindE, pureExcept, Except.ok.injEq, Prod.mk.injEq] at h
    obtain ⟨hsel2, _⟩ := h
    rw [← hsel2]
    refine valuesIn_put hvi ?_
    intro w hw
    rcases addAll_values_sub _ _ w hw with h1 | h1
    · exact valuesIn_entry hvi hget w h1
    · rw [List.mem_flatten] at h1
      obtain ⟨c, hc, hwc⟩ := h1
      obtain ⟨chunk, _, hcd⟩ := List.mem_map.mp hc
      rw [← hcd] at hwc
      obtain ⟨r, hr, hrw⟩ := List.mem_map.mp hwc
      rw [← hrw]
      exact hins _ (insertable_mem hfindp pc.1 (Or.inl ⟨pc.2, htp⟩)
        (List.mem_of_mem_filter hr))

lemma addParentKeys_valuesIn {db : DB} {s : Schema} {vs : List (List Value)}
    {parentTbl : Table} {fk : FKGroup} {refVals : List (List Value)}
    {sel sel2 : Selection} {ch : Bool}
    (hins : ∀ t ∈ insertableTuples db s, t ∈ vs)
    (hfindp : s.find fk.refTable = some parentTbl)
    (hvi : ValuesIn vs sel)
    (hts : ∀ t ∈ refVals, t ∈ vs)
    (h : addParentKeys db parentTbl fk refVals sel = .ok (sel2, ch)) :
    ValuesIn vs sel2 := by
  unfold addParentKeys at h
  by_cases hnil : refVals = []
  · rw [if_pos hnil] at h
    simp only [pureExcept, Except.ok.injEq, Prod.mk.injEq] at h
    rw [← h.1]
    exact hvi
  · rw [if_neg hnil] at h
    cases hget : sel.get fk.refTable with
    | some ps =>
      rw [hget] at h
      simp only [okBind, okBindE] at h
      by_cases hcols : (ps.cols == fk.toCols) = true
      · rw [if_pos hcols] at h
        simp only [pureExcept, Except.ok.injEq, Prod.mk.injEq] at h
        rw [← h.1]
        refine valuesIn_put hvi ?_
        intro w hw
        rcases addAll_values_sub _ _ w hw with h1 | h1
        · exact valuesIn_entry hvi hget w h1
        · exact hts w h1
      · rw [if_neg hcols] at h
        exact selectParentPKs_valuesIn hins hfindp hvi hget h
    | none =>
      rw [hget] at h
      cases htp : tablePKColumns parentTbl with
      | error e =>
        rw [htp] at h
        simp at h
      | ok pc =>
        rw [htp] at h
        simp only [okBind, okBindE] at h
        have hvi1 : ValuesIn vs (sel.put fk.refTable (NewPKSet pc.1)) :=
          valuesIn_put hvi (newPKSet_values_in pc.1)
        have hget1 : (sel.put fk.refTable (NewPKSet pc.1)).get fk.refTable
            = some (NewPKSet pc.1) := get_put_self sel fk.refTable _
        by_cases hcols : ((NewPKSet pc.1).cols == fk.toCols) = true
        · rw [if_pos hcols] at h
          simp only [pureExcept, Except.ok.injEq, Prod.mk.injEq] at h
          rw [← h.1]
          refine valuesIn_put hvi1 ?_
          intro w hw
          rcases addAll_values_sub _ _ w hw with h1 | h1
          · exact valuesIn_entry hvi1 hget1 w h1
          · exact hts w h1
        · rw [if_neg hcols] at h
          exact selectParentPKs_valuesIn hins hfindp hvi1 hget1 h

lemma addChildKeys_valuesIn {db : DB} {s : Schema} {vs : List (List Value)}
    {childTbl : Table} {fk : FKGroup} {parentSet : PKSet}
    {sel sel2 : Selection} {ch : Bool}
    (hins : ∀ t ∈ insertableTuples db s, t ∈ vs)
    (hfindc : s.find childTbl.name = some childTbl)
    (hvi : ValuesIn vs sel)
    (h : addChildKeys db childTbl fk parentSet sel = .ok (sel2, ch)) :
    ValuesIn vs sel2 := by
  unfold addChildKeys at h
  cases htp : tablePKColumns childTbl with
  | error e =>
    rw [htp] at h
    simp at h
  | ok pc =>
    rw [htp] at h
    simp only [okBind, okBindE] at h
    have htuples : ∀ (pv : List (List Value)),
        ∀ t ∈ ((chunkValues pv 500).map (fun chunk =>
          (((dbRows db childTbl.name).filter
            (fun r => chunk.contains (rowTuple r fk.fromCols))).map
          (fun r => rowTuple r pc.1)).eraseDups)).flatten, t ∈ vs := by
      intro pv t ht
      rw [List.mem_flatten] at ht
      obtain ⟨c, hc, htc⟩ := ht
      obtain ⟨chunk, _, hcd⟩ := List.mem_map.mp hc
      rw [← hcd] at htc
      rw [mem_eraseDups] at htc
      obtain ⟨r, hr, hrt⟩ := List.mem_map.mp htc
      rw [← hrt]
      exact hins _ (insertable_mem hfindc pc.1 (Or.inl ⟨pc.2, htp⟩)
        (List.mem_of_mem_filter hr))
    cases hget : sel.get childTbl.name with
    | some cs =>
      rw [hget] at h
      cases hvb : parentSet.valuesByColumns fk.toCols with
      | error e =>
        rw [hvb] at h
        simp at h
      | ok parentVals =>
        rw [hvb] at h
        simp only [okBind, okBindE] at h
        by_cases hnil : parentVals = []
        · rw [if_pos hnil] at h
          simp only [pureExcept, Except.ok.injEq, Prod.mk.injEq] at h
          rw [← h.1]
          exact hvi
        · rw [if_neg hnil] at h
          simp only [pureExcept, Except.ok.injEq, Prod.mk.injEq] at h
          rw [← h.1]
          refine valuesIn_put hvi ?_
          intro w hw
          rcases addAll_values_sub _ _ w hw with h1 | h1
          · exact valuesIn_entry hvi hget w h1
          · exact htuples parentVals w h1
    | none =>
      rw [hget] at h
      have hvi1 : ValuesIn vs (sel.put childTbl.name (NewPKSet pc.1)) :=
        valuesIn_put hvi (newPKSet_values_in pc.1)
      have hget1 : (sel.put childTbl.name (NewPKSet pc.1)).get childTbl.name
          = some (NewPKSet pc.1) := get_put_self sel childTbl.name _
      cases hvb : parentSet.valuesByColumns fk.toCols with
      | error e =>
        rw [hvb] at h
        simp at h
      | ok parentVals =>
        rw [hvb] at h
        simp only [okBind, okBindE] at h
        by_cases hnil : parentVals = []
        · rw [if_pos hnil] at h
          simp only [pureExcept, Except.ok.injEq, Prod.mk.injEq] at h
          rw [← h.1]
          exact hvi1
        · rw [if_neg hnil] at h
          simp only [pureExcept, Except.ok.injEq, Prod.mk.injEq] at h
          rw [← h.1]
          refine valuesIn_put hvi1 ?_
          intro w hw
          rcases addAll_values_sub _ _ w hw with h1 | h1
          · exact valuesIn_entry hvi1 hget1 w h1
          · exact htuples parentVals w h1


lemma runGroup_phase2_valuesIn {db : DB} {s : Schema} {vs : List (List Value)}
    {childTbl : Table} {fk : FKGroup} {sel2 : Selection} {ch hp : Bool}
    (st1 : Selection × Bool)
    (hins : ∀ t ∈ insertableTuples db s, t ∈ vs)
    (hfindc : s.find childTbl.name = some childTbl)
    (hvi1 : ValuesIn vs st1.1)
    (h : (match st1.1.get fk.refTable with
          | some parentSet =>
            if hp && decide (0 < parentSet.values.length) then do
              let st2 ← addChildKeys db childTbl fk parentSet st1.1
              Except.ok (st2.1, st1.2 || st2.2)
            else Except.ok (st1.1, st1.2)
          | none => Except.ok (st1.1, st1.2)) = .ok (sel2, ch)) :
    ValuesIn vs sel2 := by
  split at h
  case h_2 =>
    simp only [Except.ok.injEq, Prod.mk.injEq] at h
    rw [← h.1]
    exact hvi1
  case h_1 parentSet hgp =>
    split at h
    case isFalse =>
      simp only [Except.ok.injEq, Prod.mk.injEq] at h
      rw [← h.1]
      exact hvi1
    case isTrue =>
      cases hack : addChildKeys db childTbl fk parentSet st1.1 with
      | error e =>
        rw [hack] at h
        simp at h
      | ok st2 =>
        rw [hack] at h
        simp only [okBind, okBindE, Except.ok.injEq, Prod.mk.injEq] at h
        rw [← h.1]
        exact addChildKeys_valuesIn hins hfindc hvi1
          (show addChildKeys db childTbl fk parentSet st1.1
            = .ok (st2.1, st2.2) from hack)

lemma runGroup_valuesIn {db : DB} {s : Schema} {vs : List (List Value)}
    {cn : String} {hc : Bool} {fk : FKGroup} {sel sel2 : Selection} {ch : Bool}
    (hnamed : SchemaNamed s)
    (hins : ∀ t ∈ insertableTuples db s, t ∈ vs)
    (hfkin : ∀ tbl, s.find cn = some tbl → fk ∈ groupFKs tbl)
    (hvi : ValuesIn vs sel)
    (h : runGroup db s cn hc fk sel = .ok (sel2, ch)) :
    ValuesIn vs sel2 := by
  unfold runGroup at h
  split at h
  case h_2 =>
    simp only [Except.ok.injEq, Prod.mk.injEq] at h
    rw [← h.1]
    exact hvi
  case h_1 parentTbl childTbl hfp hfc =>
    have hcname : childTbl.name = cn := hnamed (cn, childTbl) (find_some_mem hfc)
    have hfindc : s.find childTbl.name = some childTbl := by
      rw [hcname]
      exact hfc
    split at h
    case h_2 hgc =>
      simp only [okBind, okBindE] at h
      exact runGroup_phase2_valuesIn (sel, false) hins hfindc hvi h
    case h_1 childSet hgc =>
      split at h
      case isFalse hguard =>
        simp only [okBind, okBindE] at h
        exact runGroup_phase2_valuesIn (sel, false) hins hfindc hvi h
      case isTrue hguard =>
        cases hsfv : selectFKValues db childTbl fk childSet with
        | error e =>
          rw [hsfv] at h
          simp at h
        | ok refVals =>
          rw [hsfv] at h
          simp only [okBind, okBindE] at h
          have hts : ∀ t ∈ refVals, t ∈ vs := by
            intro t ht
            obtain ⟨r, hr, hrt⟩ := selectFKValues_ok_proj hsfv t ht
            rw [hrt]
            exact hins _ (insertable_mem hfindc fk.fromCols
              (Or.inr ⟨fk, hfkin childTbl hfc, rfl⟩) hr)
          split at h
          case isTrue hrv =>
            cases happ : addParentKeys db parentTbl fk refVals sel with
            | error e =>
              rw [happ] at h
              simp at h
            | ok st1 =>
              rw [happ] at h
              simp only [okBind, okBindE] at h
              have hvi1 : ValuesIn vs st1.1 :=
                addParentKeys_valuesIn hins hfp hvi hts
                  (show addParentKeys db parentTbl fk refVals sel
                    = .ok (st1.1, st1.2) from happ)
              exact runGroup_phase2_valuesIn st1 hins hfindc hvi1 h
          case isFalse hrv =>
            simp only [okBind, okBindE] at h
            exact runGroup_phase2_valuesIn (sel, false) hins hfindc hvi h

lemma runTable_valuesIn {db : DB} {s : Schema} {vs : List (List Value)}
    {cn : String} {sel sel2 : Selection} {ch : Bool}
    (hnamed : SchemaNamed s)
    (hins : ∀ t ∈ insertableTuples db s, t ∈ vs)
    (hvi : ValuesIn vs sel)
    (h : runTable db s cn sel = .ok (sel2, ch)) : ValuesIn vs sel2 := by
  unfold runTable runTableStep at h
  refine foldlM_orStep_pres _ (ValuesIn vs) (tableGroups s cn) ?_
    (sel, false) (sel2, ch) hvi h
  intro fk hfk u u2 c hu hfa
  refine runGroup_valuesIn hnamed hins ?_ hu hfa
  intro tbl htbl
  rw [tableGroups_some htbl] at hfk
  exact hfk

lemma runRound_valuesIn {db : DB} {s : Schema} {vs : List (List Value)}
    {sel sel2 : Selection} {ch : Bool}
    (hnamed : SchemaNamed s)
    (hins : ∀ t ∈ insertableTuples db s, t ∈ vs)
    (hvi : ValuesIn vs sel)
    (h : runRound db s sel = .ok (sel2, ch)) : ValuesIn vs sel2 := by
  unfold runRound runRoundStep at h
  refine foldlM_orStep_pres _ (ValuesIn vs) (sortStrings (Schema.names s)) ?_
    (sel, false) (sel2, ch) hvi h
  intro n _ u u2 c hu hfa
  exact runTable_valuesIn hnamed hins hu hfa


lemma expandLoop_ok_some {db : DB} {s : Schema} {ks ns : List String}
    {vs : List (List Value)}
    (hnamed : SchemaNamed s)
    (hks : ∀ t ∈ insertableTuples db s, keyFor t ∈ ks)
    (hns : ∀ n ∈ Schema.names s, n ∈ ns)
    (hins : ∀ t ∈ insertableTuples db s, t ∈ vs) :
    ∀ (fuel : Nat) (sel0 sel : Selection),
      ExpInv s ks ns sel0 → ValuesIn vs sel0 →
      expandLoop db s fuel sel0 = .ok (some sel) →
      ∃ selPrev, ExpInv s ks ns selPrev ∧ ValuesIn vs selPrev ∧
        runRound db s selPrev = .ok (sel, false) := by
  intro fuel
  induction fuel with
  | zero =>
    intro sel0 sel _ _ h
    simp [expandLoop] at h
  | succ f ih =>
    intro sel0 sel hinv hvi h
    unfold expandLoop at h
    cases hrr : runRound db s sel0 with
    | error e =>
      rw [hrr] at h
      simp at h
    | ok st =>
      rw [hrr] at h
      simp only [okBind, okBindE] at h
      cases hch : st.2 with
      | true =>
        rw [if_pos (by rw [hch])] at h
        have hg := runRound_growth hnamed hks hns hinv
          (show runRound db s sel0 = .ok (st.1, st.2) from hrr)
        have hv := runRound_valuesIn hnamed hins hvi
          (show runRound db s sel0 = .ok (st.1, st.2) from hrr)
        exact ih st.1 sel hg.1 hv h
      | false =>
        rw [if_neg (by simp [hch])] at h
        simp only [Except.ok.injEq, Option.some.injEq] at h
        refine ⟨sel0, hinv, hvi, ?_⟩
        rw [hrr, show st = (st.1, st.2) from rfl, hch, h]


lemma contains_iff_tuple {l : List (List Value)} {a : List Value} :
    l.contains a = true ↔ a ∈ l := List.elem_iff

lemma selectFKValues_complete {db : DB} {ct : Table} {g : FKGroup}
    {childSet : PKSet} {refVals : List (List Value)} {cpc : List String × Bool}
    (hcpc : tablePKColumns ct = .ok cpc)
    (hcols : childSet.cols = cpc.1)
    (h : selectFKValues db ct g childSet = .ok refVals)
    {r : Row} (hr : r ∈ dbRows db ct.name)
    (ht : rowTuple r cpc.1 ∈ childSet.values)
    (hnn : g.fromCols.all (fun c => !(rowGet r c == Value.vnull)) = true) :
    rowTuple r g.fromCols ∈ refVals := by
  unfold selectFKValues at h
  rw [hcpc] at h
  simp only [okBind, okBindE] at h
  have hvb : childSet.valuesByColumns cpc.1 = .ok childSet.values := by
    unfold PKSet.valuesByColumns
    rw [if_neg (tablePKColumns_ne_nil hcpc), if_pos hcols.symm]
  rw [hvb] at h
  simp only [okBind, okBindE] at h
  have hne : childSet.values ≠ [] := by
    intro he
    rw [he] at ht
    exact absurd ht (List.not_mem_nil _)
  rw [if_neg hne] at h
  simp only [pureExcept, Except.ok.injEq] at h
  rw [← h]
  have hmem : rowTuple r cpc.1 ∈ (chunkValues childSet.values 500).flatten := by
    rw [chunkValues_flatten]
    exact ht
  rw [List.mem_flatten] at hmem
  obtain ⟨chunk, hchunk, hrchunk⟩ := hmem
  rw [List.mem_flatten]
  refine ⟨_, List.mem_map.mpr ⟨chunk, hchunk, rfl⟩, ?_⟩
  rw [mem_eraseDups]
  refine List.mem_map.mpr ⟨r, List.mem_filter.mpr ⟨hr, ?_⟩, rfl⟩
  rw [Bool.and_eq_true]
  exact ⟨contains_iff_tuple.mpr hrchunk, hnn⟩

lemma selectParentPKs_nochange {db : DB} {pt : Table} {g : FKGroup}
    {refVals : List (List Value)} {ps : PKSet} {sel U1 : Selection}
    {ppc : List String × Bool}
    (hppc : tablePKColumns pt = .ok ppc)
    {v : List Value} (hv : v ∈ refVals)
    {pr : Row} (hpr : pr ∈ dbRows db pt.name) (hprv : rowTuple pr g.toCols = v)
    (h : selectParentPKs db pt g refVals ps sel = .ok (U1, false)) :
    keyFor (rowTuple pr ppc.1) ∈ ps.keys := by
  unfold selectParentPKs at h
  rw [hppc] at h
  simp only [okBind, okBindE, pureExcept, Except.ok.injEq, Prod.mk.injEq] at h
  obtain ⟨_, hch⟩ := h
  have hvc : v ∈ (chunkValues refVals 500).flatten := by
    rw [chunkValues_flatten]
    exact hv
  rw [List.mem_flatten] at hvc
  obtain ⟨chunk, hchunk, hvchunk⟩ := hvc
  have htup : rowTuple pr ppc.1 ∈ ((chunkValues refVals 500).map (fun chunk =>
      ((dbRows db pt.name).filter
          (fun r => chunk.contains (rowTuple r g.toCols))).map
        (fun r => rowTuple r ppc.1))).flatten := by
    rw [List.mem_flatten]
    refine ⟨_, List.mem_map.mpr ⟨chunk, hchunk, rfl⟩, ?_⟩
    refine List.mem_map.mpr ⟨pr, List.mem_filter.mpr ⟨hpr, ?_⟩, rfl⟩
    rw [hprv]
    exact contains_iff_tuple.mpr hvchunk
  have := addAll_mem_keys _ ps _ htup
  rw [addAll_false_eq _ _ hch] at this
  exact this

lemma addParentKeys_nochange {db : DB} {pt : Table} {g : FKGroup}
    {refVals : List (List Value)} {V U1 : Selection} {ppc : List String × Bool}
    (hppc : tablePKColumns pt = .ok ppc)
    {v : List Value} (hv : v ∈ refVals)
    {pr : Row} (hpr : pr ∈ dbRows db pt.name) (hprv : rowTuple pr g.toCols = v)
    (h : addParentKeys db pt g refVals V = .ok (U1, false)) :
    (∃ ps, V.get g.refTable = some ps ∧ ps.cols = g.toCols ∧
      keyFor v ∈ ps.keys) ∨
    keyFor (rowTuple pr ppc.1) ∈ keysOf V g.refTable := by
  unfold addParentKeys at h
  have hnil : refVals ≠ [] := by
    intro he
    rw [he] at hv
    exact absurd hv (List.not_mem_nil v)
  rw [if_neg hnil] at h
  cases hget : V.get g.refTable with
  | some ps =>
    rw [hget] at h
    simp only [okBind, okBindE] at h
    by_cases hcols : (ps.cols == g.toCols) = true
    · rw [if_pos hcols] at h
      simp only [pureExcept, Except.ok.injEq, Prod.mk.injEq] at h
      refine Or.inl ⟨ps, rfl, beq_iff_eq.mp hcols, ?_⟩
      have := addAll_mem_keys refVals ps v hv
      rw [addAll_false_eq _ _ h.2] at this
      exact this
    · rw [if_neg hcols] at h
      refine Or.inr ?_
      rw [keysOf_get_some hget]
      exact selectParentPKs_nochange hppc hv hpr hprv h
  | none =>
    rw [hget] at h
    rw [hppc] at h
    simp only [okBind, okBindE] at h
    by_cases hcols : ((NewPKSet ppc.1).cols == g.toCols) = true
    · rw [if_pos hcols] at h
      simp only [pureExcept, Except.ok.injEq, Prod.mk.injEq] at h
      have := addAll_mem_keys refVals (NewPKSet ppc.1) v hv
      rw [addAll_false_eq _ _ h.2] at this
      exact absurd this (List.not_mem_nil _)
    · rw [if_neg hcols] at h
      have := selectParentPKs_nochange hppc hv hpr hprv h
      exact absurd this (List.not_mem_nil _)

end Pinkmask
